import Mathlib

/-!
Background-hit flagging: TrkHitReco/src/FlagBkgHits_module.cc

A shallow embedding of `FlagBkgHits::countHits`, `FlagBkgHits::countPlanes`,
`FlagBkgHits::fillBkgQual`, `FlagBkgHits::produce` and the clusterer choice of the
constructor, followed by `TimeClusterFilter::filter`
(TrkFilters/src/TimeClusterFilter_module.cc) and the comparison operators of `DPIndex`
(ToyDP/inc/DPIndex.hh).

Modelling conventions.
* `float` values are rationals; rounding, NaN and infinities are outside the model.
  A quotient written `a / b` in a descriptor field stands for the `float` quotient the
  code assigns.  Rounding is looked at in one place, the quotient stored in `nphits`:
  `floatDiv` gives its single-precision value.
  The only float comparisons the control flow depends on are `cqual[np] >= _minnp`
  (`np` is at most the number of planes, and the conversion of integers to `float` is
  monotone and exact below `2 ^ 24`) and `MVAOutput() > _bkgMVAcut`.
* `unsigned` variables wrap modulo `2 ^ 32`.  The `int` plane counters of
  `countPlanes` are natural numbers (signed overflow is not modelled).
* Undefined behaviour (an index outside a `std::vector` or `std::array` reached through
  `operator[]`, `front()` of an empty vector) makes a function return `none`.
* Types and constants the module uses but whose declarations are not among the sources
  (the flag enumerators, `StrawId::_nplanes`, `sqrtf`, the TMVA reader, the clusterer, the
  default-constructed `BkgQual`) are parameters collected in `Env`.
-/

namespace mu2e

/-- Modelled from the spec: the hit-state bitset ("a small bitset type recording hit
state"); `RecoDataProducts/inc/StrawHitFlag.hh` is not among the sources.  A flag is a
mask of bits, default-constructed empty. -/
structure StrawHitFlag where
  mask : Nat
deriving DecidableEq, Repr

namespace StrawHitFlag

/-- The flag holding the single bit at position `b` (construction from an enumerator). -/
def bit (b : Nat) : StrawHitFlag := ⟨2 ^ b⟩

/-- The default-constructed flag: no bit set. -/
def empty : StrawHitFlag := ⟨0⟩

/-- Logical OR of the two masks: `merge`. -/
def merge (f g : StrawHitFlag) : StrawHitFlag := ⟨f.mask ||| g.mask⟩

/-- All bits of `m` are set in `f`: `hasAllProperties`. -/
def hasAllProperties (f m : StrawHitFlag) : Bool := (f.mask &&& m.mask) == m.mask

/-- Some bit of `m` is set in `f`: `hasAnyProperty`. -/
def hasAnyProperty (f m : StrawHitFlag) : Bool := (f.mask &&& m.mask) != 0

end StrawHitFlag

/-- Bit positions of the `StrawHitFlag` enumerators named by the module. -/
structure StrawHitFlagBits where
  stereo : Nat
  active : Nat
  isolated : Nat
  bkg : Nat
  bkgclust : Nat
deriving DecidableEq, Repr

/-- Bit positions of the `BkgClusterFlag` enumerators named by the module. -/
structure BkgClusterFlagBits where
  iso : Nat
  bkg : Nat
deriving DecidableEq, Repr

/-- Cartesian three-vector. -/
structure XYZVec where
  x : ℚ
  y : ℚ
  z : ℚ
deriving DecidableEq

namespace XYZVec

/-- The difference `a - b`. -/
def sub (a b : XYZVec) : XYZVec := ⟨a.x - b.x, a.y - b.y, a.z - b.z⟩

/-- The scalar product `a.Dot(b)`. -/
def dot (a b : XYZVec) : ℚ := a.x * b.x + a.y * b.y + a.z * b.z

/-- The squared length `mag2()`. -/
def mag2 (a : XYZVec) : ℚ := a.dot a

/-- The squared transverse radius `perp2()`. -/
def perp2 (a : XYZVec) : ℚ := a.x * a.x + a.y * a.y

/-- The vector `PerpVector(a, Geom::ZDir())`: the component of `a` transverse to the z axis. -/
def perpZ (a : XYZVec) : XYZVec := ⟨a.x, a.y, 0⟩

/-- The vector `a.unit()`: `a` divided by its length, `a` itself when the length is zero. -/
def unit (sqrtf : ℚ → ℚ) (a : XYZVec) : XYZVec :=
  let tot := sqrtf a.mag2
  if tot = 0 then a else ⟨a.x / tot, a.y / tot, a.z / tot⟩

end XYZVec

/-- The fields of a `ComboHit` the module reads. -/
structure ComboHit where
  pos : XYZVec
  time : ℚ
  wdir : XYZVec
  wres : ℚ
  tres : ℚ
  plane : Nat
  nStrawHits : Nat
  flag : StrawHitFlag
deriving DecidableEq

/-- A `ComboHitCollection`: the hits and the parent linkage. -/
structure ComboHitCollection where
  hits : List ComboHit
  parent : Nat
deriving DecidableEq

/-- A cluster member: index into the hit collection and flag snapshot. -/
structure BkgClusterHit where
  index : Nat
  flag : StrawHitFlag
deriving DecidableEq

/-- A background cluster. -/
structure BkgCluster where
  pos : XYZVec
  time : ℚ
  hits : List BkgClusterHit
  flag : Nat
deriving DecidableEq

/-- The status values of `MVAStatus`. -/
inductive MVAStatus where
  | unset
  | filled
  | calculated
deriving DecidableEq, Repr

/-- The quality descriptor `BkgQual`: the thirteen variables, the classifier output and
the status. -/
structure BkgQual where
  hrho : ℚ
  shrho : ℚ
  crho : ℚ
  zmin : ℚ
  zmax : ℚ
  zgap : ℚ
  np : ℚ
  npexp : ℚ
  npfrac : ℚ
  nphits : ℚ
  nhits : ℚ
  sfrac : ℚ
  sdt : ℚ
  mvaout : ℚ
  status : MVAStatus
deriving DecidableEq

/-- Modelled from the spec: what the spec says of a freshly created descriptor
(`RecoDataProducts/inc/BkgQual.hh` is not among the sources): status UNSET and the
spread fields at the sentinel -1.0 ("sentinel -1.0 retained"). -/
def BkgQual.Fresh (q : BkgQual) : Prop :=
  q.status = MVAStatus.unset ∧ q.hrho = -1 ∧ q.shrho = -1 ∧ q.sdt = -1 ∧
    q.zmin = -1 ∧ q.zmax = -1 ∧ q.zgap = -1

instance (q : BkgQual) : Decidable q.Fresh := by
  unfold BkgQual.Fresh; infer_instance

/-- What the module takes from declarations that are not among the sources. -/
structure Env where
  /-- The constant `StrawId::_nplanes`. -/
  nplanes : Nat
  /-- The `StrawHitFlag` enumerators. -/
  sh : StrawHitFlagBits
  /-- The `BkgClusterFlag` enumerators. -/
  bc : BkgClusterFlagBits
  /-- The function `sqrtf`. -/
  sqrtf : ℚ → ℚ
  /-- The call `_reader.EvaluateMVA`, a function of the values held in `_mvavars`. -/
  EvaluateMVA : List ℚ → ℚ
  /-- The default-constructed `BkgQual`. -/
  fresh : BkgQual
  /-- The call `_clusterer->findClusters`. -/
  findClusters : ComboHitCollection → List BkgCluster
  /-- The call `fillStrawHitIndices(event, ich, shids)` of the hit collection. -/
  fillStrawHitIndices : Nat → List Nat

/-- The configuration members of `FlagBkgHits`. -/
structure Config where
  filter : Bool
  flagch : Bool
  flagsh : Bool
  minnhits : Nat
  minnstereo : Nat
  minnp : Nat
  maxisolated : Nat
  savebkg : Bool
  bkgmsk : StrawHitFlag
  cperr2 : ℚ
  useMVA : Bool
  bkgMVAcut : ℚ

/-- The flag `StrawHitFlag::active` as a mask. -/
def Env.active (env : Env) : StrawHitFlag := StrawHitFlag.bit env.sh.active

/-- The flag `StrawHitFlag::stereo` as a mask. -/
def Env.stereo (env : Env) : StrawHitFlag := StrawHitFlag.bit env.sh.stereo

/-! ## countHits -/

/-- The loop of `countHits` over the members still to visit, from the running
`nactive`, `nstereo`. -/
def countHitsLoop (env : Env) (chcol : List ComboHit) :
    List BkgClusterHit → Nat → Nat → Option (Nat × Nat)
  | [], nactive, nstereo => some (nactive, nstereo)
  | chit :: rest, nactive, nstereo =>
    match chcol[chit.index]? with
    | none => none
    | some ch =>
      if chit.flag.hasAllProperties env.active then
        if chit.flag.hasAllProperties env.stereo then
          countHitsLoop env chcol rest ((nactive + ch.nStrawHits) % 2 ^ 32)
            ((nstereo + ch.nStrawHits) % 2 ^ 32)
        else
          countHitsLoop env chcol rest ((nactive + ch.nStrawHits) % 2 ^ 32) nstereo
      else
        countHitsLoop env chcol rest nactive nstereo

/-- The function `FlagBkgHits::countHits`: the pair `(nactive, nstereo)`. -/
def countHits (env : Env) (chcol : List ComboHit) (cluster : BkgCluster) :
    Option (Nat × Nat) :=
  countHitsLoop env chcol cluster.hits 0 0

/-! ## countPlanes -/

/-- The first loop of `countPlanes`: the plane counters after the members still to
visit have been added to `hitplanes`. -/
def fillHitPlanes (env : Env) (chcol : List ComboHit) :
    List BkgClusterHit → (Nat → Nat) → Option (Nat → Nat)
  | [], hitplanes => some hitplanes
  | chit :: rest, hitplanes =>
    if chit.flag.hasAllProperties env.active then
      match chcol[chit.index]? with
      | none => none
      | some ch =>
        if ch.plane < env.nplanes then
          fillHitPlanes env chcol rest
            (Function.update hitplanes ch.plane (hitplanes ch.plane + ch.nStrawHits))
        else none
    else
      fillHitPlanes env chcol rest hitplanes

/-- The loop `while (hitplanes[ipmin]==0) ++ipmin;` with `ipmin = ip` and `left` planes
from `ip` to the end of the array: reading past the end is undefined. -/
def scanUp (hitplanes : Nat → Nat) : Nat → Nat → Option Nat
  | 0, _ => none
  | left + 1, ip => if hitplanes ip = 0 then scanUp hitplanes left (ip + 1) else some ip

/-- The loop `while (hitplanes[ipmax]==0) --ipmax;` with `ipmax + 1 = k`: decrementing
the unsigned `ipmax` below zero leaves the array. -/
def scanDown (hitplanes : Nat → Nat) : Nat → Option Nat
  | 0 => none
  | k + 1 => if hitplanes k = 0 then scanDown hitplanes k else some k

/-- The counters `npexp`, `np`, `nphits` of `countPlanes`. -/
structure PlaneCount where
  npexp : Nat
  np : Nat
  nphits : Nat
deriving DecidableEq, Repr

/-- One turn of the loop `for(unsigned ip = ipmin; ip <= ipmax; ++ip)`. -/
def planeStep (hitplanes : Nat → Nat) (c : PlaneCount) (ip : Nat) : PlaneCount :=
  { npexp := (c.npexp + 1) % 2 ^ 32
    np := if hitplanes ip > 0 then (c.np + 1) % 2 ^ 32 else c.np
    nphits := (c.nphits + hitplanes ip) % 2 ^ 32 }

/-- The integer part of `countPlanes`: plane counters, range scan and counting loop. -/
def countPlanesCore (env : Env) (chcol : List ComboHit) (cluster : BkgCluster) :
    Option PlaneCount :=
  match fillHitPlanes env chcol cluster.hits (fun _ => 0) with
  | none => none
  | some hitplanes =>
    match scanUp hitplanes env.nplanes 0 with
    | none => none
    | some ipmin =>
      match scanDown hitplanes env.nplanes with
      | none => none
      | some ipmax =>
        some ((List.range' ipmin (ipmax + 1 - ipmin)).foldl (planeStep hitplanes) ⟨0, 0, 0⟩)

/-- The four assignments closing `countPlanes`: `np`, `npexp`, `npfrac`, `nphits`. -/
def BkgQual.withPlanes (cqual : BkgQual) (c : PlaneCount) : BkgQual :=
  { cqual with
    np := (c.np : ℚ)
    npexp := (c.npexp : ℚ)
    npfrac := (c.np : ℚ) / (c.npexp : ℚ)
    nphits := (c.nphits : ℚ) / (c.np : ℚ) }

/-- The function `FlagBkgHits::countPlanes`: the descriptor with the four plane fields
written. -/
def countPlanes (env : Env) (chcol : List ComboHit) (cluster : BkgCluster)
    (cqual : BkgQual) : Option BkgQual :=
  match countPlanesCore env chcol cluster with
  | none => none
  | some c => some (cqual.withPlanes c)

/-! ## fillBkgQual -/

/-- The samples gathered by the loop of `fillBkgQual` over the active members: the
radial accumulator `racc` (sample and weight), the time accumulator `tacc`, and `hz`. -/
structure SpreadAcc where
  racc : List (ℚ × ℚ)
  tacc : List ℚ
  hz : List ℚ
deriving DecidableEq

/-- The loop of `fillBkgQual` over the members still to visit. -/
def spreadLoop (env : Env) (cfg : Config) (chcol : List ComboHit) (cluster : BkgCluster)
    (nactive : Nat) : List BkgClusterHit → SpreadAcc → Option SpreadAcc
  | [], acc => some acc
  | chit :: rest, acc =>
    if chit.flag.hasAllProperties env.active then
      match chcol[chit.index]? with
      | none => none
      | some ch =>
        let dt := ch.time - cluster.time
        let psep := (ch.pos.sub cluster.pos).perpZ
        let rho := env.sqrtf psep.mag2
        let pdir := psep.unit env.sqrtf
        let tdir : XYZVec := ⟨-ch.wdir.y, ch.wdir.x, 0⟩
        let rwerr := ch.wres * pdir.dot ch.wdir
        let rterr := ch.tres * pdir.dot tdir
        let rwt := 1 / env.sqrtf (rwerr * rwerr + rterr * rterr + cfg.cperr2 / (nactive : ℚ))
        spreadLoop env cfg chcol cluster nactive rest
          { racc := acc.racc ++ [(rho, rwt)], tacc := acc.tacc ++ [dt], hz := acc.hz ++ [ch.pos.z] }
    else
      spreadLoop env cfg chcol cluster nactive rest acc

/-- The result `extract_result<tag::weighted_mean>`. -/
def weightedMean (racc : List (ℚ × ℚ)) : ℚ :=
  (racc.map (fun s => s.2 * s.1)).sum / (racc.map (fun s => s.2)).sum

/-- The result `extract_result<tag::weighted_variance>`: weighted second moment minus the
square of the weighted mean. -/
def weightedVariance (racc : List (ℚ × ℚ)) : ℚ :=
  (racc.map (fun s => s.2 * (s.1 * s.1))).sum / (racc.map (fun s => s.2)).sum
    - weightedMean racc * weightedMean racc

/-- The result `extract_result<tag::variance>` of the lazy variance: second moment minus
the square of the mean. -/
def variance (tacc : List ℚ) : ℚ :=
  (tacc.map (fun x => x * x)).sum / (tacc.length : ℚ)
    - (tacc.sum / (tacc.length : ℚ)) * (tacc.sum / (tacc.length : ℚ))

/-- The loop finding the biggest gap between consecutive elements of the sorted `hz`. -/
def zgapLoop : List ℚ → ℚ → ℚ
  | a :: b :: rest, zgap => zgapLoop (b :: rest) (if b - a > zgap then b - a else zgap)
  | _, zgap => zgap

/-- The assignment `_mvavars[k] = x`; writing past the end of the vector is undefined. -/
def setVar (mvavars : List ℚ) (k : Nat) (x : ℚ) : Option (List ℚ) :=
  if k < mvavars.length then some (mvavars.set k x) else none

/-- The nine assignments to `_mvavars` of `fillBkgQual`, in source order. -/
def loadVars (mvavars : List ℚ) (q : BkgQual) : Option (List ℚ) :=
  (setVar mvavars 0 q.hrho).bind fun v0 =>
  (setVar v0 1 q.shrho).bind fun v1 =>
  (setVar v1 2 q.crho).bind fun v2 =>
  (setVar v2 3 q.zmin).bind fun v3 =>
  (setVar v3 4 q.zmax).bind fun v4 =>
  (setVar v4 5 q.zgap).bind fun v5 =>
  (setVar v5 6 q.np).bind fun v6 =>
  (setVar v6 7 q.npfrac).bind fun v7 =>
  setVar v7 8 q.nhits

/-- What a call of `fillBkgQual` leaves behind: the descriptor, the mutable member
`_mvavars`, and two records of the call: the values passed to `setMVAStatus` in order,
and the input vectors on which the classifier was evaluated. -/
structure FillResult where
  cqual : BkgQual
  mvavars : List ℚ
  statusLog : List MVAStatus
  mvaCalls : List (List ℚ)
deriving DecidableEq

/-- The branch of `fillBkgQual` taken once the plane-count check has passed. -/
def fillSpread (env : Env) (cfg : Config) (chcol : List ComboHit) (mvavars : List ℚ)
    (cluster : BkgCluster) (nactive : Nat) (q : BkgQual) : Option FillResult :=
  match spreadLoop env cfg chcol cluster nactive cluster.hits ⟨[], [], []⟩ with
  | none => none
  | some acc =>
    let hz := acc.hz.insertionSort (fun a b => a ≤ b)
    match hz.head?, hz.getLast? with
    | some front, some back =>
      let q3 : BkgQual := { q with
        hrho := weightedMean acc.racc
        shrho := env.sqrtf (max (weightedVariance acc.racc) 0)
        sdt := env.sqrtf (max (variance acc.tacc) 0)
        zmin := front
        zmax := back
        zgap := zgapLoop hz 0
        status := MVAStatus.filled }
      if cfg.useMVA then
        match loadVars mvavars q3 with
        | none => none
        | some vars =>
          some { cqual := { q3 with mvaout := env.EvaluateMVA vars, status := MVAStatus.calculated }
                 mvavars := vars
                 statusLog := [MVAStatus.unset, MVAStatus.filled, MVAStatus.calculated]
                 mvaCalls := [vars] }
      else
        some { cqual := q3, mvavars := mvavars
               statusLog := [MVAStatus.unset, MVAStatus.filled], mvaCalls := [] }
    | _, _ => none

/-- The three assignments of `fillBkgQual` that follow the hit-count checks:
`nhits`, `sfrac`, `crho`. -/
def BkgQual.withCounts (cqual : BkgQual) (nactive nstereo : Nat) (crho : ℚ) : BkgQual :=
  { cqual with
    nhits := (nactive : ℚ)
    sfrac := (nstereo : ℚ) / (nactive : ℚ)
    crho := crho }

/-- The six assignments of the `else` branch of the plane-count check. -/
def BkgQual.withSentinel (cqual : BkgQual) : BkgQual :=
  { cqual with hrho := -1, shrho := -1, sdt := -1, zmin := -1, zmax := -1, zgap := -1 }

/-- The call `setMVAStatus`. -/
def BkgQual.setMVAStatus (cqual : BkgQual) (st : MVAStatus) : BkgQual :=
  { cqual with status := st }

/-- The function `FlagBkgHits::fillBkgQual` on the descriptor `cqual`. -/
def fillBkgQual (env : Env) (cfg : Config) (chcol : List ComboHit) (mvavars : List ℚ)
    (cluster : BkgCluster) (cqual : BkgQual) : Option FillResult :=
  match countHits env chcol cluster with
  | none => none
  | some (nactive, nstereo) =>
    let q0 := cqual.setMVAStatus MVAStatus.unset
    if nactive ≥ cfg.minnhits ∧ nstereo ≥ cfg.minnstereo then
      match countPlanes env chcol cluster
          (q0.withCounts nactive nstereo (env.sqrtf cluster.pos.perp2)) with
      | none => none
      | some q2 =>
        if q2.np ≥ (cfg.minnp : ℚ) then
          fillSpread env cfg chcol mvavars cluster nactive q2
        else
          some { cqual := q2.withSentinel
                 mvavars := mvavars, statusLog := [MVAStatus.unset], mvaCalls := [] }
    else
      some { cqual := q0, mvavars := mvavars, statusLog := [MVAStatus.unset], mvaCalls := [] }

/-! ## produce -/

/-- The hit flag `flag` that the loop of `produce` over the clusters computes for one
cluster from its descriptor, and the cluster with its own flag merged. -/
def classify (env : Env) (cfg : Config) (cluster : BkgCluster) (cqual : BkgQual) :
    StrawHitFlag × BkgCluster :=
  let flag0 := StrawHitFlag.bit env.sh.bkgclust
  let flag1 :=
    if cluster.hits.length ≤ cfg.maxisolated then
      flag0.merge (StrawHitFlag.bit env.sh.isolated)
    else flag0
  let cl1 : BkgCluster :=
    if cluster.hits.length ≤ cfg.maxisolated ∧ cfg.savebkg = true then
      { cluster with flag := cluster.flag ||| 2 ^ env.bc.iso }
    else cluster
  let flag2 :=
    if cqual.mvaout > cfg.bkgMVAcut then flag1.merge (StrawHitFlag.bit env.sh.bkg) else flag1
  let cl2 : BkgCluster :=
    if cqual.mvaout > cfg.bkgMVAcut ∧ cfg.savebkg = true then
      { cl1 with flag := cl1.flag ||| 2 ^ env.bc.bkg }
    else cl1
  (flag2, cl2)

/-- The loop `for (auto const& chit : cluster.hits()) chfcol[chit.index()] = flag;`. -/
def assignFlags (flag : StrawHitFlag) :
    List BkgClusterHit → List StrawHitFlag → Option (List StrawHitFlag)
  | [], chfcol => some chfcol
  | chit :: rest, chfcol =>
    if chit.index < chfcol.length then
      assignFlags flag rest (chfcol.set chit.index flag)
    else none

/-- The variables the loop over the clusters carries: the flag vector `chfcol`, the
clusters already visited (as the loop leaves them in `bkgccol`), the descriptors pushed
to `bkgqcol`, and the member `_mvavars`. -/
structure LoopState where
  chfcol : List StrawHitFlag
  bkgccol : List BkgCluster
  bkgqcol : List BkgQual
  mvavars : List ℚ
deriving DecidableEq

/-- One turn of the loop of `produce` over the clusters. -/
def clusterStep (env : Env) (cfg : Config) (chcol : List ComboHit) (st : LoopState)
    (cluster : BkgCluster) : Option LoopState :=
  match fillBkgQual env cfg chcol st.mvavars cluster env.fresh with
  | none => none
  | some r =>
    match assignFlags (classify env cfg cluster r.cqual).1 cluster.hits st.chfcol with
    | none => none
    | some chfcol =>
      some { chfcol := chfcol
             bkgccol := st.bkgccol ++ [(classify env cfg cluster r.cqual).2]
             bkgqcol := if cfg.savebkg then st.bkgqcol ++ [r.cqual] else st.bkgqcol
             mvavars := r.mvavars }

/-- The loop of `produce` over the clusters still to visit. -/
def clusterLoop (env : Env) (cfg : Config) (chcol : List ComboHit) :
    List BkgCluster → LoopState → Option LoopState
  | [], st => some st
  | cluster :: rest, st =>
    match clusterStep env cfg chcol st cluster with
    | none => none
    | some st2 => clusterLoop env cfg chcol rest st2

/-- The loop building the filtered collection: hit `ich` is copied when `chfcol[ich]`
has no bit of the mask, and `chfcol[ich]` is merged into the flag of the copy. -/
def filterHits (bkgmsk : StrawHitFlag) : List ComboHit → List StrawHitFlag → List ComboHit
  | ch :: hits, flag :: flags =>
    if !flag.hasAnyProperty bkgmsk then
      { ch with flag := ch.flag.merge flag } :: filterHits bkgmsk hits flags
    else filterHits bkgmsk hits flags
  | _, _ => []

/-- The exceptions `produce` raises. -/
inductive Exception where
  | sizesDontMatch
  | outOfRange
deriving DecidableEq, Repr

/-- The loop `for(auto shid : shids) shfcol->at(shid).merge(flag);`: `at` throws on an
index outside the vector. -/
def mergeAt (flag : StrawHitFlag) :
    List Nat → List StrawHitFlag → Except Exception (List StrawHitFlag)
  | [], shfcol => Except.ok shfcol
  | shid :: rest, shfcol =>
    match shfcol[shid]? with
    | none => Except.error Exception.outOfRange
    | some f => mergeAt flag rest (shfcol.set shid (f.merge flag))

/-- The loop copying the flags down to straw-hit level, over the flags `chfcol[ich]`
still to visit, `ich` being the index of the first of them. -/
def strawLoop (env : Env) :
    List StrawHitFlag → Nat → List StrawHitFlag → Except Exception (List StrawHitFlag)
  | [], _, shfcol => Except.ok shfcol
  | flag :: flags, ich, shfcol =>
    match mergeAt flag (env.fillStrawHitIndices ich) shfcol with
    | Except.error e => Except.error e
    | Except.ok shfcol2 => strawLoop env flags (ich + 1) shfcol2

/-- The products `produce` has put into the event. -/
structure Products where
  chcol : Option ComboHitCollection
  shfcol : Option (List StrawHitFlag)
  chfcol : Option (List StrawHitFlag)
  bkgccol : Option (List BkgCluster)
  bkgqcol : Option (List BkgQual)
deriving DecidableEq

/-- How a call of `produce` ends: the products put so far, the exception if one was
thrown, and the member `_mvavars`. -/
structure ProduceResult where
  products : Products
  thrown : Option Exception
  mvavars : List ℚ
deriving DecidableEq

/-- The loop merging the original flags into `chfcol`. -/
def mergeOriginal : List StrawHitFlag → List ComboHit → List StrawHitFlag
  | flag :: flags, ch :: hits => flag.merge ch.flag :: mergeOriginal flags hits
  | _, _ => []

/-- The end of `produce`: the `_flagch` and `_savebkg` blocks. -/
def produceTail (cfg : Config) (chcol : ComboHitCollection) (st : LoopState)
    (p : Products) : ProduceResult :=
  let p1 : Products :=
    if cfg.flagch then { p with chfcol := some (mergeOriginal st.chfcol chcol.hits) } else p
  let p2 : Products :=
    if cfg.savebkg then { p1 with bkgccol := some st.bkgccol, bkgqcol := some st.bkgqcol }
    else p1
  { products := p2, thrown := none, mvavars := st.mvavars }

/-- The function `FlagBkgHits::produce` on the hit collection `chcol`, a straw-hit
collection of `shcolSize` hits and the straw-level combo hits `shchcol`. -/
def produce (env : Env) (cfg : Config) (chcol : ComboHitCollection) (shcolSize : Nat)
    (shchcol : List ComboHit) (mvavars : List ℚ) : Option ProduceResult :=
  match clusterLoop env cfg chcol.hits (env.findClusters chcol)
      ⟨List.replicate chcol.hits.length StrawHitFlag.empty, [], [], mvavars⟩ with
  | none => none
  | some st =>
    let p0 : Products := ⟨none, none, none, none, none⟩
    let p1 : Products :=
      if cfg.filter then
        { p0 with chcol := some ⟨filterHits cfg.bkgmsk chcol.hits st.chfcol, chcol.parent⟩ }
      else p0
    if cfg.flagsh then
      if shcolSize ≠ shchcol.length then
        some { products := p1, thrown := some Exception.sizesDontMatch, mvavars := st.mvavars }
      else
        match strawLoop env st.chfcol 0 (shchcol.map (fun ch => ch.flag)) with
        | Except.error e => some { products := p1, thrown := some e, mvavars := st.mvavars }
        | Except.ok shfcol => some (produceTail cfg chcol st { p1 with shfcol := some shfcol })
    else
      some (produceTail cfg chcol st p1)

/-! ## Reference quantities, stated on the cluster rather than on the loops -/

/-- Every member of the cluster refers to a hit of the collection. -/
def IndicesValid (chcol : List ComboHit) (cluster : BkgCluster) : Prop :=
  ∀ chit ∈ cluster.hits, chit.index < chcol.length

instance (chcol : List ComboHit) (cluster : BkgCluster) :
    Decidable (IndicesValid chcol cluster) := by
  unfold IndicesValid; infer_instance

/-- Every hit of the collection lies on one of the `nplanes` planes, and `nplanes`
is a value of type `unsigned`. -/
def PlanesValid (env : Env) (chcol : List ComboHit) : Prop :=
  env.nplanes < 2 ^ 32 ∧ ∀ ch ∈ chcol, ch.plane < env.nplanes

instance (env : Env) (chcol : List ComboHit) : Decidable (PlanesValid env chcol) := by
  unfold PlanesValid; infer_instance

/-- The multiplicity an active member contributes; nothing for other members. -/
def activeMult (env : Env) (chcol : List ComboHit) (chit : BkgClusterHit) : Nat :=
  if chit.flag.hasAllProperties env.active then
    match chcol[chit.index]? with
    | some ch => ch.nStrawHits
    | none => 0
  else 0

/-- The multiplicity an active member contributes to plane `p`. -/
def planeMult (env : Env) (chcol : List ComboHit) (p : Nat) (chit : BkgClusterHit) : Nat :=
  if chit.flag.hasAllProperties env.active then
    match chcol[chit.index]? with
    | some ch => if ch.plane = p then ch.nStrawHits else 0
    | none => 0
  else 0

/-- The number of straw hits of the active members of the cluster. -/
def activeHits (env : Env) (chcol : List ComboHit) (cluster : BkgCluster) : Nat :=
  (cluster.hits.map (activeMult env chcol)).sum

/-- The number of straw hits of the active members of the cluster on plane `p`. -/
def planeHits (env : Env) (chcol : List ComboHit) (cluster : BkgCluster) (p : Nat) : Nat :=
  (cluster.hits.map (planeMult env chcol p)).sum

/-- The number of planes on which the cluster has at least one active straw hit. -/
def occupiedPlanes (env : Env) (chcol : List ComboHit) (cluster : BkgCluster) : Nat :=
  ((List.range env.nplanes).filter (fun p => 0 < planeHits env chcol cluster p)).length

/-- The cluster has an active straw hit on some plane. -/
def HasActiveHit (env : Env) (chcol : List ComboHit) (cluster : BkgCluster) : Prop :=
  ∃ p, p < env.nplanes ∧ 0 < planeHits env chcol cluster p

instance (env : Env) (chcol : List ComboHit) (cluster : BkgCluster) :
    Decidable (HasActiveHit env chcol cluster) := by
  unfold HasActiveHit; infer_instance

/-- The z coordinates of the active members, in member order. -/
def activeZ (env : Env) (chcol : List ComboHit) : List BkgClusterHit → List ℚ
  | [] => []
  | chit :: rest =>
    if chit.flag.hasAllProperties env.active then
      match chcol[chit.index]? with
      | some ch => ch.pos.z :: activeZ env chcol rest
      | none => activeZ env chcol rest
    else activeZ env chcol rest

/-- A hit with its flag erased: what is compared when the flag is ignored. -/
def eraseFlag (ch : ComboHit) : ComboHit := { ch with flag := StrawHitFlag.empty }

/-- The hits the filter keeps, stated on the pairs of a hit and the flag `chfcol[ich]` the
cluster loop left for it: the pairs whose flag has no bit of the mask, each hit with that
flag merged into its own. -/
def keptHits (bkgmsk : StrawHitFlag) (hits : List ComboHit) (chfcol : List StrawHitFlag) :
    List ComboHit :=
  ((hits.zip chfcol).filter (fun p => !p.2.hasAnyProperty bkgmsk)).map
    (fun p => { p.1 with flag := p.1.flag.merge p.2 })

/-! ## The constructor -/

/-- The clusterer objects the constructor of `FlagBkgHits` can create. -/
inductive BkgClusterer where
  | TLTClusterer
  | TNTClusterer
  | TNTBClusterer
deriving DecidableEq, Repr

/-- The exception the constructor raises, with the selector it prints. -/
inductive ConfigException where
  | unknownClusterer (ctype : Int)
deriving DecidableEq, Repr

/-- The choice of clusterer in the constructor: `selector` is the integer parameter
`Clusterer` of the parameter set, `none` when the parameter is absent (then
`pset.get<int>` answers `TwoLevelThreshold = 1`); the `static_cast` keeps the integer,
and the `switch` creates the clusterer or throws in its `default` label. -/
def makeClusterer (selector : Option Int) : Except ConfigException BkgClusterer :=
  let ctype : Int := selector.getD 1
  if ctype = 1 then Except.ok BkgClusterer.TLTClusterer
  else if ctype = 2 then Except.ok BkgClusterer.TNTClusterer
  else if ctype = 3 then Except.ok BkgClusterer.TNTBClusterer
  else Except.error (ConfigException.unknownClusterer ctype)

/-- The names of the variables of `BkgQual`. -/
inductive BkgVar where
  | hrho
  | shrho
  | crho
  | zmin
  | zmax
  | zgap
  | np
  | npexp
  | npfrac
  | nphits
  | nhits
  | sfrac
  | sdt
deriving DecidableEq, Repr

/-- The call `varValue`: the value of the variable of that name. -/
def BkgQual.varValue (q : BkgQual) : BkgVar → ℚ
  | BkgVar.hrho => q.hrho
  | BkgVar.shrho => q.shrho
  | BkgVar.crho => q.crho
  | BkgVar.zmin => q.zmin
  | BkgVar.zmax => q.zmax
  | BkgVar.zgap => q.zgap
  | BkgVar.np => q.np
  | BkgVar.npexp => q.npexp
  | BkgVar.npfrac => q.npfrac
  | BkgVar.nphits => q.nphits
  | BkgVar.nhits => q.nhits
  | BkgVar.sfrac => q.sfrac
  | BkgVar.sdt => q.sdt

/-- The loop of the constructor over `MVANames` (each name given as the variable it
names): one slot of `_mvavars` per name, set to 0; the reader's input of that name reads
that slot. -/
def initVars (varnames : List BkgVar) : List ℚ := varnames.map (fun _ => 0)

/-- The variables `fillBkgQual` copies into the slots 0 to 8 of `_mvavars`, in the order
of its nine assignments. -/
def fixedOrder : List BkgVar :=
  [BkgVar.hrho, BkgVar.shrho, BkgVar.crho, BkgVar.zmin, BkgVar.zmax, BkgVar.zgap,
    BkgVar.np, BkgVar.npfrac, BkgVar.nhits]

/-! ## Reference quantities for the counts and the z extent -/

/-- The multiplicity `nStrawHits` of the hit a member refers to. -/
def multiplicity (chcol : List ComboHit) (chit : BkgClusterHit) : Nat :=
  match chcol[chit.index]? with
  | some ch => ch.nStrawHits
  | none => 0

/-- The sum of the multiplicities over exactly the members whose snapshot flag has the
active bit. -/
def activeSum (env : Env) (chcol : List ComboHit) (cluster : BkgCluster) : Nat :=
  ((cluster.hits.filter (fun chit => chit.flag.hasAllProperties env.active)).map
    (multiplicity chcol)).sum

/-- The sum of the multiplicities over exactly the members whose snapshot flag has both
the active and the stereo bit. -/
def stereoSum (env : Env) (chcol : List ComboHit) (cluster : BkgCluster) : Nat :=
  ((cluster.hits.filter (fun chit => chit.flag.hasAllProperties env.active &&
      chit.flag.hasAllProperties env.stereo)).map (multiplicity chcol)).sum

/-- The differences between consecutive elements of a list. -/
def consecutiveGaps : List ℚ → List ℚ
  | a :: b :: rest => (b - a) :: consecutiveGaps (b :: rest)
  | _ => []

/-- The largest difference between consecutive elements, 0 when there is none. -/
def maxGap (l : List ℚ) : ℚ := (consecutiveGaps l).foldr max 0

/-- The descriptor `fillBkgQual` holds when it sets the status to FILLED: the spread
fields computed from the samples `acc`, `front` and `back` being the ends of the sorted
`hz`. -/
def spreadDescriptor (env : Env) (q : BkgQual) (acc : SpreadAcc) (front back : ℚ) :
    BkgQual :=
  { q with
    hrho := weightedMean acc.racc
    shrho := env.sqrtf (max (weightedVariance acc.racc) 0)
    sdt := env.sqrtf (max (variance acc.tacc) 0)
    zmin := front
    zmax := back
    zgap := zgapLoop (acc.hz.insertionSort (fun a b => a ≤ b)) 0
    status := MVAStatus.filled }

/-! ## TimeClusterFilter (TrkFilters/src/TimeClusterFilter_module.cc) -/

/-- What `TimeClusterFilter::filter` reads of a `TimeCluster`: the number of hits, the
time `t0().t0()`, and whether `caloCluster()` is non-null. -/
structure TimeCluster where
  nhits : Nat
  t0 : ℚ
  hasCaloCluster : Bool
deriving DecidableEq

namespace TimeClusterFilter

/-- The configuration members of `TimeClusterFilter`. -/
structure Config where
  hascc : Bool
  minnhits : Nat
  mintime : ℚ
  maxtime : ℚ

/-- The counters `_nevt`, `_npass`. -/
structure Counters where
  nevt : Nat
  npass : Nat
deriving DecidableEq, Repr

/-- The selection tested on a time cluster in the loop of `filter`. -/
def selected (cfg : Config) (tc : TimeCluster) : Bool :=
  (!cfg.hascc || tc.hasCaloCluster) && decide (tc.nhits ≥ cfg.minnhits) &&
    decide (tc.t0 > cfg.mintime) && decide (tc.t0 < cfg.maxtime)

/-- The variables the loop of `filter` carries: `retval`, `_npass` and the indices
pushed to `triginfo->_hitClusters`. -/
structure LoopVars where
  retval : Bool
  npass : Nat
  hitClusters : List Nat
deriving DecidableEq, Repr

/-- The loop of `filter` over the clusters still to visit, `index` being the distance of
the first of them from the beginning of the collection. -/
def filterLoop (cfg : Config) : List TimeCluster → Nat → LoopVars → LoopVars
  | [], _, v => v
  | tc :: rest, index, v =>
    if selected cfg tc = true then
      filterLoop cfg rest (index + 1)
        { retval := true, npass := (v.npass + 1) % 2 ^ 32,
          hitClusters := v.hitClusters ++ [index] }
    else filterLoop cfg rest (index + 1) v

/-- The result of a call of `filter`: the value returned, the `TriggerInfo` put into the
event (its `_hitClusters`, as indices into the collection) and the counters. -/
structure Result where
  retval : Bool
  hitClusters : List Nat
  counters : Counters
deriving DecidableEq, Repr

/-- The function `TimeClusterFilter::filter` on the collection `tccol`. -/
def filter (cfg : Config) (c : Counters) (tccol : List TimeCluster) : Result :=
  let v := filterLoop cfg tccol 0 ⟨false, c.npass, []⟩
  { retval := v.retval, hitClusters := v.hitClusters
    counters := { nevt := (c.nevt + 1) % 2 ^ 32, npass := v.npass } }

/-- A run: `filter` called on the events in turn; the counters at the end and the value
returned for each event. -/
def run (cfg : Config) : List (List TimeCluster) → Counters → Counters × List Bool
  | [], c => (c, [])
  | ev :: rest, c =>
    let r := filter cfg c ev
    let out := run cfg rest r.counters
    (out.1, r.retval :: out.2)

end TimeClusterFilter

/-! ## DPIndex (ToyDP/inc/DPIndex.hh) -/

/-- The operators `==` and `<` of `ProductID`, whose declaration is not among the
sources. -/
structure ProductIDOps (PID : Type) where
  eq : PID → PID → Bool
  lt : PID → PID → Bool

/-- The struct `DPIndex`: a product id and an index. -/
structure DPIndex (PID : Type) where
  id : PID
  index : Nat

namespace DPIndex

/-- The function `operator==`. -/
def opEq {PID : Type} (ops : ProductIDOps PID) (lhs rhs : DPIndex PID) : Bool :=
  ops.eq lhs.id rhs.id && decide (lhs.index = rhs.index)

/-- The function `operator!=`. -/
def opNe {PID : Type} (ops : ProductIDOps PID) (lhs rhs : DPIndex PID) : Bool :=
  !(opEq ops lhs rhs)

/-- The function `operator<`. -/
def opLt {PID : Type} (ops : ProductIDOps PID) (lhs rhs : DPIndex PID) : Bool :=
  ops.lt lhs.id rhs.id || (ops.eq lhs.id rhs.id && decide (lhs.index < rhs.index))

end DPIndex

/-- The operators of a `ProductID` form a strict total order with `==` deciding
equality. -/
def ProductIDOps.StrictTotal {PID : Type} (ops : ProductIDOps PID) : Prop :=
  (∀ a b, ops.eq a b = true ↔ a = b) ∧
  (∀ a, ops.lt a a = false) ∧
  (∀ a b c, ops.lt a b = true → ops.lt b c = true → ops.lt a c = true) ∧
  (∀ a b, a ≠ b → ops.lt a b = true ∨ ops.lt b a = true)

/-- Sample operators: product ids that are natural numbers. -/
def natOps : ProductIDOps Nat :=
  { eq := fun a b => decide (a = b), lt := fun a b => decide (a < b) }

/-! ## The divisions of fillBkgQual and countPlanes -/

/-- The divisors met in one turn of the loop of `fillBkgQual` on an active member:
`nactive` in `_cperr2/nactive`, the length `tot` by which `psep.unit()` divides (`none`
when the length is zero and `unit()` does not divide), and the value
`sqrtf(rwerr*rwerr + rterr*rterr + _cperr2/nactive)` that divides `1.0` in the weight
`rwt`. -/
structure MemberDivisors where
  cperr : Nat
  unit : Option ℚ
  rwt : ℚ
deriving DecidableEq

/-- The divisors met in the loop of `fillBkgQual` over the members still to visit, in
member order. -/
def spreadDivisors (env : Env) (cfg : Config) (chcol : List ComboHit) (cluster : BkgCluster)
    (nactive : Nat) : List BkgClusterHit → Option (List MemberDivisors)
  | [] => some []
  | chit :: rest =>
    if chit.flag.hasAllProperties env.active then
      match chcol[chit.index]? with
      | none => none
      | some ch =>
        let psep := (ch.pos.sub cluster.pos).perpZ
        let tot := env.sqrtf psep.mag2
        let pdir := psep.unit env.sqrtf
        let tdir : XYZVec := ⟨-ch.wdir.y, ch.wdir.x, 0⟩
        let rwerr := ch.wres * pdir.dot ch.wdir
        let rterr := ch.tres * pdir.dot tdir
        let m : MemberDivisors :=
          { cperr := nactive
            unit := if tot = 0 then none else some tot
            rwt := env.sqrtf (rwerr * rwerr + rterr * rterr + cfg.cperr2 / (nactive : ℚ)) }
        (spreadDivisors env cfg chcol cluster nactive rest).map (fun ds => m :: ds)
    else
      spreadDivisors env cfg chcol cluster nactive rest

/-- The divisors a call of `fillBkgQual` uses; a field is `none` (the list empty) when the
call does not reach that division.  Field `sfrac` is `nactive` in
`static_cast<float>(nstereo)/nactive`, `npfrac` is `npexp` in `np/static_cast<float>(npexp)`,
`nphits` is `np` in `nphits/static_cast<float>(np)`, `members` lists the divisors of the
loop over the active members, `weights` is the sum of weights of `racc` (the divisor of
the weighted mean and variance), `samples` the number of samples of `tacc` (the divisor of
the variance), and `hz` the size of the sorted `hz` when `front()` and `back()` are read. -/
structure Divisors where
  sfrac : Option Nat
  npfrac : Option Nat
  nphits : Option Nat
  members : List MemberDivisors
  weights : Option ℚ
  samples : Option Nat
  hz : Option Nat
deriving DecidableEq

/-- The divisors of a call of `fillBkgQual`, following its control flow: the division by
`nactive` comes before the call of `countPlanes`, so it is recorded also when `countPlanes`
runs off the plane array. -/
def divisors (env : Env) (cfg : Config) (chcol : List ComboHit) (cluster : BkgCluster) :
    Option Divisors :=
  match countHits env chcol cluster with
  | none => none
  | some (nactive, nstereo) =>
    if nactive ≥ cfg.minnhits ∧ nstereo ≥ cfg.minnstereo then
      match countPlanesCore env chcol cluster with
      | none => some ⟨some nactive, none, none, [], none, none, none⟩
      | some c =>
        if (c.np : ℚ) ≥ (cfg.minnp : ℚ) then
          match spreadLoop env cfg chcol cluster nactive cluster.hits ⟨[], [], []⟩,
              spreadDivisors env cfg chcol cluster nactive cluster.hits with
          | some acc, some ds =>
            some ⟨some nactive, some c.npexp, some c.np, ds,
              some (acc.racc.map (fun s => s.2)).sum, some acc.tacc.length,
              some (acc.hz.insertionSort (fun a b => a ≤ b)).length⟩
          | _, _ => some ⟨some nactive, some c.npexp, some c.np, [], none, none, none⟩
        else some ⟨some nactive, some c.npexp, some c.np, [], none, none, none⟩
    else some ⟨none, none, none, [], none, none, none⟩

/-! ## The single-precision quotient of countPlanes -/

/-- The integer part of the base-2 logarithm of `n`, by halving at most `fuel` times. -/
def ilog2Aux : Nat → Nat → Nat
  | 0, _ => 0
  | fuel + 1, n => if n < 2 then 0 else ilog2Aux fuel (n / 2) + 1

/-- The integer part of the base-2 logarithm of `n` (0 for `n = 0`). -/
def ilog2 (n : Nat) : Nat := ilog2Aux n n

/-- The `float` quotient `a/static_cast<float>(b)` of two integers with
`0 < b <= a < 2 ^ 24` (both are `float` values): the quotient rounded to a significand of
24 bits, to nearest, ties to even.  The result `(n, e)` stands for the value
`n * 2 ^ e / 2 ^ 23`, with `2 ^ e <= a / b < 2 ^ (e + 1)`. -/
def floatDiv (a b : Nat) : Nat × Nat :=
  let e := ilog2 (a / b)
  let num := a * 2 ^ (23 - e)
  let n := num / b
  let rem := num % b
  if 2 * rem < b then (n, e)
  else if b < 2 * rem then (n + 1, e)
  else if n % 2 = 0 then (n, e) else (n + 1, e)

/-! ## Sample inputs -/

/-- Sample enumerator positions. -/
def exBits : StrawHitFlagBits :=
  { stereo := 0, active := 16, isolated := 7, bkg := 6, bkgclust := 18 }

/-- An integer square root, standing for `sqrtf` in the samples. -/
def isqrt (x : ℚ) : ℚ := ((Nat.sqrt (x.num.toNat / x.den) : ℕ) : ℚ)

/-- A sample default-constructed descriptor: every field at -1, status unset. -/
def exFresh : BkgQual :=
  ⟨-1, -1, -1, -1, -1, -1, -1, -1, -1, -1, -1, -1, -1, -1, MVAStatus.unset⟩

/-- A sample configuration: `MinActiveHits = 3`, `MinStereoHits = 0`, `MinNPlanes = 2`,
`MaxIsolated = 1`, classifier enabled with cut 0, all outputs requested, mask
`Background`. -/
def exCfg : Config :=
  { filter := true, flagch := true, flagsh := true, minnhits := 3, minnstereo := 0
    minnp := 2, maxisolated := 1, savebkg := true, bkgmsk := StrawHitFlag.bit 6
    cperr2 := 100, useMVA := true, bkgMVAcut := 0 }

/-- A sample hit at `(x, y, z)` and time `t` on plane `plane`, of multiplicity `n`,
with flag `f`. -/
def mkHit (x y z t : ℚ) (plane n : Nat) (f : Nat) : ComboHit :=
  ⟨⟨x, y, z⟩, t, ⟨1, 0, 0⟩, 1, 1, plane, n, ⟨f⟩⟩

/-- Four sample hits on planes 0 to 3, of multiplicities 5, 5, 3, 2, and a fifth far away. -/
def exHits : List ComboHit :=
  [mkHit 3 4 10 1 0 5 (2 ^ 16 + 1), mkHit 3 5 20 2 1 5 (2 ^ 16 + 1), mkHit 4 4 35 1 2 3 (2 ^ 16),
    mkHit 3 3 40 3 3 2 (2 ^ 16), mkHit 300 400 900 50 30 1 (2 ^ 16 + 2 ^ 3)]

/-- A sample cluster of the first four sample hits, all active, the first two stereo:
15 active and 10 stereo straw hits on 4 planes. -/
def exCluster : BkgCluster :=
  ⟨⟨3, 4, 25⟩, 2, [⟨0, ⟨2 ^ 16 + 1⟩⟩, ⟨1, ⟨2 ^ 16 + 1⟩⟩, ⟨2, ⟨2 ^ 16⟩⟩, ⟨3, ⟨2 ^ 16⟩⟩], 0⟩

/-- A sample cluster holding only the fifth sample hit, active. -/
def exLone : BkgCluster := ⟨⟨300, 400, 900⟩, 50, [⟨4, ⟨2 ^ 16⟩⟩], 0⟩

/-- A sample cluster holding only the first sample hit, with a snapshot flag that is
not active. -/
def exIdle : BkgCluster := ⟨⟨3, 4, 10⟩, 1, [⟨0, ⟨1⟩⟩], 0⟩

/-- A sample environment of 36 planes; the sample classifier answers 1 when the ninth
input (`nhits`) is at least 10 and -1 otherwise; the sample clusterer returns the sample
cluster and the lone hit; combo hit `ich` is made of straw hit `ich` alone. -/
def exEnv : Env :=
  { nplanes := 36, sh := exBits, bc := ⟨0, 1⟩, sqrtf := isqrt
    EvaluateMVA := fun v => if 10 ≤ v.getD 8 0 then 1 else -1
    fresh := exFresh
    findClusters := fun _ => [exCluster, exLone]
    fillStrawHitIndices := fun ich => [ich] }

/-- A sample cluster of three hits that shares the fifth sample hit with `exLone`. -/
def exOverlap : BkgCluster :=
  ⟨⟨100, 100, 300⟩, 20, [⟨4, ⟨2 ^ 16⟩⟩, ⟨0, ⟨2 ^ 16 + 1⟩⟩, ⟨1, ⟨2 ^ 16 + 1⟩⟩], 0⟩

/-- The sample environment with a clusterer that returns two overlapping clusters. -/
def exEnvOverlap : Env := { exEnv with findClusters := fun _ => [exLone, exOverlap] }

/-- The sample state of `_mvavars`: nine zeros. -/
def exVars : List ℚ := List.replicate 9 0

/-- The sample environment with a clusterer that finds no cluster. -/
def exEnvNone : Env := { exEnv with findClusters := fun _ => [] }

/-- A sample collection of one hit that comes in with the `Background` bit (bit 6) set. -/
def exHitsBkg : List ComboHit := [mkHit 0 0 0 0 5 1 (2 ^ 16 + 2 ^ 6)]

/-- A sample list of classifier inputs: the nine variables the module copies, with `np`
and `nhits` exchanged. -/
def exNames : List BkgVar :=
  [BkgVar.hrho, BkgVar.shrho, BkgVar.crho, BkgVar.zmin, BkgVar.zmax, BkgVar.zgap,
    BkgVar.nhits, BkgVar.npfrac, BkgVar.np]

/-- A sample configuration of `TimeClusterFilter`: the default parameters. -/
def exTcfCfg : TimeClusterFilter.Config :=
  { hascc := false, minnhits := 11, mintime := 500, maxtime := 1695 }

/-- A sample event of three time clusters: the first and the third pass the default
selection, the second has too few hits. -/
def exTimeClusters : List TimeCluster :=
  [⟨12, 700, false⟩, ⟨5, 800, true⟩, ⟨20, 1000, true⟩]

/-- Seven sample hits on planes 0 to 6, of multiplicities 5, 5, 5, 4, 4, 4, 4. -/
def exHitsSeven : List ComboHit :=
  [mkHit 3 4 10 1 0 5 (2 ^ 16), mkHit 3 5 20 2 1 5 (2 ^ 16), mkHit 4 4 30 1 2 5 (2 ^ 16),
    mkHit 3 3 40 3 3 4 (2 ^ 16), mkHit 4 3 50 2 4 4 (2 ^ 16), mkHit 4 5 60 2 5 4 (2 ^ 16),
    mkHit 3 4 70 1 6 4 (2 ^ 16)]

/-- A sample cluster of the seven hits, all active: 31 straw hits on 7 planes. -/
def exSeven : BkgCluster :=
  ⟨⟨3, 4, 40⟩, 2, [⟨0, ⟨2 ^ 16⟩⟩, ⟨1, ⟨2 ^ 16⟩⟩, ⟨2, ⟨2 ^ 16⟩⟩, ⟨3, ⟨2 ^ 16⟩⟩, ⟨4, ⟨2 ^ 16⟩⟩,
    ⟨5, ⟨2 ^ 16⟩⟩, ⟨6, ⟨2 ^ 16⟩⟩], 0⟩

/-! ## Lemmas on countHits -/

theorem countHitsLoop_spec (env : Env) (chcol : List ComboHit) :
    ∀ (l : List BkgClusterHit) (na ns : Nat), (∀ chit ∈ l, chit.index < chcol.length) →
      ∃ ra rs, countHitsLoop env chcol l na ns = some (ra, rs) ∧
        ra % 2 ^ 32 = (na + (l.map (activeMult env chcol)).sum) % 2 ^ 32 ∧
        (na < 2 ^ 32 → ra < 2 ^ 32) ∧ (ns < 2 ^ 32 → rs < 2 ^ 32) := by
  intro l
  induction l with
  | nil => intro na ns _; exact ⟨na, ns, rfl, by simp, id, id⟩
  | cons chit rest ih =>
    intro na ns hv
    have hi : chit.index < chcol.length := hv chit (List.mem_cons_self _ _)
    have hr : ∀ c ∈ rest, c.index < chcol.length := fun c hc => hv c (List.mem_cons_of_mem _ hc)
    have hget : chcol[chit.index]? = some chcol[chit.index] := List.getElem?_eq_getElem hi
    have hlt : ∀ x : Nat, x % 2 ^ 32 < 2 ^ 32 := fun x => Nat.mod_lt _ (by norm_num)
    by_cases ha : chit.flag.hasAllProperties env.active = true
    · by_cases hs : chit.flag.hasAllProperties env.stereo = true
      · obtain ⟨ra, rs, h1, h2, h3, h4⟩ := ih ((na + chcol[chit.index].nStrawHits) % 2 ^ 32)
          ((ns + chcol[chit.index].nStrawHits) % 2 ^ 32) hr
        refine ⟨ra, rs, ?_, ?_, fun _ => h3 (hlt _), fun _ => h4 (hlt _)⟩
        · simp only [countHitsLoop, hget, if_pos ha, if_pos hs]; exact h1
        · simp only [List.map_cons, List.sum_cons, activeMult, hget, if_pos ha]
          omega
      · obtain ⟨ra, rs, h1, h2, h3, h4⟩ := ih ((na + chcol[chit.index].nStrawHits) % 2 ^ 32)
          ns hr
        refine ⟨ra, rs, ?_, ?_, fun _ => h3 (hlt _), h4⟩
        · simp only [countHitsLoop, hget, if_pos ha, if_neg hs]; exact h1
        · simp only [List.map_cons, List.sum_cons, activeMult, hget, if_pos ha]
          omega
    · obtain ⟨ra, rs, h1, h2, h3, h4⟩ := ih na ns hr
      refine ⟨ra, rs, ?_, ?_, h3, h4⟩
      · simp only [countHitsLoop, hget, if_neg ha]; exact h1
      · simp only [List.map_cons, List.sum_cons, activeMult, if_neg ha]
        omega

/-- With valid indices `countHits` returns, and `nactive` is the number of active straw
hits modulo `2 ^ 32`. -/
theorem countHits_spec (env : Env) (chcol : List ComboHit) (cluster : BkgCluster)
    (hv : IndicesValid chcol cluster) :
    ∃ na ns, countHits env chcol cluster = some (na, ns) ∧
      na = activeHits env chcol cluster % 2 ^ 32 := by
  obtain ⟨ra, rs, h1, h2, h3, _⟩ := countHitsLoop_spec env chcol cluster.hits 0 0 hv
  refine ⟨ra, rs, h1, ?_⟩
  have : ra < 2 ^ 32 := h3 (by norm_num)
  rw [Nat.mod_eq_of_lt this] at h2
  simpa [activeHits] using h2

/-! ## Lemmas on countPlanes -/

theorem fillHitPlanes_spec (env : Env) (chcol : List ComboHit)
    (hpv : ∀ ch ∈ chcol, ch.plane < env.nplanes) :
    ∀ (l : List BkgClusterHit) (hitplanes : Nat → Nat),
      (∀ chit ∈ l, chit.index < chcol.length) →
      fillHitPlanes env chcol l hitplanes =
        some (fun p => hitplanes p + (l.map (planeMult env chcol p)).sum) := by
  intro l
  induction l with
  | nil => intro hitplanes _; simp [fillHitPlanes]
  | cons chit rest ih =>
    intro hitplanes hv
    have hi : chit.index < chcol.length := hv chit (List.mem_cons_self _ _)
    have hr : ∀ c ∈ rest, c.index < chcol.length := fun c hc => hv c (List.mem_cons_of_mem _ hc)
    have hget : chcol[chit.index]? = some chcol[chit.index] := List.getElem?_eq_getElem hi
    by_cases ha : chit.flag.hasAllProperties env.active = true
    · have hpl : chcol[chit.index].plane < env.nplanes := hpv _ (List.getElem_mem hi)
      simp only [fillHitPlanes, if_pos ha, hget, if_pos hpl]
      rw [ih _ hr]
      congr 1
      funext p
      simp only [List.map_cons, List.sum_cons, planeMult, if_pos ha, hget]
      by_cases hp : chcol[chit.index].plane = p
      · subst hp
        simp only [Function.update_same, if_true]
        omega
      · rw [Function.update_noteq (Ne.symm hp), if_neg hp]
        omega
    · simp only [fillHitPlanes, if_neg ha]
      rw [ih _ hr]
      congr 1
      funext p
      simp only [List.map_cons, List.sum_cons, planeMult, if_neg ha]
      omega

theorem scanUp_some (hitplanes : Nat → Nat) :
    ∀ (left ip r : Nat), scanUp hitplanes left ip = some r →
      ip ≤ r ∧ r < ip + left ∧ hitplanes r ≠ 0 ∧ ∀ j, ip ≤ j → j < r → hitplanes j = 0 := by
  intro left
  induction left with
  | zero => intro ip r h; simp [scanUp] at h
  | succ left ih =>
    intro ip r h
    by_cases h0 : hitplanes ip = 0
    · simp only [scanUp, if_pos h0] at h
      obtain ⟨h1, h2, h3, h4⟩ := ih (ip + 1) r h
      refine ⟨by omega, by omega, h3, ?_⟩
      intro j hj1 hj2
      by_cases hj : j = ip
      · rw [hj]; exact h0
      · exact h4 j (by omega) hj2
    · simp only [scanUp, if_neg h0, Option.some.injEq] at h
      subst h
      exact ⟨le_refl _, by omega, h0, fun j hj1 hj2 => absurd hj2 (by omega)⟩

theorem scanUp_none (hitplanes : Nat → Nat) :
    ∀ (left ip : Nat), scanUp hitplanes left ip = none ↔
      ∀ j, ip ≤ j → j < ip + left → hitplanes j = 0 := by
  intro left
  induction left with
  | zero => intro ip; simp [scanUp]; intro j h1 h2; omega
  | succ left ih =>
    intro ip
    by_cases h0 : hitplanes ip = 0
    · simp only [scanUp, if_pos h0]
      rw [ih (ip + 1)]
      constructor
      · intro h j hj1 hj2
        by_cases hj : j = ip
        · rw [hj]; exact h0
        · exact h j (by omega) (by omega)
      · intro h j hj1 hj2
        exact h j (by omega) (by omega)
    · simp only [scanUp, if_neg h0]
      constructor
      · intro h; cases h
      · intro h; exact absurd (h ip (le_refl _) (by omega)) h0

theorem scanDown_some (hitplanes : Nat → Nat) :
    ∀ (k r : Nat), scanDown hitplanes k = some r →
      r < k ∧ hitplanes r ≠ 0 ∧ ∀ j, r < j → j < k → hitplanes j = 0 := by
  intro k
  induction k with
  | zero => intro r h; simp [scanDown] at h
  | succ k ih =>
    intro r h
    by_cases h0 : hitplanes k = 0
    · simp only [scanDown, if_pos h0] at h
      obtain ⟨h1, h2, h3⟩ := ih r h
      refine ⟨by omega, h2, ?_⟩
      intro j hj1 hj2
      by_cases hj : j = k
      · rw [hj]; exact h0
      · exact h3 j hj1 (by omega)
    · simp only [scanDown, if_neg h0, Option.some.injEq] at h
      subst h
      exact ⟨by omega, h0, fun j hj1 hj2 => absurd hj2 (by omega)⟩

theorem scanDown_none (hitplanes : Nat → Nat) :
    ∀ (k : Nat), scanDown hitplanes k = none ↔ ∀ j, j < k → hitplanes j = 0 := by
  intro k
  induction k with
  | zero => simp [scanDown]
  | succ k ih =>
    by_cases h0 : hitplanes k = 0
    · simp only [scanDown, if_pos h0]
      rw [ih]
      constructor
      · intro h j hj
        by_cases hjk : j = k
        · rw [hjk]; exact h0
        · exact h j (by omega)
      · intro h j hj
        exact h j (by omega)
    · simp only [scanDown, if_neg h0]
      constructor
      · intro h; cases h
      · intro h; exact absurd (h k (by omega)) h0

theorem planeStep_foldl (hitplanes : Nat → Nat) :
    ∀ (l : List Nat) (c : PlaneCount),
      c.npexp < 2 ^ 32 → c.np < 2 ^ 32 → c.nphits < 2 ^ 32 →
      (l.foldl (planeStep hitplanes) c).npexp = (c.npexp + l.length) % 2 ^ 32 ∧
      (l.foldl (planeStep hitplanes) c).np
        = (c.np + l.countP (fun ip => decide (0 < hitplanes ip))) % 2 ^ 32 ∧
      (l.foldl (planeStep hitplanes) c).nphits = (c.nphits + (l.map hitplanes).sum) % 2 ^ 32 := by
  intro l
  induction l with
  | nil =>
    intro c h1 h2 h3
    simp only [List.foldl_nil, List.length_nil, List.countP_nil, List.map_nil, List.sum_nil]
    omega
  | cons ip rest ih =>
    intro c h1 h2 h3
    have hlt : ∀ x : Nat, x % 2 ^ 32 < 2 ^ 32 := fun x => Nat.mod_lt _ (by norm_num)
    have hnp : (planeStep hitplanes c ip).np < 2 ^ 32 := by
      unfold planeStep
      by_cases hpos : hitplanes ip > 0
      · simp only [if_pos hpos]; exact hlt _
      · simp only [if_neg hpos]; exact h2
    obtain ⟨e1, e2, e3⟩ := ih (planeStep hitplanes c ip) (hlt _) hnp (hlt _)
    simp only [List.foldl_cons, List.length_cons, List.map_cons, List.sum_cons]
    refine ⟨?_, ?_, ?_⟩
    · rw [e1]; simp only [planeStep]; omega
    · rw [e2]
      by_cases hpos : hitplanes ip > 0
      · have hd : decide (0 < hitplanes ip) = true := by simpa using hpos
        rw [List.countP_cons]
        simp only [hd, if_true, planeStep, if_pos hpos]; omega
      · have hd : ¬ (decide (0 < hitplanes ip) = true) := by simpa using hpos
        rw [List.countP_cons]
        simp only [if_neg hd, planeStep, if_neg hpos, Nat.add_zero]
    · rw [e3]; simp only [planeStep]; omega

theorem fillHitPlanes_cluster (env : Env) (chcol : List ComboHit) (cluster : BkgCluster)
    (hv : IndicesValid chcol cluster) (hp : PlanesValid env chcol) :
    fillHitPlanes env chcol cluster.hits (fun _ => 0) = some (planeHits env chcol cluster) := by
  rw [fillHitPlanes_spec env chcol hp.2 cluster.hits _ hv]
  congr 1
  funext p
  simp [planeHits]

theorem countP_range_split (f : Nat → Nat) (n ipmin ipmax : Nat)
    (h1 : ipmin ≤ ipmax) (h2 : ipmax < n)
    (hlo : ∀ j, j < ipmin → f j = 0) (hhi : ∀ j, ipmax < j → j < n → f j = 0) :
    (List.range' ipmin (ipmax + 1 - ipmin)).countP (fun ip => decide (0 < f ip))
      = ((List.range n).filter (fun p => decide (0 < f p))).length := by
  have e1 : List.range n
      = List.range' 0 ipmin ++ (List.range' ipmin (ipmax + 1 - ipmin)
          ++ List.range' (ipmax + 1) (n - (ipmax + 1))) := by
    rw [List.range_eq_range']
    have a1 : List.range' ipmin (ipmax + 1 - ipmin) ++ List.range' (ipmax + 1) (n - (ipmax + 1))
        = List.range' ipmin (n - ipmin) := by
      have := List.range'_append_1 ipmin (ipmax + 1 - ipmin) (n - (ipmax + 1))
      rw [show ipmin + (ipmax + 1 - ipmin) = ipmax + 1 by omega,
        show n - (ipmax + 1) + (ipmax + 1 - ipmin) = n - ipmin by omega] at this
      exact this
    rw [a1]
    have := List.range'_append_1 0 ipmin (n - ipmin)
    rw [show 0 + ipmin = ipmin by omega, show n - ipmin + ipmin = n by omega] at this
    exact this.symm
  rw [← List.countP_eq_length_filter, e1, List.countP_append, List.countP_append]
  have z1 : (List.range' 0 ipmin).countP (fun ip => decide (0 < f ip)) = 0 := by
    rw [List.countP_eq_zero]
    intro a ha
    rw [List.mem_range'_1] at ha
    simp [hlo a (by omega)]
  have z2 : (List.range' (ipmax + 1) (n - (ipmax + 1))).countP (fun ip => decide (0 < f ip))
      = 0 := by
    rw [List.countP_eq_zero]
    intro a ha
    rw [List.mem_range'_1] at ha
    simp [hhi a (by omega) (by omega)]
  rw [z1, z2]
  omega

/-- The scanned range of `countPlanes`: its ends, and what the three counters hold.
With valid indices and planes and at least one active straw hit the function returns. -/
theorem countPlanesCore_spec (env : Env) (chcol : List ComboHit) (cluster : BkgCluster)
    (hv : IndicesValid chcol cluster) (hp : PlanesValid env chcol)
    (ha : HasActiveHit env chcol cluster) :
    ∃ ipmin ipmax c, countPlanesCore env chcol cluster = some c ∧
      ipmin ≤ ipmax ∧ ipmax < env.nplanes ∧
      0 < planeHits env chcol cluster ipmin ∧ 0 < planeHits env chcol cluster ipmax ∧
      (∀ j, j < ipmin → planeHits env chcol cluster j = 0) ∧
      (∀ j, ipmax < j → j < env.nplanes → planeHits env chcol cluster j = 0) ∧
      c.npexp = ipmax + 1 - ipmin ∧
      c.np = occupiedPlanes env chcol cluster ∧
      c.nphits = ((List.range' ipmin (ipmax + 1 - ipmin)).map
        (planeHits env chcol cluster)).sum % 2 ^ 32 := by
  obtain ⟨p, hpn, hpp⟩ := ha
  have hfill := fillHitPlanes_cluster env chcol cluster hv hp
  cases hup : scanUp (planeHits env chcol cluster) env.nplanes 0 with
  | none =>
    rw [scanUp_none] at hup
    have := hup p (Nat.zero_le _) (by omega)
    omega
  | some ipmin =>
    cases hdn : scanDown (planeHits env chcol cluster) env.nplanes with
    | none =>
      rw [scanDown_none] at hdn
      have := hdn p hpn
      omega
    | some ipmax =>
      obtain ⟨_, u2, u3, u4⟩ := scanUp_some _ _ _ _ hup
      obtain ⟨d1, d2, d3⟩ := scanDown_some _ _ _ hdn
      have hle : ipmin ≤ ipmax := by
        by_contra hlt
        exact u3 (d3 ipmin (by omega) (by omega))
      have hfold := planeStep_foldl (planeHits env chcol cluster)
        (List.range' ipmin (ipmax + 1 - ipmin)) ⟨0, 0, 0⟩ (by norm_num) (by norm_num) (by norm_num)
      obtain ⟨f1, f2, f3⟩ := hfold
      have hlo : ∀ j, j < ipmin → planeHits env chcol cluster j = 0 :=
        fun j hj => u4 j (Nat.zero_le _) hj
      have hcount := countP_range_split (planeHits env chcol cluster) env.nplanes ipmin ipmax
        hle d1 hlo d3
      have hbound : (List.range' ipmin (ipmax + 1 - ipmin)).countP
          (fun ip => decide (0 < planeHits env chcol cluster ip)) ≤ ipmax + 1 - ipmin := by
        have := List.countP_le_length (fun ip => decide (0 < planeHits env chcol cluster ip))
          (l := List.range' ipmin (ipmax + 1 - ipmin))
        rwa [List.length_range'] at this
      have hn := hp.1
      have hu3 : 0 < planeHits env chcol cluster ipmin := Nat.pos_of_ne_zero u3
      have hd2 : 0 < planeHits env chcol cluster ipmax := Nat.pos_of_ne_zero d2
      refine ⟨ipmin, ipmax, (List.range' ipmin (ipmax + 1 - ipmin)).foldl
        (planeStep (planeHits env chcol cluster)) ⟨0, 0, 0⟩, ?_, hle, d1, hu3, hd2, hlo, d3,
        ?_, ?_, ?_⟩
      · simp only [countPlanesCore, hfill, hup, hdn]
      · rw [f1, List.length_range']
        simp only [Nat.zero_add]
        exact Nat.mod_eq_of_lt (by omega)
      · rw [f2]
        simp only [Nat.zero_add]
        rw [Nat.mod_eq_of_lt (by omega), hcount]
        rfl
      · rw [f3]
        simp only [Nat.zero_add]

/-- Without an active straw hit the range scan of `countPlanes` leaves the array. -/
theorem countPlanesCore_none (env : Env) (chcol : List ComboHit) (cluster : BkgCluster)
    (hv : IndicesValid chcol cluster) (hp : PlanesValid env chcol)
    (ha : ¬ HasActiveHit env chcol cluster) :
    countPlanesCore env chcol cluster = none := by
  have hfill := fillHitPlanes_cluster env chcol cluster hv hp
  have hup : scanUp (planeHits env chcol cluster) env.nplanes 0 = none := by
    rw [scanUp_none]
    intro j _ hj
    by_contra hne
    exact ha ⟨j, by omega, by omega⟩
  simp only [countPlanesCore, hfill, hup]

/-! ## Lemmas on fillBkgQual -/

theorem spreadLoop_spec (env : Env) (cfg : Config) (chcol : List ComboHit)
    (cluster : BkgCluster) (nactive : Nat) :
    ∀ (l : List BkgClusterHit) (acc : SpreadAcc), (∀ chit ∈ l, chit.index < chcol.length) →
      ∃ acc2, spreadLoop env cfg chcol cluster nactive l acc = some acc2 ∧
        acc2.hz = acc.hz ++ activeZ env chcol l ∧
        acc2.racc.length = acc.racc.length + (activeZ env chcol l).length ∧
        acc2.tacc.length = acc.tacc.length + (activeZ env chcol l).length := by
  intro l
  induction l with
  | nil => intro acc _; exact ⟨acc, rfl, by simp [activeZ], by simp [activeZ], by simp [activeZ]⟩
  | cons chit rest ih =>
    intro acc hv
    have hi : chit.index < chcol.length := hv chit (List.mem_cons_self _ _)
    have hr : ∀ c ∈ rest, c.index < chcol.length := fun c hc => hv c (List.mem_cons_of_mem _ hc)
    have hget : chcol[chit.index]? = some chcol[chit.index] := List.getElem?_eq_getElem hi
    by_cases ha : chit.flag.hasAllProperties env.active = true
    · simp only [spreadLoop, if_pos ha, hget, activeZ]
      obtain ⟨acc2, h1, h2, h3, h4⟩ := ih _ hr
      refine ⟨acc2, h1, ?_, ?_, ?_⟩
      · rw [h2]; simp
      · rw [h3]; simp; omega
      · rw [h4]; simp; omega
    · simp only [spreadLoop, if_neg ha, activeZ]
      exact ih acc hr

theorem setVar_some (mvavars : List ℚ) (k : Nat) (x : ℚ) (h : k < mvavars.length) :
    ∃ v, setVar mvavars k x = some v ∧ v.length = mvavars.length :=
  ⟨mvavars.set k x, by simp [setVar, h], by simp⟩

theorem loadVars_some (mvavars : List ℚ) (q : BkgQual) (h : 9 ≤ mvavars.length) :
    ∃ v, loadVars mvavars q = some v ∧ v.length = mvavars.length := by
  obtain ⟨v0, e0, l0⟩ := setVar_some mvavars 0 q.hrho (by omega)
  obtain ⟨v1, e1, l1⟩ := setVar_some v0 1 q.shrho (by omega)
  obtain ⟨v2, e2, l2⟩ := setVar_some v1 2 q.crho (by omega)
  obtain ⟨v3, e3, l3⟩ := setVar_some v2 3 q.zmin (by omega)
  obtain ⟨v4, e4, l4⟩ := setVar_some v3 4 q.zmax (by omega)
  obtain ⟨v5, e5, l5⟩ := setVar_some v4 5 q.zgap (by omega)
  obtain ⟨v6, e6, l6⟩ := setVar_some v5 6 q.np (by omega)
  obtain ⟨v7, e7, l7⟩ := setVar_some v6 7 q.npfrac (by omega)
  obtain ⟨v8, e8, l8⟩ := setVar_some v7 8 q.nhits (by omega)
  refine ⟨v8, ?_, by omega⟩
  simp only [loadVars, e0, e1, e2, e3, e4, e5, e6, e7, e8, Option.bind_some, Option.some_bind]

/-- What `fillSpread` returns, when it returns: with the classifier the status ends at
`calculated` after `filled`, one evaluation on the final `_mvavars`; without it the status
ends at `filled`, nothing is evaluated, and the output and `_mvavars` are untouched.  The
count fields are the ones of the incoming descriptor. -/
theorem fillSpread_inv (env : Env) (cfg : Config) (chcol : List ComboHit) (mvavars : List ℚ)
    (cluster : BkgCluster) (nactive : Nat) (q : BkgQual) (r : FillResult)
    (h : fillSpread env cfg chcol mvavars cluster nactive q = some r) :
    (r.cqual.nhits = q.nhits ∧ r.cqual.sfrac = q.sfrac ∧ r.cqual.crho = q.crho ∧
      r.cqual.np = q.np ∧ r.cqual.npexp = q.npexp ∧ r.cqual.npfrac = q.npfrac ∧
      r.cqual.nphits = q.nphits) ∧
    ((cfg.useMVA = true ∧ r.cqual.status = MVAStatus.calculated ∧
        r.statusLog = [MVAStatus.unset, MVAStatus.filled, MVAStatus.calculated] ∧
        r.mvaCalls = [r.mvavars] ∧ r.cqual.mvaout = env.EvaluateMVA r.mvavars) ∨
     (cfg.useMVA = false ∧ r.cqual.status = MVAStatus.filled ∧
        r.statusLog = [MVAStatus.unset, MVAStatus.filled] ∧
        r.mvaCalls = [] ∧ r.mvavars = mvavars ∧ r.cqual.mvaout = q.mvaout)) := by
  unfold fillSpread at h
  cases hacc : spreadLoop env cfg chcol cluster nactive cluster.hits ⟨[], [], []⟩ with
  | none => simp [hacc] at h
  | some acc =>
    cases hf : (acc.hz.insertionSort (fun a b => a ≤ b)).head? with
    | none => simp [hacc, hf] at h
    | some front =>
      cases hb : (acc.hz.insertionSort (fun a b => a ≤ b)).getLast? with
      | none => simp [hacc, hf, hb] at h
      | some back =>
        simp only [hacc, hf, hb] at h
        by_cases hu : cfg.useMVA = true
        · simp only [hu, if_true] at h
          split at h
          · cases h
          · cases h
            exact ⟨⟨rfl, rfl, rfl, rfl, rfl, rfl, rfl⟩, Or.inl ⟨hu, rfl, rfl, rfl, rfl⟩⟩
        · simp only [hu] at h
          cases h
          exact ⟨⟨rfl, rfl, rfl, rfl, rfl, rfl, rfl⟩,
            Or.inr ⟨by simpa using hu, rfl, rfl, rfl, rfl, rfl⟩⟩

/-- When the cluster has an active member and `_mvavars` has room for the nine inputs,
`fillSpread` returns. -/
theorem fillSpread_some (env : Env) (cfg : Config) (chcol : List ComboHit) (mvavars : List ℚ)
    (cluster : BkgCluster) (nactive : Nat) (q : BkgQual)
    (hv : IndicesValid chcol cluster) (hz : activeZ env chcol cluster.hits ≠ [])
    (hm : cfg.useMVA = true → 9 ≤ mvavars.length) :
    ∃ r, fillSpread env cfg chcol mvavars cluster nactive q = some r := by
  obtain ⟨acc, hacc, hhz, _, _⟩ :=
    spreadLoop_spec env cfg chcol cluster nactive cluster.hits ⟨[], [], []⟩ hv
  have hne : acc.hz.insertionSort (fun a b => a ≤ b) ≠ [] := by
    intro hnil
    have hl := List.length_insertionSort (fun a b : ℚ => a ≤ b) acc.hz
    rw [hnil, hhz] at hl
    simp only [List.nil_append, List.length_nil] at hl
    exact hz (List.length_eq_zero.mp hl.symm)
  obtain ⟨front, hfront⟩ : ∃ a, (acc.hz.insertionSort (fun a b => a ≤ b)).head? = some a := by
    cases hs : acc.hz.insertionSort (fun a b => a ≤ b) with
    | nil => exact absurd hs hne
    | cons a t => exact ⟨a, rfl⟩
  obtain ⟨back, hback⟩ : ∃ a, (acc.hz.insertionSort (fun a b => a ≤ b)).getLast? = some a :=
    ⟨_, List.getLast?_eq_getLast _ hne⟩
  unfold fillSpread
  simp only [hacc, hfront, hback]
  by_cases hu : cfg.useMVA = true
  · simp only [hu, if_true]
    obtain ⟨v, hv9, _⟩ := loadVars_some mvavars _ (hm hu)
    rw [hv9]
    exact ⟨_, rfl⟩
  · simp only [hu]
    exact ⟨_, rfl⟩

theorem activeZ_ne_nil_of_planeMult (env : Env) (chcol : List ComboHit) (p : Nat) :
    ∀ l : List BkgClusterHit, 0 < (l.map (planeMult env chcol p)).sum →
      activeZ env chcol l ≠ [] := by
  intro l
  induction l with
  | nil => intro h; simp at h
  | cons chit rest ih =>
    intro h
    by_cases ha : chit.flag.hasAllProperties env.active = true
    · cases hg : chcol[chit.index]? with
      | none =>
        simp only [List.map_cons, List.sum_cons, planeMult, if_pos ha, hg, Nat.zero_add] at h
        simp only [activeZ, if_pos ha, hg]
        exact ih h
      | some ch => simp [activeZ, ha, hg]
    · simp only [List.map_cons, List.sum_cons, planeMult, if_neg ha, Nat.zero_add] at h
      simp only [activeZ, if_neg ha]
      exact ih h

theorem exists_plane_of_activeMult (env : Env) (chcol : List ComboHit)
    (hpv : ∀ ch ∈ chcol, ch.plane < env.nplanes) :
    ∀ l : List BkgClusterHit, 0 < (l.map (activeMult env chcol)).sum →
      ∃ p, p < env.nplanes ∧ 0 < (l.map (planeMult env chcol p)).sum := by
  intro l
  induction l with
  | nil => intro h; simp at h
  | cons chit rest ih =>
    intro h
    simp only [List.map_cons, List.sum_cons] at h
    by_cases hm : 0 < activeMult env chcol chit
    · unfold activeMult at hm
      by_cases ha : chit.flag.hasAllProperties env.active = true
      · cases hg : chcol[chit.index]? with
        | none => simp [ha, hg] at hm
        | some ch =>
          simp only [if_pos ha, hg] at hm
          have hmem : ch ∈ chcol := List.getElem?_mem hg
          refine ⟨ch.plane, hpv ch hmem, ?_⟩
          simp only [List.map_cons, List.sum_cons, planeMult, if_pos ha, hg, if_true]
          omega
      · simp [ha] at hm
    · obtain ⟨p, hp1, hp2⟩ := ih (by omega)
      refine ⟨p, hp1, ?_⟩
      simp only [List.map_cons, List.sum_cons]
      omega

/-- A cluster for which `countHits` finds `nactive >= 1` has an active straw hit. -/
theorem hasActiveHit_of_nactive (env : Env) (chcol : List ComboHit) (cluster : BkgCluster)
    (hv : IndicesValid chcol cluster) (hp : PlanesValid env chcol) (na ns : Nat)
    (hc : countHits env chcol cluster = some (na, ns)) (h1 : 1 ≤ na) :
    HasActiveHit env chcol cluster := by
  obtain ⟨na2, ns2, e, hna⟩ := countHits_spec env chcol cluster hv
  rw [hc] at e
  cases e
  have hpos : 0 < activeHits env chcol cluster := by
    by_contra h0
    have : activeHits env chcol cluster = 0 := by omega
    rw [this] at hna
    simp at hna
    omega
  exact exists_plane_of_activeMult env chcol hp.2 cluster.hits hpos

theorem activeZ_ne_nil (env : Env) (chcol : List ComboHit) (cluster : BkgCluster)
    (ha : HasActiveHit env chcol cluster) : activeZ env chcol cluster.hits ≠ [] := by
  obtain ⟨p, _, hp⟩ := ha
  exact activeZ_ne_nil_of_planeMult env chcol p cluster.hits hp

/-- The shape of every result of `fillBkgQual`: one of its three exits. -/
theorem fillBkgQual_inv (env : Env) (cfg : Config) (chcol : List ComboHit) (mvavars : List ℚ)
    (cluster : BkgCluster) (cqual : BkgQual) (r : FillResult)
    (h : fillBkgQual env cfg chcol mvavars cluster cqual = some r) :
    ∃ na ns, countHits env chcol cluster = some (na, ns) ∧
      ((¬ (cfg.minnhits ≤ na ∧ cfg.minnstereo ≤ ns) ∧
          r = ⟨cqual.setMVAStatus MVAStatus.unset, mvavars, [MVAStatus.unset], []⟩) ∨
       (cfg.minnhits ≤ na ∧ cfg.minnstereo ≤ ns ∧
          ∃ c, countPlanesCore env chcol cluster = some c ∧
            ((c.np < cfg.minnp ∧
                r = ⟨(((cqual.setMVAStatus MVAStatus.unset).withCounts na ns
                      (env.sqrtf cluster.pos.perp2)).withPlanes c).withSentinel,
                    mvavars, [MVAStatus.unset], []⟩) ∨
             (cfg.minnp ≤ c.np ∧
                fillSpread env cfg chcol mvavars cluster na
                  (((cqual.setMVAStatus MVAStatus.unset).withCounts na ns
                      (env.sqrtf cluster.pos.perp2)).withPlanes c) = some r)))) := by
  unfold fillBkgQual at h
  cases hc : countHits env chcol cluster with
  | none => simp [hc] at h
  | some pr =>
    obtain ⟨na, ns⟩ := pr
    refine ⟨na, ns, rfl, ?_⟩
    simp only [hc] at h
    by_cases hchk : na ≥ cfg.minnhits ∧ ns ≥ cfg.minnstereo
    · rw [if_pos hchk] at h
      right
      refine ⟨hchk.1, hchk.2, ?_⟩
      unfold countPlanes at h
      cases hcp : countPlanesCore env chcol cluster with
      | none => simp [hcp] at h
      | some c =>
        refine ⟨c, rfl, ?_⟩
        simp only [hcp] at h
        by_cases hnp : (((cqual.setMVAStatus MVAStatus.unset).withCounts na ns
            (env.sqrtf cluster.pos.perp2)).withPlanes c).np ≥ (cfg.minnp : ℚ)
        · rw [if_pos hnp] at h
          right
          refine ⟨?_, h⟩
          have : (cfg.minnp : ℚ) ≤ (c.np : ℚ) := hnp
          exact_mod_cast this
        · rw [if_neg hnp] at h
          left
          refine ⟨?_, ?_⟩
          · have : ¬ ((cfg.minnp : ℚ) ≤ (c.np : ℚ)) := hnp
            rw [Nat.cast_le] at this
            omega
          · cases h; rfl
    · rw [if_neg hchk] at h
      left
      exact ⟨hchk, by cases h; rfl⟩

/-! ## Claims on fillBkgQual -/

/-- With valid inputs and an active straw hit in the cluster whenever the hit-count
checks pass, `fillBkgQual` returns. -/
theorem fillBkgQual_some (env : Env) (cfg : Config) (chcol : List ComboHit)
    (mvavars : List ℚ) (cluster : BkgCluster) (cqual : BkgQual)
    (hv : IndicesValid chcol cluster) (hp : PlanesValid env chcol)
    (hact : 1 ≤ cfg.minnhits ∨ HasActiveHit env chcol cluster)
    (hm : cfg.useMVA = true → 9 ≤ mvavars.length) :
    ∃ r, fillBkgQual env cfg chcol mvavars cluster cqual = some r := by
  obtain ⟨na, ns, hc, _⟩ := countHits_spec env chcol cluster hv
  unfold fillBkgQual
  simp only [hc]
  by_cases hchk : na ≥ cfg.minnhits ∧ ns ≥ cfg.minnstereo
  · rw [if_pos hchk]
    have ha : HasActiveHit env chcol cluster := by
      rcases hact with h1 | h2
      · exact hasActiveHit_of_nactive env chcol cluster hv hp na ns hc (le_trans h1 hchk.1)
      · exact h2
    obtain ⟨ipmin, ipmax, c, hcore, _⟩ := countPlanesCore_spec env chcol cluster hv hp ha
    simp only [countPlanes, hcore]
    split
    · exact fillSpread_some env cfg chcol mvavars cluster na _ hv
        (activeZ_ne_nil env chcol cluster ha) hm
    · exact ⟨_, rfl⟩
  · rw [if_neg hchk]
    exact ⟨_, rfl⟩

/-- Claim C1, amended.  For valid inputs (member indices inside the hit collection, planes
inside the plane array, `_mvavars` holding the nine inputs when the classifier is enabled)
and `MinActiveHits >= 1` or a cluster with an active straw hit, `fillBkgQual` returns a
descriptor whose status is FILLED or SCORED exactly when `nactive >= MinActiveHits`,
`nstereo >= MinStereoHits` and the number of occupied planes is `>= MinNPlanes`; it is
SCORED exactly when in addition the classifier is enabled, and UNSET in every other
case. -/
theorem C1_status_iff_checks (env : Env) (cfg : Config) (chcol : List ComboHit)
    (mvavars : List ℚ) (cluster : BkgCluster) (cqual : BkgQual)
    (hv : IndicesValid chcol cluster) (hp : PlanesValid env chcol)
    (hact : 1 ≤ cfg.minnhits ∨ HasActiveHit env chcol cluster)
    (hm : cfg.useMVA = true → 9 ≤ mvavars.length) :
    ∃ na ns r, countHits env chcol cluster = some (na, ns) ∧
      fillBkgQual env cfg chcol mvavars cluster cqual = some r ∧
      ((r.cqual.status = MVAStatus.filled ∨ r.cqual.status = MVAStatus.calculated) ↔
        (cfg.minnhits ≤ na ∧ cfg.minnstereo ≤ ns ∧
          cfg.minnp ≤ occupiedPlanes env chcol cluster)) ∧
      (r.cqual.status = MVAStatus.calculated ↔
        (cfg.minnhits ≤ na ∧ cfg.minnstereo ≤ ns ∧
          cfg.minnp ≤ occupiedPlanes env chcol cluster ∧ cfg.useMVA = true)) ∧
      (r.cqual.status = MVAStatus.unset ↔
        ¬ (cfg.minnhits ≤ na ∧ cfg.minnstereo ≤ ns ∧
          cfg.minnp ≤ occupiedPlanes env chcol cluster)) := by
  obtain ⟨r, hr⟩ := fillBkgQual_some env cfg chcol mvavars cluster cqual hv hp hact hm
  obtain ⟨na, ns, hc, hcases⟩ := fillBkgQual_inv env cfg chcol mvavars cluster cqual r hr
  refine ⟨na, ns, r, hc, hr, ?_⟩
  rcases hcases with ⟨hno, rfl⟩ | ⟨h1, h2, c, hcore, hrest⟩
  · have hno2 : ¬ (cfg.minnhits ≤ na ∧ cfg.minnstereo ≤ ns ∧
        cfg.minnp ≤ occupiedPlanes env chcol cluster) := fun h => hno ⟨h.1, h.2.1⟩
    have hno3 : ¬ (cfg.minnhits ≤ na ∧ cfg.minnstereo ≤ ns ∧
        cfg.minnp ≤ occupiedPlanes env chcol cluster ∧ cfg.useMVA = true) :=
      fun h => hno ⟨h.1, h.2.1⟩
    simp only [BkgQual.setMVAStatus, hno2, hno3, iff_false, not_false_eq_true, iff_true]
    exact ⟨by simp, by simp⟩
  · have ha : HasActiveHit env chcol cluster := by
      rcases hact with h | h
      · exact hasActiveHit_of_nactive env chcol cluster hv hp na ns hc (le_trans h h1)
      · exact h
    obtain ⟨ipmin, ipmax, c2, hcore2, _, _, _, _, _, _, _, hnp, _⟩ :=
      countPlanesCore_spec env chcol cluster hv hp ha
    rw [hcore] at hcore2
    cases hcore2
    rcases hrest with ⟨hlt, rfl⟩ | ⟨hge, hsp⟩
    · have hno2 : ¬ (cfg.minnhits ≤ na ∧ cfg.minnstereo ≤ ns ∧
          cfg.minnp ≤ occupiedPlanes env chcol cluster) := fun h => by omega
      have hno3 : ¬ (cfg.minnhits ≤ na ∧ cfg.minnstereo ≤ ns ∧
          cfg.minnp ≤ occupiedPlanes env chcol cluster ∧ cfg.useMVA = true) :=
        fun h => by omega
      simp only [BkgQual.setMVAStatus, BkgQual.withCounts, BkgQual.withPlanes,
        BkgQual.withSentinel, hno2, hno3, iff_false, not_false_eq_true, iff_true]
      exact ⟨by simp, by simp⟩
    · have hyes : cfg.minnhits ≤ na ∧ cfg.minnstereo ≤ ns ∧
          cfg.minnp ≤ occupiedPlanes env chcol cluster := ⟨h1, h2, by omega⟩
      obtain ⟨_, hst⟩ := fillSpread_inv env cfg chcol mvavars cluster na _ r hsp
      rcases hst with ⟨hu, hs, _⟩ | ⟨hu, hs, _⟩
      · rw [hs]
        simp [hyes, hu]
      · rw [hs]
        simp [hyes, hu]

/-- Scenario B on the sample cluster (15 active, 10 stereo straw hits on 4 planes, with
`minnhits = 3`, `minnstereo = 0`, `minnp = 2`): claim C1 applies. -/
theorem C1_status_iff_checks_witness :
    IndicesValid exHits exCluster ∧ PlanesValid exEnv exHits ∧
    (1 ≤ exCfg.minnhits ∨ HasActiveHit exEnv exHits exCluster) ∧
    (exCfg.useMVA = true → 9 ≤ exVars.length) ∧
    ∃ na ns r, countHits exEnv exHits exCluster = some (na, ns) ∧
      fillBkgQual exEnv exCfg exHits exVars exCluster exFresh = some r ∧
      ((r.cqual.status = MVAStatus.filled ∨ r.cqual.status = MVAStatus.calculated) ↔
        (exCfg.minnhits ≤ na ∧ exCfg.minnstereo ≤ ns ∧
          exCfg.minnp ≤ occupiedPlanes exEnv exHits exCluster)) ∧
      (r.cqual.status = MVAStatus.calculated ↔
        (exCfg.minnhits ≤ na ∧ exCfg.minnstereo ≤ ns ∧
          exCfg.minnp ≤ occupiedPlanes exEnv exHits exCluster ∧ exCfg.useMVA = true)) ∧
      (r.cqual.status = MVAStatus.unset ↔
        ¬ (exCfg.minnhits ≤ na ∧ exCfg.minnstereo ≤ ns ∧
          exCfg.minnp ≤ occupiedPlanes exEnv exHits exCluster)) :=
  ⟨by decide, by decide, by decide, by decide,
    C1_status_iff_checks exEnv exCfg exHits exVars exCluster exFresh
      (by decide) (by decide) (by decide) (by decide)⟩

/-- Claim C1 as stated fails for `MinActiveHits = 0`: on a cluster whose only member is
not active the three checks hold (`nactive = 0 >= 0`, `nstereo = 0 >= 0`, occupied planes
`0 >= MinNPlanes = 0`), yet the range scan of `countPlanes` runs off the plane array and
no descriptor results. -/
theorem C1_counterexample :
    countHits exEnv exHits exIdle = some (0, 0) ∧
    occupiedPlanes exEnv exHits exIdle = 0 ∧
    fillBkgQual exEnv { exCfg with minnhits := 0, minnstereo := 0, minnp := 0 }
      exHits exVars exIdle exFresh = none := by
  decide

/-- Claim C2.  Within one call of `fillBkgQual` the values passed to `setMVAStatus`
are, in order, an initial segment of UNSET, FILLED, SCORED (so SCORED is never set unless
FILLED was set before it in the same call), the last of them is the status the descriptor
ends with, and FILLED is set only after `countPlanes` returned an `np` that passed the
check `np >= MinNPlanes`. -/
theorem C2_status_sequence (env : Env) (cfg : Config) (chcol : List ComboHit)
    (mvavars : List ℚ) (cluster : BkgCluster) (cqual : BkgQual) (r : FillResult)
    (h : fillBkgQual env cfg chcol mvavars cluster cqual = some r) :
    r.statusLog <+: [MVAStatus.unset, MVAStatus.filled, MVAStatus.calculated] ∧
    r.statusLog.getLast? = some r.cqual.status ∧
    (MVAStatus.calculated ∈ r.statusLog →
      r.statusLog = [MVAStatus.unset, MVAStatus.filled, MVAStatus.calculated]) ∧
    (MVAStatus.filled ∈ r.statusLog →
      ∃ c, countPlanesCore env chcol cluster = some c ∧ cfg.minnp ≤ c.np) := by
  obtain ⟨na, ns, _, hcases⟩ := fillBkgQual_inv env cfg chcol mvavars cluster cqual r h
  have p1 : [MVAStatus.unset] <+: [MVAStatus.unset, MVAStatus.filled, MVAStatus.calculated] :=
    ⟨[MVAStatus.filled, MVAStatus.calculated], rfl⟩
  have p2 : [MVAStatus.unset, MVAStatus.filled]
      <+: [MVAStatus.unset, MVAStatus.filled, MVAStatus.calculated] :=
    ⟨[MVAStatus.calculated], rfl⟩
  rcases hcases with ⟨_, rfl⟩ | ⟨_, _, c, hcore, hrest⟩
  · exact ⟨p1, rfl, by simp, by simp⟩
  · rcases hrest with ⟨_, rfl⟩ | ⟨hge, hsp⟩
    · exact ⟨p1, rfl, by simp, by simp⟩
    · obtain ⟨_, hst⟩ := fillSpread_inv env cfg chcol mvavars cluster na _ r hsp
      rcases hst with ⟨_, hs, hl, _⟩ | ⟨_, hs, hl, _⟩
      · rw [hl, hs]
        exact ⟨List.prefix_refl _, rfl, fun _ => rfl, fun _ => ⟨c, hcore, hge⟩⟩
      · rw [hl, hs]
        exact ⟨p2, rfl, by simp, fun _ => ⟨c, hcore, hge⟩⟩

/-- Claim C2 on the sample cluster, whose call runs through all three statuses. -/
theorem C2_status_sequence_witness :
    ∃ r, fillBkgQual exEnv exCfg exHits exVars exCluster exFresh = some r ∧
      r.statusLog <+: [MVAStatus.unset, MVAStatus.filled, MVAStatus.calculated] ∧
      r.statusLog.getLast? = some r.cqual.status ∧
      (MVAStatus.calculated ∈ r.statusLog →
        r.statusLog = [MVAStatus.unset, MVAStatus.filled, MVAStatus.calculated]) ∧
      (MVAStatus.filled ∈ r.statusLog →
        ∃ c, countPlanesCore exEnv exHits exCluster = some c ∧ exCfg.minnp ≤ c.np) :=
  match h : fillBkgQual exEnv exCfg exHits exVars exCluster exFresh with
  | some r => ⟨r, rfl, C2_status_sequence exEnv exCfg exHits exVars exCluster exFresh r h⟩
  | none => absurd h (by decide)

/-- Claim C3.  When the descriptor ends `fillBkgQual` with status UNSET, the classifier
was not evaluated, `_mvavars` was not written, and the classifier output of the descriptor
is the one it came in with (in `produce`: the one of a default-constructed descriptor). -/
theorem C3_unset_not_scored (env : Env) (cfg : Config) (chcol : List ComboHit)
    (mvavars : List ℚ) (cluster : BkgCluster) (cqual : BkgQual) (r : FillResult)
    (h : fillBkgQual env cfg chcol mvavars cluster cqual = some r)
    (hs : r.cqual.status = MVAStatus.unset) :
    r.mvaCalls = [] ∧ r.mvavars = mvavars ∧ r.cqual.mvaout = cqual.mvaout := by
  obtain ⟨na, ns, _, hcases⟩ := fillBkgQual_inv env cfg chcol mvavars cluster cqual r h
  rcases hcases with ⟨_, rfl⟩ | ⟨_, _, c, _, hrest⟩
  · exact ⟨rfl, rfl, rfl⟩
  · rcases hrest with ⟨_, rfl⟩ | ⟨_, hsp⟩
    · exact ⟨rfl, rfl, rfl⟩
    · obtain ⟨_, hst⟩ := fillSpread_inv env cfg chcol mvavars cluster na _ r hsp
      rcases hst with ⟨_, hs2, _⟩ | ⟨_, hs2, _⟩
      · rw [hs2] at hs; cases hs
      · rw [hs2] at hs; cases hs

/-- Claim C3 on the sample cluster of one straw hit, rejected by `minnhits = 3`. -/
theorem C3_unset_not_scored_witness :
    fillBkgQual exEnv exCfg exHits exVars exLone exFresh
      = some ⟨exFresh, exVars, [MVAStatus.unset], []⟩ ∧
    (FillResult.mk exFresh exVars [MVAStatus.unset] []).cqual.status = MVAStatus.unset ∧
    ((FillResult.mk exFresh exVars [MVAStatus.unset] []).mvaCalls = [] ∧
      (FillResult.mk exFresh exVars [MVAStatus.unset] []).mvavars = exVars ∧
      (FillResult.mk exFresh exVars [MVAStatus.unset] []).cqual.mvaout = exFresh.mvaout) :=
  ⟨by decide, rfl,
    C3_unset_not_scored exEnv exCfg exHits exVars exLone exFresh
      ⟨exFresh, exVars, [MVAStatus.unset], []⟩ (by decide) rfl⟩

/-- Claim C4.  For a cluster whose number of active straw hits is below `MinActiveHits`,
`fillBkgQual` on a freshly created descriptor returns it with status UNSET and with
`hrho`, `shrho`, `sdt` at the sentinel -1. -/
theorem C4_too_few_active (env : Env) (cfg : Config) (chcol : List ComboHit)
    (mvavars : List ℚ) (cluster : BkgCluster) (cqual : BkgQual)
    (hv : IndicesValid chcol cluster) (hf : cqual.Fresh)
    (hlt : activeHits env chcol cluster < cfg.minnhits) :
    ∃ r, fillBkgQual env cfg chcol mvavars cluster cqual = some r ∧
      r.cqual.status = MVAStatus.unset ∧
      r.cqual.hrho = -1 ∧ r.cqual.shrho = -1 ∧ r.cqual.sdt = -1 := by
  obtain ⟨na, ns, hc, hna⟩ := countHits_spec env chcol cluster hv
  have hle : na ≤ activeHits env chcol cluster := by
    rw [hna]; exact Nat.mod_le _ _
  have hchk : ¬ (na ≥ cfg.minnhits ∧ ns ≥ cfg.minnstereo) := fun hh => by omega
  refine ⟨⟨cqual.setMVAStatus MVAStatus.unset, mvavars, [MVAStatus.unset], []⟩, ?_,
    rfl, hf.2.1, hf.2.2.1, hf.2.2.2.1⟩
  unfold fillBkgQual
  simp only [hc]
  rw [if_neg hchk]

/-- Claim C4 on the sample cluster of one straw hit with `minnhits = 3`. -/
theorem C4_too_few_active_witness :
    IndicesValid exHits exLone ∧ exFresh.Fresh ∧
    activeHits exEnv exHits exLone < exCfg.minnhits ∧
    ∃ r, fillBkgQual exEnv exCfg exHits exVars exLone exFresh = some r ∧
      r.cqual.status = MVAStatus.unset ∧
      r.cqual.hrho = -1 ∧ r.cqual.shrho = -1 ∧ r.cqual.sdt = -1 :=
  ⟨by decide, by decide, by decide,
    C4_too_few_active exEnv exCfg exHits exVars exLone exFresh
      (by decide) (by decide) (by decide)⟩

/-- Claim C5, amended.  When `nactive < MinActiveHits` or `nstereo < MinStereoHits`,
`fillBkgQual` writes no field at all: the descriptor comes back as it came in, `crho`
included, with status UNSET. -/
theorem C5_early_exit_writes_nothing (env : Env) (cfg : Config) (chcol : List ComboHit)
    (mvavars : List ℚ) (cluster : BkgCluster) (cqual : BkgQual) (na ns : Nat)
    (hc : countHits env chcol cluster = some (na, ns))
    (h : na < cfg.minnhits ∨ ns < cfg.minnstereo) :
    ∃ r, fillBkgQual env cfg chcol mvavars cluster cqual = some r ∧
      r.cqual = { cqual with status := MVAStatus.unset } ∧
      r.cqual.status = MVAStatus.unset ∧ r.cqual.crho = cqual.crho := by
  have hchk : ¬ (na ≥ cfg.minnhits ∧ ns ≥ cfg.minnstereo) := fun hh => by omega
  refine ⟨⟨cqual.setMVAStatus MVAStatus.unset, mvavars, [MVAStatus.unset], []⟩, ?_,
    rfl, rfl, rfl⟩
  unfold fillBkgQual
  simp only [hc]
  rw [if_neg hchk]

/-- Claim C5, amended, on the sample cluster of one straw hit with `minnhits = 3`. -/
theorem C5_early_exit_writes_nothing_witness :
    countHits exEnv exHits exLone = some (1, 0) ∧
    (1 < exCfg.minnhits ∨ 0 < exCfg.minnstereo) ∧
    ∃ r, fillBkgQual exEnv exCfg exHits exVars exLone exFresh = some r ∧
      r.cqual = { exFresh with status := MVAStatus.unset } ∧
      r.cqual.status = MVAStatus.unset ∧ r.cqual.crho = exFresh.crho :=
  ⟨by decide, by decide,
    C5_early_exit_writes_nothing exEnv exCfg exHits exVars exLone exFresh 1 0
      (by decide) (by decide)⟩

/-- Claim C5 as stated fails: the sample cluster of one straw hit sits at transverse
radius 500 and is rejected by `minnhits = 3`; the descriptor comes back UNSET with `crho`
still at the value it came in with, -1, not at the radius. -/
theorem C5_counterexample :
    (fillBkgQual exEnv exCfg exHits exVars exLone exFresh).map
        (fun r => (r.cqual.status, r.cqual.crho)) = some (MVAStatus.unset, -1) ∧
    exEnv.sqrtf exLone.pos.perp2 = 500 := by
  refine ⟨by decide, ?_⟩
  have e : exLone.pos.perp2 = 250000 := by
    simp only [exLone, XYZVec.perp2]; norm_num
  have s : Nat.sqrt 250000 = 500 := by
    rw [show 250000 = 500 * 500 by norm_num]; exact Nat.sqrt_eq 500
  simp only [exEnv, isqrt]
  rw [e]
  simp [s]

/-- Claim C6, amended.  For a cluster that passes the hit-count checks, has an active straw
hit (as every such cluster has when `MinActiveHits >= 1`) and occupies fewer than
`MinNPlanes` planes, `fillBkgQual` returns with the count fields written (`nhits`, `sfrac`,
`crho`, `np`, `npexp`, `npfrac`, `nphits`), each of `hrho`, `shrho`, `sdt`, `zmin`, `zmax`,
`zgap` equal to -1, and status UNSET. -/
theorem C6_too_few_planes (env : Env) (cfg : Config) (chcol : List ComboHit)
    (mvavars : List ℚ) (cluster : BkgCluster) (cqual : BkgQual) (na ns : Nat)
    (hv : IndicesValid chcol cluster) (hp : PlanesValid env chcol)
    (hact : 1 ≤ cfg.minnhits ∨ HasActiveHit env chcol cluster)
    (hc : countHits env chcol cluster = some (na, ns))
    (h1 : cfg.minnhits ≤ na) (h2 : cfg.minnstereo ≤ ns)
    (h3 : occupiedPlanes env chcol cluster < cfg.minnp) :
    ∃ r c, fillBkgQual env cfg chcol mvavars cluster cqual = some r ∧
      countPlanesCore env chcol cluster = some c ∧
      r.cqual.nhits = (na : ℚ) ∧ r.cqual.sfrac = (ns : ℚ) / (na : ℚ) ∧
      r.cqual.crho = env.sqrtf cluster.pos.perp2 ∧
      r.cqual.np = (occupiedPlanes env chcol cluster : ℚ) ∧
      r.cqual.npexp = (c.npexp : ℚ) ∧
      r.cqual.npfrac = (occupiedPlanes env chcol cluster : ℚ) / (c.npexp : ℚ) ∧
      r.cqual.nphits = (c.nphits : ℚ) / (occupiedPlanes env chcol cluster : ℚ) ∧
      r.cqual.hrho = -1 ∧ r.cqual.shrho = -1 ∧ r.cqual.sdt = -1 ∧
      r.cqual.zmin = -1 ∧ r.cqual.zmax = -1 ∧ r.cqual.zgap = -1 ∧
      r.cqual.status = MVAStatus.unset := by
  have ha : HasActiveHit env chcol cluster := by
    rcases hact with h | h
    · exact hasActiveHit_of_nactive env chcol cluster hv hp na ns hc (le_trans h h1)
    · exact h
  obtain ⟨ipmin, ipmax, c, hcore, _, _, _, _, _, _, _, hnp, _⟩ :=
    countPlanesCore_spec env chcol cluster hv hp ha
  have hnot : ¬ ((c.np : ℚ) ≥ (cfg.minnp : ℚ)) := by
    intro hge
    have : cfg.minnp ≤ c.np := by exact_mod_cast hge
    omega
  refine ⟨⟨(((cqual.setMVAStatus MVAStatus.unset).withCounts na ns
      (env.sqrtf cluster.pos.perp2)).withPlanes c).withSentinel, mvavars,
      [MVAStatus.unset], []⟩, c, ?_, hcore, rfl, rfl, rfl, ?_, rfl, ?_, ?_,
      rfl, rfl, rfl, rfl, rfl, rfl, rfl⟩
  · unfold fillBkgQual
    simp only [hc]
    rw [if_pos ⟨h1, h2⟩]
    simp only [countPlanes, hcore]
    rw [if_neg (by simpa [BkgQual.withPlanes] using hnot)]
  · simp [BkgQual.withSentinel, BkgQual.withPlanes, hnp]
  · simp [BkgQual.withSentinel, BkgQual.withPlanes, hnp]
  · simp [BkgQual.withSentinel, BkgQual.withPlanes, hnp]

/-- Claim C6, amended, on the sample cluster of one straw hit with `minnhits = 1`:
it passes the hit-count checks and occupies one plane, fewer than `minnp = 2`. -/
theorem C6_too_few_planes_witness :
    IndicesValid exHits exLone ∧ PlanesValid exEnv exHits ∧
    (1 ≤ ({ exCfg with minnhits := 1 } : Config).minnhits ∨ HasActiveHit exEnv exHits exLone) ∧
    countHits exEnv exHits exLone = some (1, 0) ∧
    occupiedPlanes exEnv exHits exLone < exCfg.minnp ∧
    ∃ r c, fillBkgQual exEnv { exCfg with minnhits := 1 } exHits exVars exLone exFresh = some r ∧
      countPlanesCore exEnv exHits exLone = some c ∧
      r.cqual.nhits = ((1 : ℕ) : ℚ) ∧ r.cqual.sfrac = ((0 : ℕ) : ℚ) / ((1 : ℕ) : ℚ) ∧
      r.cqual.crho = exEnv.sqrtf exLone.pos.perp2 ∧
      r.cqual.np = (occupiedPlanes exEnv exHits exLone : ℚ) ∧
      r.cqual.npexp = (c.npexp : ℚ) ∧
      r.cqual.npfrac = (occupiedPlanes exEnv exHits exLone : ℚ) / (c.npexp : ℚ) ∧
      r.cqual.nphits = (c.nphits : ℚ) / (occupiedPlanes exEnv exHits exLone : ℚ) ∧
      r.cqual.hrho = -1 ∧ r.cqual.shrho = -1 ∧ r.cqual.sdt = -1 ∧
      r.cqual.zmin = -1 ∧ r.cqual.zmax = -1 ∧ r.cqual.zgap = -1 ∧
      r.cqual.status = MVAStatus.unset :=
  ⟨by decide, by decide, by decide, by decide, by decide,
    C6_too_few_planes exEnv { exCfg with minnhits := 1 } exHits exVars exLone exFresh 1 0
      (by decide) (by decide) (by decide) (by decide) (by decide) (by decide) (by decide)⟩

/-- Claim C6 as stated fails for `MinActiveHits = 0`: the sample cluster whose only member
is not active passes the hit-count checks (`0 >= 0`), occupies no plane (`0 < MinNPlanes
= 2`), and `fillBkgQual` populates nothing: the range scan of `countPlanes` runs off the
plane array. -/
theorem C6_counterexample :
    countHits exEnv exHits exIdle = some (0, 0) ∧
    occupiedPlanes exEnv exHits exIdle < 2 ∧
    countPlanesCore exEnv exHits exIdle = none ∧
    fillBkgQual exEnv { exCfg with minnhits := 0, minnstereo := 0, minnp := 2 }
      exHits exVars exIdle exFresh = none := by
  decide

/-! ## Lemmas on flags -/

theorem hasAllProperties_iff (f m : StrawHitFlag) :
    f.hasAllProperties m = true ↔ ∀ i, m.mask.testBit i = true → f.mask.testBit i = true := by
  unfold StrawHitFlag.hasAllProperties
  rw [beq_iff_eq]
  constructor
  · intro h i hi
    have := congrArg (fun n => Nat.testBit n i) h
    simp only [Nat.testBit_and, hi, Bool.and_true] at this
    exact this
  · intro h
    apply Nat.eq_of_testBit_eq
    intro i
    rw [Nat.testBit_and]
    cases hm : m.mask.testBit i with
    | false => simp
    | true => simp [h i hm]

theorem hasAllProperties_bit (f : StrawHitFlag) (b : Nat) :
    f.hasAllProperties (StrawHitFlag.bit b) = true ↔ f.mask.testBit b = true := by
  rw [hasAllProperties_iff]
  simp only [StrawHitFlag.bit, Nat.testBit_two_pow, decide_eq_true_eq]
  constructor
  · intro h; exact h b rfl
  · intro h i hi; rw [← hi]; exact h

theorem hasAllProperties_refl (f : StrawHitFlag) : f.hasAllProperties f = true := by
  rw [hasAllProperties_iff]; intro i hi; exact hi

theorem hasAllProperties_trans (f g h : StrawHitFlag)
    (h1 : f.hasAllProperties g = true) (h2 : g.hasAllProperties h = true) :
    f.hasAllProperties h = true := by
  rw [hasAllProperties_iff] at *
  intro i hi; exact h1 i (h2 i hi)

theorem merge_hasAll_left (f g : StrawHitFlag) : (f.merge g).hasAllProperties f = true := by
  rw [hasAllProperties_iff]
  intro i hi
  simp [StrawHitFlag.merge, Nat.testBit_or, hi]

theorem merge_hasAll_right (f g : StrawHitFlag) : (f.merge g).hasAllProperties g = true := by
  rw [hasAllProperties_iff]
  intro i hi
  simp [StrawHitFlag.merge, Nat.testBit_or, hi]

theorem merge_testBit (f g : StrawHitFlag) (i : Nat) :
    (f.merge g).mask.testBit i = (f.mask.testBit i || g.mask.testBit i) := by
  simp [StrawHitFlag.merge, Nat.testBit_or]

theorem bit_testBit (a i : Nat) : (StrawHitFlag.bit a).mask.testBit i = decide (a = i) := by
  simp [StrawHitFlag.bit, Nat.testBit_two_pow]

/-! ## Lemmas on produce -/

theorem classify_isolated (env : Env) (cfg : Config) (cluster : BkgCluster) (cqual : BkgQual)
    (hsz : cluster.hits.length ≤ cfg.maxisolated) :
    (classify env cfg cluster cqual).1.hasAllProperties (StrawHitFlag.bit env.sh.isolated)
      = true := by
  rw [hasAllProperties_bit]
  unfold classify
  simp only [if_pos hsz]
  split <;> simp [merge_testBit, bit_testBit]

theorem classify_bkgclust (env : Env) (cfg : Config) (cluster : BkgCluster) (cqual : BkgQual) :
    (classify env cfg cluster cqual).1.hasAllProperties (StrawHitFlag.bit env.sh.bkgclust)
      = true := by
  rw [hasAllProperties_bit]
  unfold classify
  simp only
  split <;> split <;> simp [merge_testBit, bit_testBit]

theorem classify_bkg (env : Env) (cfg : Config) (cluster : BkgCluster) (cqual : BkgQual)
    (h1 : env.sh.bkg ≠ env.sh.bkgclust) (h2 : env.sh.bkg ≠ env.sh.isolated) :
    (classify env cfg cluster cqual).1.hasAllProperties (StrawHitFlag.bit env.sh.bkg) = true
      ↔ cqual.mvaout > cfg.bkgMVAcut := by
  rw [hasAllProperties_bit]
  unfold classify
  simp only
  have e1 : ¬ env.sh.bkgclust = env.sh.bkg := fun e => h1 e.symm
  have e2 : ¬ env.sh.isolated = env.sh.bkg := fun e => h2 e.symm
  by_cases hc : cqual.mvaout > cfg.bkgMVAcut
  · simp only [if_pos hc, hc, iff_true]
    simp [merge_testBit, bit_testBit]
  · simp only [if_neg hc, hc, iff_false]
    by_cases hsz : cluster.hits.length ≤ cfg.maxisolated
    · simp [if_pos hsz, merge_testBit, bit_testBit, e1, e2]
    · simp [if_neg hsz, bit_testBit, e1]

theorem assignFlags_spec (flag : StrawHitFlag) :
    ∀ (l : List BkgClusterHit) (col c2 : List StrawHitFlag), assignFlags flag l col = some c2 →
      c2.length = col.length ∧ (∀ chit ∈ l, c2[chit.index]? = some flag) ∧
      (∀ i, (∀ chit ∈ l, chit.index ≠ i) → c2[i]? = col[i]?) := by
  intro l
  induction l with
  | nil =>
    intro col c2 h
    simp only [assignFlags, Option.some.injEq] at h
    subst h
    exact ⟨rfl, by simp, fun _ _ => rfl⟩
  | cons chit rest ih =>
    intro col c2 h
    by_cases hi : chit.index < col.length
    · simp only [assignFlags, if_pos hi] at h
      obtain ⟨e1, e2, e3⟩ := ih _ _ h
      rw [List.length_set] at e1
      refine ⟨e1, ?_, ?_⟩
      · intro x hx
        rcases List.mem_cons.mp hx with rfl | hx2
        · by_cases hin : ∃ y ∈ rest, y.index = x.index
          · obtain ⟨y, hy, hyi⟩ := hin
            rw [← hyi]; exact e2 y hy
          · have hne : ∀ y ∈ rest, y.index ≠ x.index := fun y hy he => hin ⟨y, hy, he⟩
            rw [e3 x.index hne, List.getElem?_set]
            simp [hi]
        · exact e2 x hx2
      · intro i hne
        rw [e3 i (fun y hy => hne y (List.mem_cons_of_mem _ hy)), List.getElem?_set]
        have : chit.index ≠ i := hne chit (List.mem_cons_self _ _)
        simp [this]
    · simp only [assignFlags, if_neg hi] at h
      cases h

theorem assignFlags_some (flag : StrawHitFlag) :
    ∀ (l : List BkgClusterHit) (c : List StrawHitFlag), (∀ chit ∈ l, chit.index < c.length) →
      ∃ c2, assignFlags flag l c = some c2 := by
  intro l
  induction l with
  | nil => intro c _; exact ⟨c, rfl⟩
  | cons chit rest ih =>
    intro c hv
    have hi : chit.index < c.length := hv chit (List.mem_cons_self _ _)
    simp only [assignFlags, if_pos hi]
    apply ih
    intro x hx
    rw [List.length_set]
    exact hv x (List.mem_cons_of_mem _ hx)

/-- One turn of the cluster loop: the descriptor it computed, and where `chfcol` changed. -/
theorem clusterStep_spec (env : Env) (cfg : Config) (chcol : List ComboHit)
    (st st2 : LoopState) (cluster : BkgCluster)
    (h : clusterStep env cfg chcol st cluster = some st2) :
    ∃ r, fillBkgQual env cfg chcol st.mvavars cluster env.fresh = some r ∧
      st2.chfcol.length = st.chfcol.length ∧
      (∀ chit ∈ cluster.hits,
        st2.chfcol[chit.index]? = some (classify env cfg cluster r.cqual).1) ∧
      (∀ i, (∀ chit ∈ cluster.hits, chit.index ≠ i) → st2.chfcol[i]? = st.chfcol[i]?) := by
  unfold clusterStep at h
  cases hf : fillBkgQual env cfg chcol st.mvavars cluster env.fresh with
  | none => simp [hf] at h
  | some r =>
    simp only [hf] at h
    cases ha : assignFlags (classify env cfg cluster r.cqual).1 cluster.hits st.chfcol with
    | none => simp [ha] at h
    | some c2 =>
      simp only [ha, Option.some.injEq] at h
      subst h
      obtain ⟨e1, e2, e3⟩ := assignFlags_spec _ _ _ _ ha
      exact ⟨r, rfl, e1, e2, e3⟩

theorem clusterLoop_untouched (env : Env) (cfg : Config) (chcol : List ComboHit) :
    ∀ (l : List BkgCluster) (st st2 : LoopState), clusterLoop env cfg chcol l st = some st2 →
      st2.chfcol.length = st.chfcol.length ∧
      ∀ i, (∀ c ∈ l, ∀ chit ∈ c.hits, chit.index ≠ i) → st2.chfcol[i]? = st.chfcol[i]? := by
  intro l
  induction l with
  | nil =>
    intro st st2 h
    simp only [clusterLoop, Option.some.injEq] at h
    subst h
    exact ⟨rfl, fun _ _ => rfl⟩
  | cons c rest ih =>
    intro st st2 h
    cases hs : clusterStep env cfg chcol st c with
    | none => simp [clusterLoop, hs] at h
    | some st1 =>
      simp only [clusterLoop, hs] at h
      obtain ⟨r, _, e1, _, e3⟩ := clusterStep_spec env cfg chcol st st1 c hs
      obtain ⟨f1, f2⟩ := ih st1 st2 h
      refine ⟨by omega, ?_⟩
      intro i hne
      rw [f2 i (fun c2 hc2 => hne c2 (List.mem_cons_of_mem _ hc2)),
        e3 i (hne c (List.mem_cons_self _ _))]

/-- After the cluster loop, a hit holds the flag of the last cluster that refers to it. -/
theorem clusterLoop_last (env : Env) (cfg : Config) (chcol : List ComboHit) :
    ∀ (pre : List BkgCluster) (cluster : BkgCluster) (post : List BkgCluster)
      (st st2 : LoopState) (chit : BkgClusterHit),
      clusterLoop env cfg chcol (pre ++ cluster :: post) st = some st2 →
      chit ∈ cluster.hits →
      (∀ c ∈ post, ∀ h ∈ c.hits, h.index ≠ chit.index) →
      ∃ mv r, fillBkgQual env cfg chcol mv cluster env.fresh = some r ∧
        st2.chfcol[chit.index]? = some (classify env cfg cluster r.cqual).1 := by
  intro pre
  induction pre with
  | nil =>
    intro cluster post st st2 chit h hmem hpost
    simp only [List.nil_append] at h
    cases hs : clusterStep env cfg chcol st cluster with
    | none => simp [clusterLoop, hs] at h
    | some st1 =>
      simp only [clusterLoop, hs] at h
      obtain ⟨r, hr, _, e2, _⟩ := clusterStep_spec env cfg chcol st st1 cluster hs
      obtain ⟨_, f2⟩ := clusterLoop_untouched env cfg chcol post st1 st2 h
      exact ⟨st.mvavars, r, hr, by rw [f2 chit.index hpost, e2 chit hmem]⟩
  | cons c pre ih =>
    intro cluster post st st2 chit h hmem hpost
    simp only [List.cons_append] at h
    cases hs : clusterStep env cfg chcol st c with
    | none => simp [clusterLoop, hs] at h
    | some st1 =>
      simp only [clusterLoop, hs] at h
      exact ih cluster post st1 st2 chit h hmem hpost

theorem mergeAt_grow (flag : StrawHitFlag) :
    ∀ (l : List Nat) (s s2 : List StrawHitFlag), mergeAt flag l s = Except.ok s2 →
      s2.length = s.length ∧
      ∀ (j : Nat) (f : StrawHitFlag), s[j]? = some f →
        ∃ g, s2[j]? = some g ∧ g.hasAllProperties f = true := by
  intro l
  induction l with
  | nil =>
    intro s s2 h
    simp only [mergeAt, Except.ok.injEq] at h
    subst h
    exact ⟨rfl, fun j f hj => ⟨f, hj, hasAllProperties_refl f⟩⟩
  | cons shid rest ih =>
    intro s s2 h
    cases hg : s[shid]? with
    | none => simp [mergeAt, hg] at h
    | some f0 =>
      simp only [mergeAt, hg] at h
      obtain ⟨e1, e2⟩ := ih _ _ h
      rw [List.length_set] at e1
      refine ⟨e1, ?_⟩
      intro j f hj
      have hlt : shid < s.length := (List.getElem?_eq_some_iff.mp hg).1
      by_cases hjs : shid = j
      · subst hjs
        rw [hg] at hj
        cases hj
        obtain ⟨g, hg1, hg2⟩ := e2 shid (f0.merge flag) (by rw [List.getElem?_set]; simp [hlt])
        exact ⟨g, hg1, hasAllProperties_trans _ _ _ hg2 (merge_hasAll_left f0 flag)⟩
      · exact e2 j f (by rw [List.getElem?_set]; simp [hjs, hj])

theorem strawLoop_grow (env : Env) :
    ∀ (flags : List StrawHitFlag) (ich : Nat) (s s2 : List StrawHitFlag),
      strawLoop env flags ich s = Except.ok s2 →
      s2.length = s.length ∧
      ∀ (j : Nat) (f : StrawHitFlag), s[j]? = some f →
        ∃ g, s2[j]? = some g ∧ g.hasAllProperties f = true := by
  intro flags
  induction flags with
  | nil =>
    intro ich s s2 h
    simp only [strawLoop, Except.ok.injEq] at h
    subst h
    exact ⟨rfl, fun j f hj => ⟨f, hj, hasAllProperties_refl f⟩⟩
  | cons flag rest ih =>
    intro ich s s2 h
    cases hm : mergeAt flag (env.fillStrawHitIndices ich) s with
    | error e => simp [strawLoop, hm] at h
    | ok s1 =>
      simp only [strawLoop, hm] at h
      obtain ⟨a1, a2⟩ := mergeAt_grow flag _ _ _ hm
      obtain ⟨b1, b2⟩ := ih _ _ _ h
      refine ⟨by omega, ?_⟩
      intro j f hj
      obtain ⟨g1, hg1, hg1s⟩ := a2 j f hj
      obtain ⟨g2, hg2, hg2s⟩ := b2 j g1 hg1
      exact ⟨g2, hg2, hasAllProperties_trans _ _ _ hg2s hg1s⟩

theorem mergeOriginal_spec :
    ∀ (flags : List StrawHitFlag) (hits : List ComboHit), flags.length = hits.length →
      (mergeOriginal flags hits).length = hits.length ∧
      ∀ (i : Nat) (ch : ComboHit), hits[i]? = some ch →
        ∃ fl, flags[i]? = some fl ∧ (mergeOriginal flags hits)[i]? = some (fl.merge ch.flag) := by
  intro flags
  induction flags with
  | nil =>
    intro hits hl
    cases hits with
    | nil => exact ⟨rfl, by simp⟩
    | cons a t => simp at hl
  | cons fl rest ih =>
    intro hits hl
    cases hits with
    | nil => simp at hl
    | cons ch t =>
      simp only [List.length_cons, Nat.add_right_cancel_iff] at hl
      obtain ⟨e1, e2⟩ := ih t hl
      refine ⟨by simp [mergeOriginal, e1], ?_⟩
      intro i c hi
      cases i with
      | zero =>
        simp only [List.getElem?_cons_zero, Option.some.injEq] at hi
        subst hi
        exact ⟨fl, by simp, by simp [mergeOriginal]⟩
      | succ k =>
        simp only [List.getElem?_cons_succ] at hi
        obtain ⟨f2, h1, h2⟩ := e2 k c hi
        exact ⟨f2, by simpa using h1, by simpa [mergeOriginal] using h2⟩

theorem filterHits_mem (bkgmsk : StrawHitFlag) :
    ∀ (hits : List ComboHit) (flags : List StrawHitFlag) (hit : ComboHit),
      hit ∈ filterHits bkgmsk hits flags →
      ∃ orig ∈ hits, ∃ fl ∈ flags, hit = { orig with flag := orig.flag.merge fl } ∧
        fl.hasAnyProperty bkgmsk = false := by
  intro hits
  induction hits with
  | nil => intro flags hit h; simp [filterHits] at h
  | cons ch t ih =>
    intro flags hit h
    cases flags with
    | nil => simp [filterHits] at h
    | cons fl fs =>
      by_cases hk : fl.hasAnyProperty bkgmsk = true
      · simp only [filterHits, hk, Bool.not_true, Bool.false_eq_true, if_false] at h
        obtain ⟨orig, ho, f2, hf2, e⟩ := ih fs hit h
        exact ⟨orig, List.mem_cons_of_mem _ ho, f2, List.mem_cons_of_mem _ hf2, e⟩
      · have hk2 : fl.hasAnyProperty bkgmsk = false := by simpa using hk
        simp only [filterHits, hk2, Bool.not_false, if_true, List.mem_cons] at h
        rcases h with rfl | h
        · exact ⟨ch, List.mem_cons_self _ _, fl, List.mem_cons_self _ _, rfl, hk2⟩
        · obtain ⟨orig, ho, f2, hf2, e⟩ := ih fs hit h
          exact ⟨orig, List.mem_cons_of_mem _ ho, f2, List.mem_cons_of_mem _ hf2, e⟩

/-- How every returning call of `produce` ends: the state the cluster loop reached, the
filtered collection, and then either the size exception, or an exception from the straw-hit
loop, or the remaining products. -/
theorem produce_inv (env : Env) (cfg : Config) (chcol : ComboHitCollection) (shcolSize : Nat)
    (shchcol : List ComboHit) (mvavars : List ℚ) (r : ProduceResult)
    (h : produce env cfg chcol shcolSize shchcol mvavars = some r) :
    ∃ st, clusterLoop env cfg chcol.hits (env.findClusters chcol)
        ⟨List.replicate chcol.hits.length StrawHitFlag.empty, [], [], mvavars⟩ = some st ∧
      r.mvavars = st.mvavars ∧
      r.products.chcol = (if cfg.filter = true then
        some ⟨filterHits cfg.bkgmsk chcol.hits st.chfcol, chcol.parent⟩ else none) ∧
      ((cfg.flagsh = true ∧ shcolSize ≠ shchcol.length ∧
          r.thrown = some Exception.sizesDontMatch ∧ r.products.shfcol = none ∧
          r.products.chfcol = none ∧ r.products.bkgccol = none ∧ r.products.bkgqcol = none) ∨
       (cfg.flagsh = true ∧ shcolSize = shchcol.length ∧
          (∃ e, strawLoop env st.chfcol 0 (shchcol.map (fun ch => ch.flag)) = Except.error e ∧
            r.thrown = some e) ∧ r.products.shfcol = none ∧
          r.products.chfcol = none ∧ r.products.bkgccol = none ∧ r.products.bkgqcol = none) ∨
       (r.thrown = none ∧
          ((cfg.flagsh = false ∧ r.products.shfcol = none) ∨
           (cfg.flagsh = true ∧ shcolSize = shchcol.length ∧
              ∃ s, strawLoop env st.chfcol 0 (shchcol.map (fun ch => ch.flag)) = Except.ok s ∧
                r.products.shfcol = some s)) ∧
          r.products.chfcol = (if cfg.flagch = true then
            some (mergeOriginal st.chfcol chcol.hits) else none) ∧
          r.products.bkgccol = (if cfg.savebkg = true then some st.bkgccol else none) ∧
          r.products.bkgqcol = (if cfg.savebkg = true then some st.bkgqcol else none))) := by
  unfold produce at h
  cases hl : clusterLoop env cfg chcol.hits (env.findClusters chcol)
      ⟨List.replicate chcol.hits.length StrawHitFlag.empty, [], [], mvavars⟩ with
  | none => simp [hl] at h
  | some st =>
    simp only [hl] at h
    refine ⟨st, rfl, ?_⟩
    by_cases hf : cfg.flagsh = true
    · rw [if_pos hf] at h
      by_cases hsz : shcolSize ≠ shchcol.length
      · rw [if_pos hsz] at h
        cases h
        refine ⟨rfl, ?_, Or.inl ⟨hf, hsz, rfl, ?_, ?_, ?_, ?_⟩⟩ <;>
          cases hfil : cfg.filter <;> simp
      · rw [if_neg hsz] at h
        have hsz2 : shcolSize = shchcol.length := by simpa using hsz
        cases hs : strawLoop env st.chfcol 0 (shchcol.map (fun ch => ch.flag)) with
        | error e =>
          simp only [hs] at h
          cases h
          refine ⟨rfl, ?_, Or.inr (Or.inl ⟨hf, hsz2, ⟨e, rfl, rfl⟩, ?_, ?_, ?_, ?_⟩)⟩ <;>
            cases hfil : cfg.filter <;> simp
        | ok s =>
          simp only [hs] at h
          cases h
          refine ⟨rfl, ?_, Or.inr (Or.inr ⟨rfl, Or.inr ⟨hf, hsz2, s, rfl, ?_⟩, ?_, ?_, ?_⟩)⟩ <;>
            cases hfil : cfg.filter <;> cases hfc : cfg.flagch <;> cases hsb : cfg.savebkg <;>
            simp [produceTail, hfc, hsb]
    · rw [if_neg hf] at h
      have hf2 : cfg.flagsh = false := by simpa using hf
      cases h
      refine ⟨rfl, ?_, Or.inr (Or.inr ⟨rfl, Or.inl ⟨hf2, ?_⟩, ?_, ?_, ?_⟩)⟩ <;>
        cases hfil : cfg.filter <;> cases hfc : cfg.flagch <;> cases hsb : cfg.savebkg <;>
        simp [produceTail, hfc, hsb]

/-- A descriptor that does not end `fillBkgQual` with status SCORED keeps the classifier
output it came in with. -/
theorem fillBkgQual_mvaout (env : Env) (cfg : Config) (chcol : List ComboHit)
    (mvavars : List ℚ) (cluster : BkgCluster) (cqual : BkgQual) (r : FillResult)
    (h : fillBkgQual env cfg chcol mvavars cluster cqual = some r) :
    (r.cqual.status ≠ MVAStatus.calculated → r.cqual.mvaout = cqual.mvaout) ∧
    (r.cqual.status = MVAStatus.calculated → r.cqual.mvaout = env.EvaluateMVA r.mvavars) := by
  obtain ⟨na, ns, _, hcases⟩ := fillBkgQual_inv env cfg chcol mvavars cluster cqual r h
  rcases hcases with ⟨_, rfl⟩ | ⟨_, _, c, _, hrest⟩
  · exact ⟨fun _ => rfl, fun hs => by cases hs⟩
  · rcases hrest with ⟨_, rfl⟩ | ⟨_, hsp⟩
    · exact ⟨fun _ => rfl, fun hs => by cases hs⟩
    · obtain ⟨_, hst⟩ := fillSpread_inv env cfg chcol mvavars cluster na _ r hsp
      rcases hst with ⟨_, hs2, _, _, hout⟩ | ⟨_, hs2, _, _, _, hout⟩
      · exact ⟨fun hne => absurd hs2 hne, fun _ => hout⟩
      · refine ⟨fun _ => hout, fun hs => ?_⟩
        rw [hs2] at hs; cases hs

theorem setVar_length (mvavars : List ℚ) (k : Nat) (x : ℚ) (v : List ℚ)
    (h : setVar mvavars k x = some v) : v.length = mvavars.length := by
  unfold setVar at h
  split at h
  · cases h; simp
  · cases h

theorem loadVars_length (mvavars : List ℚ) (q : BkgQual) (v : List ℚ)
    (h : loadVars mvavars q = some v) : v.length = mvavars.length := by
  unfold loadVars at h
  cases h0 : setVar mvavars 0 q.hrho with
  | none => simp [h0] at h
  | some v0 =>
  cases h1 : setVar v0 1 q.shrho with
  | none => simp [h0, h1] at h
  | some v1 =>
  cases h2 : setVar v1 2 q.crho with
  | none => simp [h0, h1, h2] at h
  | some v2 =>
  cases h3 : setVar v2 3 q.zmin with
  | none => simp [h0, h1, h2, h3] at h
  | some v3 =>
  cases h4 : setVar v3 4 q.zmax with
  | none => simp [h0, h1, h2, h3, h4] at h
  | some v4 =>
  cases h5 : setVar v4 5 q.zgap with
  | none => simp [h0, h1, h2, h3, h4, h5] at h
  | some v5 =>
  cases h6 : setVar v5 6 q.np with
  | none => simp [h0, h1, h2, h3, h4, h5, h6] at h
  | some v6 =>
  cases h7 : setVar v6 7 q.npfrac with
  | none => simp [h0, h1, h2, h3, h4, h5, h6, h7] at h
  | some v7 =>
  simp only [h0, h1, h2, h3, h4, h5, h6, h7, Option.some_bind] at h
  have l0 := setVar_length _ _ _ _ h0
  have l1 := setVar_length _ _ _ _ h1
  have l2 := setVar_length _ _ _ _ h2
  have l3 := setVar_length _ _ _ _ h3
  have l4 := setVar_length _ _ _ _ h4
  have l5 := setVar_length _ _ _ _ h5
  have l6 := setVar_length _ _ _ _ h6
  have l7 := setVar_length _ _ _ _ h7
  have l8 := setVar_length _ _ _ _ h
  omega

theorem fillSpread_mvavars_length (env : Env) (cfg : Config) (chcol : List ComboHit)
    (mvavars : List ℚ) (cluster : BkgCluster) (nactive : Nat) (q : BkgQual) (r : FillResult)
    (h : fillSpread env cfg chcol mvavars cluster nactive q = some r) :
    r.mvavars.length = mvavars.length := by
  unfold fillSpread at h
  cases hacc : spreadLoop env cfg chcol cluster nactive cluster.hits ⟨[], [], []⟩ with
  | none => simp [hacc] at h
  | some acc =>
    cases hf : (acc.hz.insertionSort (fun a b => a ≤ b)).head? with
    | none => simp [hacc, hf] at h
    | some front =>
      cases hb : (acc.hz.insertionSort (fun a b => a ≤ b)).getLast? with
      | none => simp [hacc, hf, hb] at h
      | some back =>
        simp only [hacc, hf, hb] at h
        by_cases hu : cfg.useMVA = true
        · simp only [hu, if_true] at h
          split at h
          · cases h
          · rename_i vars hl
            cases h
            exact loadVars_length _ _ _ hl
        · simp only [hu] at h
          cases h
          rfl

/-- A call of `fillBkgQual` leaves the size of `_mvavars` as it was. -/
theorem fillBkgQual_mvavars_length (env : Env) (cfg : Config) (chcol : List ComboHit)
    (mvavars : List ℚ) (cluster : BkgCluster) (cqual : BkgQual) (r : FillResult)
    (h : fillBkgQual env cfg chcol mvavars cluster cqual = some r) :
    r.mvavars.length = mvavars.length := by
  obtain ⟨na, ns, _, hcases⟩ := fillBkgQual_inv env cfg chcol mvavars cluster cqual r h
  rcases hcases with ⟨_, rfl⟩ | ⟨_, _, c, _, hrest⟩
  · rfl
  · rcases hrest with ⟨_, rfl⟩ | ⟨_, hsp⟩
    · rfl
    · exact fillSpread_mvavars_length env cfg chcol mvavars cluster na _ r hsp

/-- With valid clusters, `MinActiveHits >= 1` or an active straw hit in every cluster, and
room in `_mvavars`, the cluster loop of `produce` runs to its end. -/
theorem clusterLoop_some (env : Env) (cfg : Config) (chcol : List ComboHit)
    (hp : PlanesValid env chcol) :
    ∀ (l : List BkgCluster) (st : LoopState),
      (∀ c ∈ l, IndicesValid chcol c) →
      (1 ≤ cfg.minnhits ∨ ∀ c ∈ l, HasActiveHit env chcol c) →
      (cfg.useMVA = true → 9 ≤ st.mvavars.length) →
      st.chfcol.length = chcol.length →
      ∃ st2, clusterLoop env cfg chcol l st = some st2 := by
  intro l
  induction l with
  | nil => intro st _ _ _ _; exact ⟨st, rfl⟩
  | cons c rest ih =>
    intro st hv hact hm hlen
    have hvc : IndicesValid chcol c := hv c (List.mem_cons_self _ _)
    have hactc : 1 ≤ cfg.minnhits ∨ HasActiveHit env chcol c := by
      rcases hact with h | h
      · exact Or.inl h
      · exact Or.inr (h c (List.mem_cons_self _ _))
    obtain ⟨r, hr⟩ := fillBkgQual_some env cfg chcol st.mvavars c env.fresh hvc hp hactc hm
    obtain ⟨c2, hc2⟩ := assignFlags_some (classify env cfg c r.cqual).1 c.hits st.chfcol
      (fun chit hmem => by rw [hlen]; exact hvc chit hmem)
    have hstep : clusterStep env cfg chcol st c = some
        { chfcol := c2
          bkgccol := st.bkgccol ++ [(classify env cfg c r.cqual).2]
          bkgqcol := if cfg.savebkg then st.bkgqcol ++ [r.cqual] else st.bkgqcol
          mvavars := r.mvavars } := by
      simp only [clusterStep, hr, hc2]
    simp only [clusterLoop, hstep]
    apply ih
    · exact fun c2 hc => hv c2 (List.mem_cons_of_mem _ hc)
    · rcases hact with h | h
      · exact Or.inl h
      · exact Or.inr (fun c2 hc => h c2 (List.mem_cons_of_mem _ hc))
    · intro hu
      rw [fillBkgQual_mvavars_length env cfg chcol st.mvavars c env.fresh r hr]
      exact hm hu
    · show c2.length = chcol.length
      rw [(assignFlags_spec _ _ _ _ hc2).1, hlen]

/-- With valid clusters, `MinActiveHits >= 1` or an active straw hit in every cluster, and
room in `_mvavars`, `produce` returns (normally or with an exception). -/
theorem produce_some (env : Env) (cfg : Config) (chcol : ComboHitCollection)
    (shcolSize : Nat) (shchcol : List ComboHit) (mvavars : List ℚ)
    (hp : PlanesValid env chcol.hits)
    (hv : ∀ c ∈ env.findClusters chcol, IndicesValid chcol.hits c)
    (hact : 1 ≤ cfg.minnhits ∨ ∀ c ∈ env.findClusters chcol, HasActiveHit env chcol.hits c)
    (hm : cfg.useMVA = true → 9 ≤ mvavars.length) :
    ∃ r, produce env cfg chcol shcolSize shchcol mvavars = some r := by
  obtain ⟨st, hst⟩ := clusterLoop_some env cfg chcol.hits hp (env.findClusters chcol)
    ⟨List.replicate chcol.hits.length StrawHitFlag.empty, [], [], mvavars⟩ hv hact hm
    (by simp)
  unfold produce
  simp only [hst]
  split
  · split
    · exact ⟨_, rfl⟩
    · split
      · exact ⟨_, rfl⟩
      · exact ⟨_, rfl⟩
  · exact ⟨_, rfl⟩

/-! ## Claims on produce -/

/-- Claim C7.  For a cluster with at most `MaxIsolated` members, the flag the cluster loop
of `produce` computes has the isolated bit whatever the descriptor (so whatever the
classifier score), and after the turn of the loop for that cluster the flag of every member
hit has the isolated bit. -/
theorem C7_isolated_rule (env : Env) (cfg : Config) (chcol : List ComboHit)
    (cluster : BkgCluster) (hsz : cluster.hits.length ≤ cfg.maxisolated) :
    (∀ q : BkgQual, (classify env cfg cluster q).1.hasAllProperties
        (StrawHitFlag.bit env.sh.isolated) = true) ∧
    (∀ st st2 : LoopState, clusterStep env cfg chcol st cluster = some st2 →
      ∀ chit ∈ cluster.hits, ∃ f, st2.chfcol[chit.index]? = some f ∧
        f.hasAllProperties (StrawHitFlag.bit env.sh.isolated) = true) := by
  refine ⟨fun q => classify_isolated env cfg cluster q hsz, ?_⟩
  intro st st2 h chit hmem
  obtain ⟨r, _, _, e2, _⟩ := clusterStep_spec env cfg chcol st st2 cluster h
  exact ⟨_, e2 chit hmem, classify_isolated env cfg cluster r.cqual hsz⟩

/-- Claim C7 on the sample cluster of one hit, with `MaxIsolated = 1`. -/
theorem C7_isolated_rule_witness :
    exLone.hits.length ≤ exCfg.maxisolated ∧
    ((clusterStep exEnv exCfg exHits ⟨List.replicate 5 StrawHitFlag.empty, [], [], exVars⟩
      exLone).map (fun st2 => st2.chfcol[4]?) = some (some ⟨2 ^ 18 + 2 ^ 7⟩)) ∧
    (∀ q : BkgQual, (classify exEnv exCfg exLone q).1.hasAllProperties
        (StrawHitFlag.bit exEnv.sh.isolated) = true) ∧
    (∀ st st2 : LoopState, clusterStep exEnv exCfg exHits st exLone = some st2 →
      ∀ chit ∈ exLone.hits, ∃ f, st2.chfcol[chit.index]? = some f ∧
        f.hasAllProperties (StrawHitFlag.bit exEnv.sh.isolated) = true) :=
  ⟨by decide, by decide, C7_isolated_rule exEnv exCfg exHits exLone (by decide)⟩

/-- Claim C8, amended.  With the background enumerator distinct from the bkgclust and
isolated enumerators, the flag `produce` computes for a cluster has the background bit if
and only if the classifier output held by the descriptor exceeds `BkgMVACut`, whatever the
status.  A descriptor that is not SCORED holds the output of a default-constructed
descriptor, so its cluster is flagged background exactly when that default exceeds the cut;
a SCORED one holds the classifier's answer. -/
theorem C8_background_rule (env : Env) (cfg : Config) (chcol : List ComboHit)
    (mvavars : List ℚ) (cluster : BkgCluster)
    (hb1 : env.sh.bkg ≠ env.sh.bkgclust) (hb2 : env.sh.bkg ≠ env.sh.isolated) :
    (∀ q : BkgQual, (classify env cfg cluster q).1.hasAllProperties
        (StrawHitFlag.bit env.sh.bkg) = true ↔ q.mvaout > cfg.bkgMVAcut) ∧
    (∀ r, fillBkgQual env cfg chcol mvavars cluster env.fresh = some r →
      r.cqual.status ≠ MVAStatus.calculated →
      ((classify env cfg cluster r.cqual).1.hasAllProperties
        (StrawHitFlag.bit env.sh.bkg) = true ↔ env.fresh.mvaout > cfg.bkgMVAcut)) ∧
    (∀ r, fillBkgQual env cfg chcol mvavars cluster env.fresh = some r →
      r.cqual.status = MVAStatus.calculated →
      ((classify env cfg cluster r.cqual).1.hasAllProperties
        (StrawHitFlag.bit env.sh.bkg) = true ↔ env.EvaluateMVA r.mvavars > cfg.bkgMVAcut)) := by
  refine ⟨fun q => classify_bkg env cfg cluster q hb1 hb2, ?_, ?_⟩
  · intro r h hs
    rw [classify_bkg env cfg cluster r.cqual hb1 hb2,
      (fillBkgQual_mvaout env cfg chcol mvavars cluster env.fresh r h).1 hs]
  · intro r h hs
    rw [classify_bkg env cfg cluster r.cqual hb1 hb2,
      (fillBkgQual_mvaout env cfg chcol mvavars cluster env.fresh r h).2 hs]

/-- Claim C8, amended, on the sample environment and the sample cluster. -/
theorem C8_background_rule_witness :
    exEnv.sh.bkg ≠ exEnv.sh.bkgclust ∧ exEnv.sh.bkg ≠ exEnv.sh.isolated ∧
    ((∀ q : BkgQual, (classify exEnv exCfg exCluster q).1.hasAllProperties
        (StrawHitFlag.bit exEnv.sh.bkg) = true ↔ q.mvaout > exCfg.bkgMVAcut) ∧
    (∀ r, fillBkgQual exEnv exCfg exHits exVars exCluster exEnv.fresh = some r →
      r.cqual.status ≠ MVAStatus.calculated →
      ((classify exEnv exCfg exCluster r.cqual).1.hasAllProperties
        (StrawHitFlag.bit exEnv.sh.bkg) = true ↔ exEnv.fresh.mvaout > exCfg.bkgMVAcut)) ∧
    (∀ r, fillBkgQual exEnv exCfg exHits exVars exCluster exEnv.fresh = some r →
      r.cqual.status = MVAStatus.calculated →
      ((classify exEnv exCfg exCluster r.cqual).1.hasAllProperties
        (StrawHitFlag.bit exEnv.sh.bkg) = true ↔
          exEnv.EvaluateMVA r.mvavars > exCfg.bkgMVAcut))) :=
  ⟨by decide, by decide,
    C8_background_rule exEnv exCfg exHits exVars exCluster (by decide) (by decide)⟩

/-- Claim C8 as stated fails for a cut below the default output: with `BkgMVACut = -2`
the sample cluster of one straw hit is rejected by `minnhits = 3`, its descriptor stays
UNSET with the default output -1, and the cluster is flagged background all the same. -/
theorem C8_counterexample :
    (fillBkgQual exEnv { exCfg with bkgMVAcut := -2 } exHits exVars exLone exEnv.fresh).map
      (fun r => (r.cqual.status, r.mvaCalls,
        (classify exEnv { exCfg with bkgMVAcut := -2 } exLone r.cqual).1.hasAllProperties
          (StrawHitFlag.bit exEnv.sh.bkg)))
      = some (MVAStatus.unset, [], true) := by
  decide

/-- Claim C9.  Every flag `produce` writes contains the flag the hit came in with: entry
`i` of the ComboHits flag collection (which has one entry per input hit) contains the flag
of input hit `i`; every hit of the filtered collection is an input hit whose flag was
merged with more bits; entry `j` of the StrawHits flag collection (one entry per
straw-level hit) contains the flag of straw-level hit `j`. -/
theorem C9_flag_monotonicity (env : Env) (cfg : Config) (chcol : ComboHitCollection)
    (shcolSize : Nat) (shchcol : List ComboHit) (mvavars : List ℚ) (r : ProduceResult)
    (h : produce env cfg chcol shcolSize shchcol mvavars = some r) :
    (∀ f, r.products.chfcol = some f → f.length = chcol.hits.length ∧
      ∀ (i : Nat) (ch : ComboHit), chcol.hits[i]? = some ch →
        ∃ g, f[i]? = some g ∧ g.hasAllProperties ch.flag = true) ∧
    (∀ out, r.products.chcol = some out → ∀ hit ∈ out.hits,
      ∃ orig ∈ chcol.hits, hit = { orig with flag := hit.flag } ∧
        hit.flag.hasAllProperties orig.flag = true) ∧
    (∀ f, r.products.shfcol = some f → f.length = shchcol.length ∧
      ∀ (j : Nat) (ch : ComboHit), shchcol[j]? = some ch →
        ∃ g, f[j]? = some g ∧ g.hasAllProperties ch.flag = true) := by
  obtain ⟨st, hloop, _, hfilt, hrest⟩ := produce_inv env cfg chcol shcolSize shchcol mvavars r h
  have hlen : st.chfcol.length = chcol.hits.length := by
    have := (clusterLoop_untouched env cfg chcol.hits _ _ _ hloop).1
    simpa using this
  refine ⟨?_, ?_, ?_⟩
  · intro f hf
    have hfe : f = mergeOriginal st.chfcol chcol.hits := by
      rcases hrest with ⟨_, _, _, _, hn, _⟩ | ⟨_, _, _, _, hn, _⟩ | ⟨_, _, hc, _⟩
      · rw [hn] at hf; cases hf
      · rw [hn] at hf; cases hf
      · rw [hc] at hf
        by_cases hfc : cfg.flagch = true
        · rw [if_pos hfc] at hf; cases hf; rfl
        · rw [if_neg hfc] at hf; cases hf
    subst hfe
    obtain ⟨e1, e2⟩ := mergeOriginal_spec st.chfcol chcol.hits hlen
    refine ⟨e1, ?_⟩
    intro i ch hi
    obtain ⟨fl, _, hm⟩ := e2 i ch hi
    exact ⟨_, hm, merge_hasAll_right fl ch.flag⟩
  · intro out hout hit hmem
    rw [hfilt] at hout
    by_cases hfil : cfg.filter = true
    · rw [if_pos hfil] at hout
      cases hout
      obtain ⟨orig, ho, fl, _, e, _⟩ := filterHits_mem cfg.bkgmsk chcol.hits st.chfcol hit hmem
      refine ⟨orig, ho, ?_, ?_⟩
      · rw [e]
      · rw [e]; exact merge_hasAll_left orig.flag fl
    · rw [if_neg hfil] at hout; cases hout
  · intro f hf
    have hok : strawLoop env st.chfcol 0 (shchcol.map (fun ch => ch.flag)) = Except.ok f := by
      rcases hrest with ⟨_, _, _, hn, _⟩ | ⟨_, _, _, hn, _⟩ | ⟨_, hs, _⟩
      · rw [hn] at hf; cases hf
      · rw [hn] at hf; cases hf
      · rcases hs with ⟨_, hn⟩ | ⟨_, _, s, hs1, hs2⟩
        · rw [hn] at hf; cases hf
        · rw [hs2] at hf; cases hf; exact hs1
    obtain ⟨e1, e2⟩ := strawLoop_grow env _ _ _ _ hok
    refine ⟨by simpa using e1, ?_⟩
    intro j ch hj
    exact e2 j ch.flag (by simp [hj])

/-- Claim C9 on the sample event: five hits, the sample cluster and the lone hit, all
outputs requested. -/
theorem C9_flag_monotonicity_witness :
    ∃ r, produce exEnv exCfg ⟨exHits, 7⟩ 5 exHits exVars = some r ∧
      (∀ f, r.products.chfcol = some f → f.length = exHits.length ∧
        ∀ (i : Nat) (ch : ComboHit), exHits[i]? = some ch →
          ∃ g, f[i]? = some g ∧ g.hasAllProperties ch.flag = true) ∧
      (∀ out, r.products.chcol = some out → ∀ hit ∈ out.hits,
        ∃ orig ∈ exHits, hit = { orig with flag := hit.flag } ∧
          hit.flag.hasAllProperties orig.flag = true) ∧
      (∀ f, r.products.shfcol = some f → f.length = exHits.length ∧
        ∀ (j : Nat) (ch : ComboHit), exHits[j]? = some ch →
          ∃ g, f[j]? = some g ∧ g.hasAllProperties ch.flag = true) :=
  match h : produce exEnv exCfg ⟨exHits, 7⟩ 5 exHits exVars with
  | some r => ⟨r, rfl, C9_flag_monotonicity exEnv exCfg ⟨exHits, 7⟩ 5 exHits exVars r h⟩
  | none => absurd h (by decide)

/-- Claim C10, amended.  For a cluster of the collection and a hit it refers to that no
later cluster of the collection refers to, the hit's entry in the ComboHits flag output is
the flag computed for that cluster (bkgclust, plus isolated and background as decided for
it from its descriptor) merged with the flag the hit came in with. -/
theorem C10_cluster_flag_output (env : Env) (cfg : Config) (chcol : ComboHitCollection)
    (shcolSize : Nat) (shchcol : List ComboHit) (mvavars : List ℚ) (r : ProduceResult)
    (f : List StrawHitFlag) (pre post : List BkgCluster) (cluster : BkgCluster)
    (chit : BkgClusterHit)
    (h : produce env cfg chcol shcolSize shchcol mvavars = some r)
    (hf : r.products.chfcol = some f)
    (hcl : env.findClusters chcol = pre ++ cluster :: post)
    (hmem : chit ∈ cluster.hits)
    (hlast : ∀ c ∈ post, ∀ x ∈ c.hits, x.index ≠ chit.index) :
    ∃ mv q ch, fillBkgQual env cfg chcol.hits mv cluster env.fresh = some q ∧
      chcol.hits[chit.index]? = some ch ∧
      f[chit.index]? = some ((classify env cfg cluster q.cqual).1.merge ch.flag) ∧
      (classify env cfg cluster q.cqual).1.hasAllProperties
        (StrawHitFlag.bit env.sh.bkgclust) = true := by
  obtain ⟨st, hloop, _, _, hrest⟩ := produce_inv env cfg chcol shcolSize shchcol mvavars r h
  have hlen : st.chfcol.length = chcol.hits.length := by
    have := (clusterLoop_untouched env cfg chcol.hits _ _ _ hloop).1
    simpa using this
  have hfe : f = mergeOriginal st.chfcol chcol.hits := by
    rcases hrest with ⟨_, _, _, _, hn, _⟩ | ⟨_, _, _, _, hn, _⟩ | ⟨_, _, hc, _⟩
    · rw [hn] at hf; cases hf
    · rw [hn] at hf; cases hf
    · rw [hc] at hf
      by_cases hfc : cfg.flagch = true
      · rw [if_pos hfc] at hf; cases hf; rfl
      · rw [if_neg hfc] at hf; cases hf
  subst hfe
  rw [hcl] at hloop
  obtain ⟨mv, q, hq, hflag⟩ :=
    clusterLoop_last env cfg chcol.hits pre cluster post _ st chit hloop hmem hlast
  have hidx : chit.index < chcol.hits.length := by
    rw [← hlen]
    exact (List.getElem?_eq_some_iff.mp hflag).1
  obtain ⟨_, e2⟩ := mergeOriginal_spec st.chfcol chcol.hits hlen
  obtain ⟨fl, hfl, hm⟩ := e2 chit.index _ (List.getElem?_eq_getElem hidx)
  rw [hflag] at hfl
  cases hfl
  exact ⟨mv, q, _, hq, List.getElem?_eq_getElem hidx, hm,
    classify_bkgclust env cfg cluster q.cqual⟩

/-- Claim C10, amended, on the sample event: the first hit of the sample cluster, which
the lone-hit cluster that follows does not refer to. -/
theorem C10_cluster_flag_output_witness :
    ∃ r f, produce exEnv exCfg ⟨exHits, 7⟩ 5 exHits exVars = some r ∧
      r.products.chfcol = some f ∧
      exEnv.findClusters ⟨exHits, 7⟩ = [] ++ exCluster :: [exLone] ∧
      (⟨0, ⟨2 ^ 16 + 1⟩⟩ : BkgClusterHit) ∈ exCluster.hits ∧
      (∀ c ∈ [exLone], ∀ x ∈ c.hits, x.index ≠ (⟨0, ⟨2 ^ 16 + 1⟩⟩ : BkgClusterHit).index) ∧
      ∃ mv q ch, fillBkgQual exEnv exCfg exHits mv exCluster exEnv.fresh = some q ∧
        exHits[(⟨0, ⟨2 ^ 16 + 1⟩⟩ : BkgClusterHit).index]? = some ch ∧
        f[(⟨0, ⟨2 ^ 16 + 1⟩⟩ : BkgClusterHit).index]?
          = some ((classify exEnv exCfg exCluster q.cqual).1.merge ch.flag) ∧
        (classify exEnv exCfg exCluster q.cqual).1.hasAllProperties
          (StrawHitFlag.bit exEnv.sh.bkgclust) = true :=
  match h : produce exEnv exCfg ⟨exHits, 7⟩ 5 exHits exVars with
  | none => absurd h (by decide)
  | some r =>
    match hf : r.products.chfcol with
    | none =>
      absurd (show (produce exEnv exCfg ⟨exHits, 7⟩ 5 exHits exVars).bind
          (fun r => r.products.chfcol) = none by rw [h]; exact hf) (by decide)
    | some f =>
      ⟨r, f, rfl, hf, rfl, by decide, by decide,
        C10_cluster_flag_output exEnv exCfg ⟨exHits, 7⟩ 5 exHits exVars r f [] [exLone]
          exCluster ⟨0, ⟨2 ^ 16 + 1⟩⟩ h hf rfl (by decide) (by decide)⟩

/-- Claim C10 as stated fails for clusters that overlap: the sample clusterer returns the
lone-hit cluster (one member, flagged isolated with `MaxIsolated = 1`) and then a cluster of
three hits that also refers to that hit; the hit's entry in the ComboHits flag output is
`2 ^ 18 + 2 ^ 16 + 2 ^ 6 + 2 ^ 3` (bkgclust, its own bits, background), without the
isolated bit `2 ^ 7` that the first cluster's flag carries. -/
theorem C10_counterexample :
    exEnvOverlap.findClusters ⟨exHits, 7⟩ = [exLone, exOverlap] ∧
    (⟨4, ⟨2 ^ 16⟩⟩ : BkgClusterHit) ∈ exLone.hits ∧
    (∀ q : BkgQual, (classify exEnvOverlap exCfg exLone q).1.hasAllProperties
      (StrawHitFlag.bit exEnvOverlap.sh.isolated) = true) ∧
    ((produce exEnvOverlap exCfg ⟨exHits, 7⟩ 5 exHits exVars).bind
      (fun r => r.products.chfcol)).map (fun f => f[4]?)
        = some (some ⟨2 ^ 18 + 2 ^ 16 + 2 ^ 6 + 2 ^ 3⟩) ∧
    (StrawHitFlag.mk (2 ^ 18 + 2 ^ 16 + 2 ^ 6 + 2 ^ 3)).hasAllProperties
      (StrawHitFlag.bit exEnvOverlap.sh.isolated) = false :=
  ⟨rfl, by decide, fun q => classify_isolated exEnvOverlap exCfg exLone q (by decide),
    by decide, by decide⟩

/-! ## Claims on the outputs of produce -/

theorem filterHits_eq_keptHits (bkgmsk : StrawHitFlag) :
    ∀ (hits : List ComboHit) (flags : List StrawHitFlag),
      filterHits bkgmsk hits flags = keptHits bkgmsk hits flags := by
  intro hits
  induction hits with
  | nil => intro flags; cases flags <;> simp [filterHits, keptHits]
  | cons ch t ih =>
    intro flags
    cases flags with
    | nil => simp [filterHits, keptHits]
    | cons fl fs =>
      have ih2 := ih fs
      unfold keptHits at ih2 ⊢
      by_cases hk : fl.hasAnyProperty bkgmsk = true
      · simp only [filterHits, hk, Bool.not_true, Bool.false_eq_true, if_false, List.zip_cons_cons]
        rw [List.filter_cons_of_neg (by simp [hk])]
        exact ih2
      · have hk2 : fl.hasAnyProperty bkgmsk = false := by simpa using hk
        simp only [filterHits, hk2, Bool.not_false, if_true, List.zip_cons_cons]
        rw [List.filter_cons_of_pos (by simp [hk2]), List.map_cons, ih2]

theorem filterHits_sublist (bkgmsk : StrawHitFlag) :
    ∀ (hits : List ComboHit) (flags : List StrawHitFlag),
      List.Sublist ((filterHits bkgmsk hits flags).map eraseFlag) (hits.map eraseFlag) := by
  intro hits
  induction hits with
  | nil => intro flags; cases flags <;> simp [filterHits]
  | cons ch t ih =>
    intro flags
    cases flags with
    | nil => simp [filterHits]
    | cons fl fs =>
      by_cases hk : fl.hasAnyProperty bkgmsk = true
      · simp only [filterHits, hk, Bool.not_true, Bool.false_eq_true, if_false, List.map_cons]
        exact List.Sublist.cons _ (ih fs)
      · have hk2 : fl.hasAnyProperty bkgmsk = false := by simpa using hk
        simp only [filterHits, hk2, Bool.not_false, if_true, List.map_cons]
        have e : eraseFlag { ch with flag := ch.flag.merge fl } = eraseFlag ch := rfl
        rw [e]
        exact List.Sublist.cons₂ _ (ih fs)

/-- Claim C11, amended.  When FilterOutput is requested, the filtered collection holds,
in input order, exactly the input hits whose flag from the cluster loop (`chfcol[ich]`:
the flag of the last cluster that refers to the hit, empty for a hit no cluster refers to)
has no bit in common with the mask; the flag the hit came in with takes no part in the
test and is merged into the copy afterwards. -/
theorem C11_filter_rule (env : Env) (cfg : Config) (chcol : ComboHitCollection)
    (shcolSize : Nat) (shchcol : List ComboHit) (mvavars : List ℚ) (r : ProduceResult)
    (h : produce env cfg chcol shcolSize shchcol mvavars = some r)
    (hfil : cfg.filter = true) :
    ∃ st, clusterLoop env cfg chcol.hits (env.findClusters chcol)
        ⟨List.replicate chcol.hits.length StrawHitFlag.empty, [], [], mvavars⟩ = some st ∧
      st.chfcol.length = chcol.hits.length ∧
      (∀ i, (∀ c ∈ env.findClusters chcol, ∀ chit ∈ c.hits, chit.index ≠ i) →
        i < chcol.hits.length → st.chfcol[i]? = some StrawHitFlag.empty) ∧
      (∀ (pre post : List BkgCluster) (cluster : BkgCluster) (chit : BkgClusterHit),
        env.findClusters chcol = pre ++ cluster :: post → chit ∈ cluster.hits →
        (∀ c ∈ post, ∀ x ∈ c.hits, x.index ≠ chit.index) →
        ∃ mv q, fillBkgQual env cfg chcol.hits mv cluster env.fresh = some q ∧
          st.chfcol[chit.index]? = some (classify env cfg cluster q.cqual).1) ∧
      r.products.chcol = some ⟨keptHits cfg.bkgmsk chcol.hits st.chfcol, chcol.parent⟩ := by
  obtain ⟨st, hloop, _, hfilt, _⟩ := produce_inv env cfg chcol shcolSize shchcol mvavars r h
  obtain ⟨hlen, hun⟩ := clusterLoop_untouched env cfg chcol.hits _ _ _ hloop
  refine ⟨st, hloop, by simpa using hlen, ?_, ?_, ?_⟩
  · intro i hno hi
    rw [hun i hno]
    simp [hi]
  · intro pre post cluster chit hcl hmem hlast
    rw [hcl] at hloop
    exact clusterLoop_last env cfg chcol.hits pre cluster post _ st chit hloop hmem hlast
  · rw [hfilt, if_pos hfil, filterHits_eq_keptHits]

/-- Claim C11, amended, on the sample event. -/
theorem C11_filter_rule_witness :
    exCfg.filter = true ∧
    ∃ r, produce exEnv exCfg ⟨exHits, 7⟩ 5 exHits exVars = some r ∧
    ∃ st, clusterLoop exEnv exCfg exHits (exEnv.findClusters ⟨exHits, 7⟩)
        ⟨List.replicate exHits.length StrawHitFlag.empty, [], [], exVars⟩ = some st ∧
      st.chfcol.length = exHits.length ∧
      (∀ i, (∀ c ∈ exEnv.findClusters ⟨exHits, 7⟩, ∀ chit ∈ c.hits, chit.index ≠ i) →
        i < exHits.length → st.chfcol[i]? = some StrawHitFlag.empty) ∧
      (∀ (pre post : List BkgCluster) (cluster : BkgCluster) (chit : BkgClusterHit),
        exEnv.findClusters ⟨exHits, 7⟩ = pre ++ cluster :: post → chit ∈ cluster.hits →
        (∀ c ∈ post, ∀ x ∈ c.hits, x.index ≠ chit.index) →
        ∃ mv q, fillBkgQual exEnv exCfg exHits mv cluster exEnv.fresh = some q ∧
          st.chfcol[chit.index]? = some (classify exEnv exCfg cluster q.cqual).1) ∧
      r.products.chcol = some ⟨keptHits exCfg.bkgmsk exHits st.chfcol, 7⟩ :=
  ⟨rfl,
    match h : produce exEnv exCfg ⟨exHits, 7⟩ 5 exHits exVars with
    | some r => ⟨r, rfl, C11_filter_rule exEnv exCfg ⟨exHits, 7⟩ 5 exHits exVars r h rfl⟩
    | none => absurd h (by decide)⟩

/-- Claim C11 as stated fails: a hit that comes in with the `Background` bit and belongs
to no cluster has a merged flag that matches the mask, and is kept by the filter all the
same. -/
theorem C11_counterexample :
    (produce exEnvNone exCfg ⟨exHitsBkg, 7⟩ 1 exHitsBkg exVars).map
        (fun r => (r.products.chcol, r.products.chfcol))
      = some (some ⟨exHitsBkg, 7⟩, some [⟨2 ^ 16 + 2 ^ 6⟩]) ∧
    (StrawHitFlag.mk (2 ^ 16 + 2 ^ 6)).hasAnyProperty exCfg.bkgmsk = true := by
  decide

/-- Claim C12.  When FilterOutput is requested, the filtered collection with the flags
erased is a sublist of the input collection with the flags erased (so every output hit is
an input hit but for the flag, in the same relative order, none emitted twice), every
output hit is an input hit with a new flag, and the parent of the output is the parent of
the input. -/
theorem C12_filter_subsequence (env : Env) (cfg : Config) (chcol : ComboHitCollection)
    (shcolSize : Nat) (shchcol : List ComboHit) (mvavars : List ℚ) (r : ProduceResult)
    (h : produce env cfg chcol shcolSize shchcol mvavars = some r)
    (hfil : cfg.filter = true) :
    ∃ out, r.products.chcol = some out ∧
      List.Sublist (out.hits.map eraseFlag) (chcol.hits.map eraseFlag) ∧
      (∀ hit ∈ out.hits, ∃ orig ∈ chcol.hits, hit = { orig with flag := hit.flag }) ∧
      out.parent = chcol.parent := by
  obtain ⟨st, _, _, hfilt, _⟩ := produce_inv env cfg chcol shcolSize shchcol mvavars r h
  rw [if_pos hfil] at hfilt
  refine ⟨_, hfilt, filterHits_sublist cfg.bkgmsk chcol.hits st.chfcol, ?_, rfl⟩
  intro hit hmem
  obtain ⟨orig, ho, fl, _, e, _⟩ := filterHits_mem cfg.bkgmsk chcol.hits st.chfcol hit hmem
  exact ⟨orig, ho, by rw [e]⟩

/-- Claim C12 on the sample event. -/
theorem C12_filter_subsequence_witness :
    exCfg.filter = true ∧
    ∃ r, produce exEnv exCfg ⟨exHits, 7⟩ 5 exHits exVars = some r ∧
    ∃ out, r.products.chcol = some out ∧
      List.Sublist (out.hits.map eraseFlag) (exHits.map eraseFlag) ∧
      (∀ hit ∈ out.hits, ∃ orig ∈ exHits, hit = { orig with flag := hit.flag }) ∧
      out.parent = 7 :=
  ⟨rfl,
    match h : produce exEnv exCfg ⟨exHits, 7⟩ 5 exHits exVars with
    | some r => ⟨r, rfl, C12_filter_subsequence exEnv exCfg ⟨exHits, 7⟩ 5 exHits exVars r h rfl⟩
    | none => absurd h (by decide)⟩

/-- Claim C13.  The ComboHits flag collection `produce` writes has one entry per input
hit, entry `i` being the flag the cluster loop left for hit `i` (empty when no cluster
refers to it) merged with the flag of input hit `i`; it is written whenever FlagComboHits
is requested and no exception is raised. -/
theorem C13_flag_collection_size (env : Env) (cfg : Config) (chcol : ComboHitCollection)
    (shcolSize : Nat) (shchcol : List ComboHit) (mvavars : List ℚ) (r : ProduceResult)
    (h : produce env cfg chcol shcolSize shchcol mvavars = some r) :
    (∀ f, r.products.chfcol = some f → f.length = chcol.hits.length ∧
      ∃ st, clusterLoop env cfg chcol.hits (env.findClusters chcol)
          ⟨List.replicate chcol.hits.length StrawHitFlag.empty, [], [], mvavars⟩ = some st ∧
        ∀ (i : Nat) (ch : ComboHit), chcol.hits[i]? = some ch →
          ∃ fl, st.chfcol[i]? = some fl ∧ f[i]? = some (fl.merge ch.flag)) ∧
    (cfg.flagch = true → r.thrown = none →
      ∃ f, r.products.chfcol = some f ∧ f.length = chcol.hits.length) := by
  obtain ⟨st, hloop, _, _, hrest⟩ := produce_inv env cfg chcol shcolSize shchcol mvavars r h
  have hlen : st.chfcol.length = chcol.hits.length := by
    have := (clusterLoop_untouched env cfg chcol.hits _ _ _ hloop).1
    simpa using this
  obtain ⟨e1, e2⟩ := mergeOriginal_spec st.chfcol chcol.hits hlen
  refine ⟨?_, ?_⟩
  · intro f hf
    have hfe : f = mergeOriginal st.chfcol chcol.hits := by
      rcases hrest with ⟨_, _, _, _, hn, _⟩ | ⟨_, _, _, _, hn, _⟩ | ⟨_, _, hc, _⟩
      · rw [hn] at hf; cases hf
      · rw [hn] at hf; cases hf
      · rw [hc] at hf
        by_cases hfc : cfg.flagch = true
        · rw [if_pos hfc] at hf; cases hf; rfl
        · rw [if_neg hfc] at hf; cases hf
    subst hfe
    exact ⟨e1, st, hloop, e2⟩
  · intro hfc hth
    rcases hrest with ⟨_, _, ht, _⟩ | ⟨_, _, ⟨e, _, ht⟩, _⟩ | ⟨_, _, hc, _⟩
    · rw [ht] at hth; cases hth
    · rw [ht] at hth; cases hth
    · rw [if_pos hfc] at hc
      exact ⟨_, hc, e1⟩

/-- Claim C13 on the sample event: five input hits, four of them in the first cluster and
one in the second. -/
theorem C13_flag_collection_size_witness :
    ∃ r, produce exEnv exCfg ⟨exHits, 7⟩ 5 exHits exVars = some r ∧
      (∀ f, r.products.chfcol = some f → f.length = exHits.length ∧
        ∃ st, clusterLoop exEnv exCfg exHits (exEnv.findClusters ⟨exHits, 7⟩)
            ⟨List.replicate exHits.length StrawHitFlag.empty, [], [], exVars⟩ = some st ∧
          ∀ (i : Nat) (ch : ComboHit), exHits[i]? = some ch →
            ∃ fl, st.chfcol[i]? = some fl ∧ f[i]? = some (fl.merge ch.flag)) ∧
      (exCfg.flagch = true → r.thrown = none →
        ∃ f, r.products.chfcol = some f ∧ f.length = exHits.length) :=
  match h : produce exEnv exCfg ⟨exHits, 7⟩ 5 exHits exVars with
  | some r => ⟨r, rfl, C13_flag_collection_size exEnv exCfg ⟨exHits, 7⟩ 5 exHits exVars r h⟩
  | none => absurd h (by decide)

/-- Claim C14, amended.  With FlagStrawHits requested and a straw-hit collection whose
size differs from the size of the straw-level combo-hit collection, once the cluster loop
has run to its end `produce` raises the size exception; at that moment no flag collection,
no cluster collection and no descriptor collection has been put into the event, and the
filtered hit collection has been put exactly when FilterOutput is requested. -/
theorem C14_size_mismatch (env : Env) (cfg : Config) (chcol : ComboHitCollection)
    (shcolSize : Nat) (shchcol : List ComboHit) (mvavars : List ℚ) (st : LoopState)
    (hloop : clusterLoop env cfg chcol.hits (env.findClusters chcol)
      ⟨List.replicate chcol.hits.length StrawHitFlag.empty, [], [], mvavars⟩ = some st)
    (hsh : cfg.flagsh = true) (hne : shcolSize ≠ shchcol.length) :
    ∃ r, produce env cfg chcol shcolSize shchcol mvavars = some r ∧
      r.thrown = some Exception.sizesDontMatch ∧
      r.products.shfcol = none ∧ r.products.chfcol = none ∧
      r.products.bkgccol = none ∧ r.products.bkgqcol = none ∧
      r.products.chcol = (if cfg.filter = true then
        some ⟨filterHits cfg.bkgmsk chcol.hits st.chfcol, chcol.parent⟩ else none) := by
  have hp : ∃ r, produce env cfg chcol shcolSize shchcol mvavars = some r := by
    unfold produce
    simp only [hloop]
    rw [if_pos hsh, if_pos hne]
    exact ⟨_, rfl⟩
  obtain ⟨r, hr⟩ := hp
  obtain ⟨st2, hloop2, _, hfilt, hrest⟩ :=
    produce_inv env cfg chcol shcolSize shchcol mvavars r hr
  rw [hloop] at hloop2
  cases hloop2
  refine ⟨r, hr, ?_⟩
  rcases hrest with ⟨_, _, ht, h1, h2, h3, h4⟩ | ⟨_, heq, _⟩ | ⟨_, hs, _⟩
  · exact ⟨ht, h1, h2, h3, h4, hfilt⟩
  · exact absurd heq hne
  · rcases hs with ⟨hf, _⟩ | ⟨_, heq, _⟩
    · rw [hsh] at hf; cases hf
    · exact absurd heq hne

/-- Claim C14, amended, on the sample event with four straw hits against five
straw-level combo hits. -/
theorem C14_size_mismatch_witness :
    ∃ st, clusterLoop exEnv exCfg exHits (exEnv.findClusters ⟨exHits, 7⟩)
        ⟨List.replicate exHits.length StrawHitFlag.empty, [], [], exVars⟩ = some st ∧
      exCfg.flagsh = true ∧ 4 ≠ exHits.length ∧
      ∃ r, produce exEnv exCfg ⟨exHits, 7⟩ 4 exHits exVars = some r ∧
        r.thrown = some Exception.sizesDontMatch ∧
        r.products.shfcol = none ∧ r.products.chfcol = none ∧
        r.products.bkgccol = none ∧ r.products.bkgqcol = none ∧
        r.products.chcol = (if exCfg.filter = true then
          some ⟨filterHits exCfg.bkgmsk exHits st.chfcol, 7⟩ else none) :=
  match h : clusterLoop exEnv exCfg exHits (exEnv.findClusters ⟨exHits, 7⟩)
      ⟨List.replicate exHits.length StrawHitFlag.empty, [], [], exVars⟩ with
  | some st =>
    ⟨st, rfl, rfl, by decide,
      C14_size_mismatch exEnv exCfg ⟨exHits, 7⟩ 4 exHits exVars st h rfl (by decide)⟩
  | none => absurd h (by decide)

/-- Claim C14 as stated fails when FilterOutput is requested: on the sample event with
four straw hits against five straw-level combo hits the size exception is raised after the
filtered hit collection has been put into the event. -/
theorem C14_counterexample :
    exCfg.filter = true ∧ exCfg.flagsh = true ∧
    (produce exEnv exCfg ⟨exHits, 7⟩ 4 exHits exVars).map
        (fun r => (r.thrown, r.products.chcol.isSome, r.products.shfcol.isSome,
          r.products.chfcol.isSome))
      = some (some Exception.sizesDontMatch, true, false, false) := by
  decide

/-! ## Claim on the constructor -/

/-- Claim C15.  For every integer value of the selector other than 1, 2 and 3 the
constructor raises the exception for an unknown clusterer and creates no clusterer; the
values 1, 2 and 3 create the Two-Level Threshold, the Two-Niveau Threshold and the boosted
Two-Niveau Threshold clusterer. -/
theorem C15_unknown_clusterer (n : Int) (h1 : n ≠ 1) (h2 : n ≠ 2) (h3 : n ≠ 3) :
    makeClusterer (some n) = Except.error (ConfigException.unknownClusterer n) ∧
    (∀ k, makeClusterer (some n) ≠ Except.ok k) ∧
    makeClusterer (some 1) = Except.ok BkgClusterer.TLTClusterer ∧
    makeClusterer (some 2) = Except.ok BkgClusterer.TNTClusterer ∧
    makeClusterer (some 3) = Except.ok BkgClusterer.TNTBClusterer := by
  have e : makeClusterer (some n) = Except.error (ConfigException.unknownClusterer n) := by
    simp [makeClusterer, h1, h2, h3]
  refine ⟨e, ?_, rfl, rfl, rfl⟩
  intro k hk
  rw [e] at hk
  cases hk

/-- Claim C15 for the selector 0. -/
theorem C15_unknown_clusterer_witness :
    (0 : Int) ≠ 1 ∧ (0 : Int) ≠ 2 ∧ (0 : Int) ≠ 3 ∧
    makeClusterer (some 0) = Except.error (ConfigException.unknownClusterer 0) ∧
    (∀ k, makeClusterer (some 0) ≠ Except.ok k) ∧
    makeClusterer (some 1) = Except.ok BkgClusterer.TLTClusterer ∧
    makeClusterer (some 2) = Except.ok BkgClusterer.TNTClusterer ∧
    makeClusterer (some 3) = Except.ok BkgClusterer.TNTBClusterer :=
  ⟨by decide, by decide, by decide,
    C15_unknown_clusterer 0 (by decide) (by decide) (by decide)⟩

/-! ## Lemmas on the spread computation -/

theorem spreadLoop_hz (env : Env) (cfg : Config) (chcol : List ComboHit)
    (cluster : BkgCluster) (nactive : Nat) :
    ∀ (l : List BkgClusterHit) (acc acc2 : SpreadAcc),
      spreadLoop env cfg chcol cluster nactive l acc = some acc2 →
      acc2.hz = acc.hz ++ activeZ env chcol l := by
  intro l
  induction l with
  | nil =>
    intro acc acc2 h
    simp only [spreadLoop, Option.some.injEq] at h
    subst h
    simp [activeZ]
  | cons chit rest ih =>
    intro acc acc2 h
    by_cases ha : chit.flag.hasAllProperties env.active = true
    · cases hg : chcol[chit.index]? with
      | none => simp [spreadLoop, ha, hg] at h
      | some ch =>
        simp only [spreadLoop, if_pos ha, hg] at h
        rw [ih _ _ h]
        simp [activeZ, ha, hg]
    · simp only [spreadLoop, if_neg ha] at h
      rw [ih _ _ h]
      simp [activeZ, ha]

theorem setVar_inv (mvavars : List ℚ) (k : Nat) (x : ℚ) (v : List ℚ)
    (h : setVar mvavars k x = some v) : k < mvavars.length ∧ v = mvavars.set k x := by
  unfold setVar at h
  split at h
  · rename_i hk
    cases h
    exact ⟨hk, rfl⟩
  · cases h

/-- What the nine assignments leave in `_mvavars`: slot `i` of the first nine holds the
variable of that position, the slots from 9 on are untouched. -/
theorem loadVars_spec (mvavars : List ℚ) (q : BkgQual) (v : List ℚ)
    (h : loadVars mvavars q = some v) :
    9 ≤ mvavars.length ∧ v.length = mvavars.length ∧
    v[0]? = some q.hrho ∧ v[1]? = some q.shrho ∧ v[2]? = some q.crho ∧
    v[3]? = some q.zmin ∧ v[4]? = some q.zmax ∧ v[5]? = some q.zgap ∧
    v[6]? = some q.np ∧ v[7]? = some q.npfrac ∧ v[8]? = some q.nhits ∧
    ∀ j, 9 ≤ j → v[j]? = mvavars[j]? := by
  have hlen := loadVars_length mvavars q v h
  unfold loadVars at h
  cases h0 : setVar mvavars 0 q.hrho with
  | none => simp [h0] at h
  | some v0 =>
  cases h1 : setVar v0 1 q.shrho with
  | none => simp [h0, h1] at h
  | some v1 =>
  cases h2 : setVar v1 2 q.crho with
  | none => simp [h0, h1, h2] at h
  | some v2 =>
  cases h3 : setVar v2 3 q.zmin with
  | none => simp [h0, h1, h2, h3] at h
  | some v3 =>
  cases h4 : setVar v3 4 q.zmax with
  | none => simp [h0, h1, h2, h3, h4] at h
  | some v4 =>
  cases h5 : setVar v4 5 q.zgap with
  | none => simp [h0, h1, h2, h3, h4, h5] at h
  | some v5 =>
  cases h6 : setVar v5 6 q.np with
  | none => simp [h0, h1, h2, h3, h4, h5, h6] at h
  | some v6 =>
  cases h7 : setVar v6 7 q.npfrac with
  | none => simp [h0, h1, h2, h3, h4, h5, h6, h7] at h
  | some v7 =>
  simp only [h0, h1, h2, h3, h4, h5, h6, h7, Option.some_bind] at h
  obtain ⟨k0, e0⟩ := setVar_inv _ _ _ _ h0
  obtain ⟨k1, e1⟩ := setVar_inv _ _ _ _ h1
  obtain ⟨k2, e2⟩ := setVar_inv _ _ _ _ h2
  obtain ⟨k3, e3⟩ := setVar_inv _ _ _ _ h3
  obtain ⟨k4, e4⟩ := setVar_inv _ _ _ _ h4
  obtain ⟨k5, e5⟩ := setVar_inv _ _ _ _ h5
  obtain ⟨k6, e6⟩ := setVar_inv _ _ _ _ h6
  obtain ⟨k7, e7⟩ := setVar_inv _ _ _ _ h7
  obtain ⟨k8, e8⟩ := setVar_inv _ _ _ _ h
  have l0 := setVar_length _ _ _ _ h0
  have l1 := setVar_length _ _ _ _ h1
  have l2 := setVar_length _ _ _ _ h2
  have l3 := setVar_length _ _ _ _ h3
  have l4 := setVar_length _ _ _ _ h4
  have l5 := setVar_length _ _ _ _ h5
  have l6 := setVar_length _ _ _ _ h6
  have l7 := setVar_length _ _ _ _ h7
  have hm : 9 ≤ mvavars.length := by omega
  subst e8 e7 e6 e5 e4 e3 e2 e1 e0
  refine ⟨hm, hlen, ?_, ?_, ?_, ?_, ?_, ?_, ?_, ?_, ?_, ?_⟩
  · simp [List.getElem?_set]
    intro hnil
    rw [hnil] at hm
    simp at hm
  · simp [List.getElem?_set]; omega
  · simp [List.getElem?_set]; omega
  · simp [List.getElem?_set]; omega
  · simp [List.getElem?_set]; omega
  · simp [List.getElem?_set]; omega
  · simp [List.getElem?_set]; omega
  · simp [List.getElem?_set]; omega
  · simp [List.getElem?_set]; omega
  · intro j hj
    have n0 : ¬ 0 = j := by omega
    have n1 : ¬ 1 = j := by omega
    have n2 : ¬ 2 = j := by omega
    have n3 : ¬ 3 = j := by omega
    have n4 : ¬ 4 = j := by omega
    have n5 : ¬ 5 = j := by omega
    have n6 : ¬ 6 = j := by omega
    have n7 : ¬ 7 = j := by omega
    have n8 : ¬ 8 = j := by omega
    simp [List.getElem?_set, n0, n1, n2, n3, n4, n5, n6, n7, n8]

/-- The whole of what `fillSpread` returns, when it returns. -/
theorem fillSpread_full (env : Env) (cfg : Config) (chcol : List ComboHit) (mvavars : List ℚ)
    (cluster : BkgCluster) (nactive : Nat) (q : BkgQual) (r : FillResult)
    (h : fillSpread env cfg chcol mvavars cluster nactive q = some r) :
    ∃ acc front back,
      spreadLoop env cfg chcol cluster nactive cluster.hits ⟨[], [], []⟩ = some acc ∧
      (acc.hz.insertionSort (fun a b => a ≤ b)).head? = some front ∧
      (acc.hz.insertionSort (fun a b => a ≤ b)).getLast? = some back ∧
      ((cfg.useMVA = true ∧
          loadVars mvavars (spreadDescriptor env q acc front back) = some r.mvavars ∧
          r.cqual = { spreadDescriptor env q acc front back with
            mvaout := env.EvaluateMVA r.mvavars, status := MVAStatus.calculated }) ∨
       (cfg.useMVA = false ∧ r.cqual = spreadDescriptor env q acc front back ∧
          r.mvavars = mvavars)) := by
  unfold fillSpread at h
  cases hacc : spreadLoop env cfg chcol cluster nactive cluster.hits ⟨[], [], []⟩ with
  | none => simp [hacc] at h
  | some acc =>
    cases hf : (acc.hz.insertionSort (fun a b => a ≤ b)).head? with
    | none => simp [hacc, hf] at h
    | some front =>
      cases hb : (acc.hz.insertionSort (fun a b => a ≤ b)).getLast? with
      | none => simp [hacc, hf, hb] at h
      | some back =>
        simp only [hacc, hf, hb] at h
        refine ⟨acc, front, back, rfl, hf, hb, ?_⟩
        by_cases hu : cfg.useMVA = true
        · simp only [hu, if_true] at h
          split at h
          · cases h
          · rename_i vars hl
            cases h
            exact Or.inl ⟨hu, hl, rfl⟩
        · simp only [hu] at h
          cases h
          exact Or.inr ⟨by simpa using hu, rfl, rfl⟩

/-- A descriptor that ends `fillBkgQual` with status SCORED: the classifier is enabled,
`_mvavars` is what the nine assignments made of it from the FILLED descriptor, and the
descriptor is the FILLED one with the classifier's answer on `_mvavars`. -/
theorem fillBkgQual_scored (env : Env) (cfg : Config) (chcol : List ComboHit)
    (mvavars : List ℚ) (cluster : BkgCluster) (cqual : BkgQual) (r : FillResult)
    (h : fillBkgQual env cfg chcol mvavars cluster cqual = some r)
    (hs : r.cqual.status = MVAStatus.calculated) :
    cfg.useMVA = true ∧ r.mvaCalls = [r.mvavars] ∧
    ∃ q3 : BkgQual, loadVars mvavars q3 = some r.mvavars ∧
      r.cqual = { q3 with mvaout := env.EvaluateMVA r.mvavars,
                          status := MVAStatus.calculated } := by
  obtain ⟨na, ns, _, hcases⟩ := fillBkgQual_inv env cfg chcol mvavars cluster cqual r h
  rcases hcases with ⟨_, rfl⟩ | ⟨_, _, c, _, hrest⟩
  · cases hs
  · rcases hrest with ⟨_, rfl⟩ | ⟨_, hsp⟩
    · cases hs
    · obtain ⟨_, hst⟩ := fillSpread_inv env cfg chcol mvavars cluster na _ r hsp
      obtain ⟨acc, front, back, _, _, _, hfull⟩ :=
        fillSpread_full env cfg chcol mvavars cluster na _ r hsp
      rcases hfull with ⟨hu, hl, hq⟩ | ⟨_, hq, _⟩
      · rcases hst with ⟨_, _, _, hcalls, _⟩ | ⟨hu2, _⟩
        · exact ⟨hu, hcalls, _, hl, hq⟩
        · rw [hu] at hu2; cases hu2
      · rw [hq] at hs
        cases hs

/-- Claim C16, amended.  A call of `fillBkgQual` returns the descriptor and the member
`_mvavars`, and nothing else of the module, the hit collection or the cluster is written
(they are read-only arguments of the call).  `_mvavars` keeps its size; it is unchanged
when the descriptor does not end with status SCORED (classifier disabled, or checks
failed); when the descriptor ends SCORED its slots 0 to 8 are overwritten with `hrho`,
`shrho`, `crho`, `zmin`, `zmax`, `zgap`, `np`, `npfrac`, `nhits` and the slots from 9 on
are unchanged. -/
theorem C16_side_effects (env : Env) (cfg : Config) (chcol : List ComboHit)
    (mvavars : List ℚ) (cluster : BkgCluster) (cqual : BkgQual) (r : FillResult)
    (h : fillBkgQual env cfg chcol mvavars cluster cqual = some r) :
    r.mvavars.length = mvavars.length ∧
    (r.cqual.status ≠ MVAStatus.calculated → r.mvavars = mvavars) ∧
    (r.cqual.status = MVAStatus.calculated →
      r.mvavars.take 9 = [r.cqual.hrho, r.cqual.shrho, r.cqual.crho, r.cqual.zmin,
        r.cqual.zmax, r.cqual.zgap, r.cqual.np, r.cqual.npfrac, r.cqual.nhits] ∧
      ∀ j, 9 ≤ j → r.mvavars[j]? = mvavars[j]?) := by
  refine ⟨fillBkgQual_mvavars_length env cfg chcol mvavars cluster cqual r h, ?_, ?_⟩
  · intro hs
    obtain ⟨na, ns, _, hcases⟩ := fillBkgQual_inv env cfg chcol mvavars cluster cqual r h
    rcases hcases with ⟨_, rfl⟩ | ⟨_, _, c, _, hrest⟩
    · rfl
    · rcases hrest with ⟨_, rfl⟩ | ⟨_, hsp⟩
      · rfl
      · obtain ⟨_, hst⟩ := fillSpread_inv env cfg chcol mvavars cluster na _ r hsp
        rcases hst with ⟨_, hs2, _⟩ | ⟨_, _, _, _, hm, _⟩
        · exact absurd hs2 hs
        · exact hm
  · intro hs
    obtain ⟨_, _, q3, hl, hq⟩ := fillBkgQual_scored env cfg chcol mvavars cluster cqual r h hs
    obtain ⟨h9, hlen, e0, e1, e2, e3, e4, e5, e6, e7, e8, hrest⟩ :=
      loadVars_spec mvavars q3 r.mvavars hl
    refine ⟨?_, hrest⟩
    have hq2 : [r.cqual.hrho, r.cqual.shrho, r.cqual.crho, r.cqual.zmin,
        r.cqual.zmax, r.cqual.zgap, r.cqual.np, r.cqual.npfrac, r.cqual.nhits]
        = [q3.hrho, q3.shrho, q3.crho, q3.zmin, q3.zmax, q3.zgap, q3.np, q3.npfrac,
          q3.nhits] := by rw [hq]
    rw [hq2]
    apply List.ext_getElem?
    intro i
    by_cases hi : i < 9
    · rw [List.getElem?_take_of_lt hi]
      interval_cases i <;> simp [e0, e1, e2, e3, e4, e5, e6, e7, e8]
    · rw [List.getElem?_take_eq_none (by omega)]
      have : 9 ≤ i := by omega
      simp [this]

/-- Claim C16, amended, on the sample cluster. -/
theorem C16_side_effects_witness :
    ∃ r, fillBkgQual exEnv exCfg exHits exVars exCluster exFresh = some r ∧
      r.mvavars.length = exVars.length ∧
      (r.cqual.status ≠ MVAStatus.calculated → r.mvavars = exVars) ∧
      (r.cqual.status = MVAStatus.calculated →
        r.mvavars.take 9 = [r.cqual.hrho, r.cqual.shrho, r.cqual.crho, r.cqual.zmin,
          r.cqual.zmax, r.cqual.zgap, r.cqual.np, r.cqual.npfrac, r.cqual.nhits] ∧
        ∀ j, 9 ≤ j → r.mvavars[j]? = exVars[j]?) :=
  match h : fillBkgQual exEnv exCfg exHits exVars exCluster exFresh with
  | some r => ⟨r, rfl, C16_side_effects exEnv exCfg exHits exVars exCluster exFresh r h⟩
  | none => absurd h (by decide)

/-- Claim C16 as stated fails with the classifier enabled: on the sample cluster the call
ends SCORED and leaves 15 (the value of `nhits`) in slot 8 of the member `_mvavars`, which
held 0 before the call. -/
theorem C16_counterexample :
    exCfg.useMVA = true ∧ exVars[8]? = some 0 ∧
    (fillBkgQual exEnv exCfg exHits exVars exCluster exFresh).map
        (fun r => (r.cqual.status, r.mvavars[8]?))
      = some (MVAStatus.calculated, some 15) := by
  decide

/-- Claim C20, amended.  When the descriptor ends `fillBkgQual` with status SCORED, the
classifier is enabled and was evaluated once, on `_mvavars`; slot `i` of `_mvavars`, for
`i` from 0 to 8, holds the descriptor variable at position `i` of the fixed list `hrho`,
`shrho`, `crho`, `zmin`, `zmax`, `zgap`, `np`, `npfrac`, `nhits`, whatever names were
configured; the stored score is the classifier's answer on that vector.  So the value
handed over for the `i`-th declared input is the variable it names when MVANames is that
list. -/
theorem C20_classifier_inputs (env : Env) (cfg : Config) (chcol : List ComboHit)
    (mvavars : List ℚ) (cluster : BkgCluster) (cqual : BkgQual) (r : FillResult)
    (h : fillBkgQual env cfg chcol mvavars cluster cqual = some r)
    (hs : r.cqual.status = MVAStatus.calculated) :
    cfg.useMVA = true ∧ r.mvaCalls = [r.mvavars] ∧
    r.cqual.mvaout = env.EvaluateMVA r.mvavars ∧
    (∀ (i : Nat) (v : BkgVar), fixedOrder[i]? = some v →
      r.mvavars[i]? = some (r.cqual.varValue v)) ∧
    (∀ varnames : List BkgVar, mvavars = initVars varnames → varnames = fixedOrder →
      r.mvavars.length = varnames.length ∧
      ∀ (i : Nat) (v : BkgVar), varnames[i]? = some v →
        r.mvavars[i]? = some (r.cqual.varValue v)) := by
  obtain ⟨hu, hcalls, q3, hl, hq⟩ :=
    fillBkgQual_scored env cfg chcol mvavars cluster cqual r h hs
  obtain ⟨h9, hlen, e0, e1, e2, e3, e4, e5, e6, e7, e8, hrest⟩ :=
    loadVars_spec mvavars q3 r.mvavars hl
  have hfix : ∀ (i : Nat) (v : BkgVar), fixedOrder[i]? = some v →
      r.mvavars[i]? = some (r.cqual.varValue v) := by
    intro i v hi
    have hlt : i < 9 := by
      have := (List.getElem?_eq_some_iff.mp hi).1
      simpa [fixedOrder] using this
    rw [hq]
    interval_cases i <;> simp [fixedOrder] at hi <;> subst hi <;>
      simp [BkgQual.varValue, e0, e1, e2, e3, e4, e5, e6, e7, e8]
  refine ⟨hu, hcalls, ?_, hfix, ?_⟩
  · rw [hq]
  · intro varnames hinit hnames
    subst hnames
    refine ⟨?_, hfix⟩
    rw [hlen, hinit]
    simp [initVars]

/-- Claim C20, amended, on the sample cluster. -/
theorem C20_classifier_inputs_witness :
    ∃ r, fillBkgQual exEnv exCfg exHits (initVars fixedOrder) exCluster exFresh = some r ∧
      r.cqual.status = MVAStatus.calculated ∧
      (exCfg.useMVA = true ∧ r.mvaCalls = [r.mvavars] ∧
      r.cqual.mvaout = exEnv.EvaluateMVA r.mvavars ∧
      (∀ (i : Nat) (v : BkgVar), fixedOrder[i]? = some v →
        r.mvavars[i]? = some (r.cqual.varValue v)) ∧
      (∀ varnames : List BkgVar, initVars fixedOrder = initVars varnames →
        varnames = fixedOrder →
        r.mvavars.length = varnames.length ∧
        ∀ (i : Nat) (v : BkgVar), varnames[i]? = some v →
          r.mvavars[i]? = some (r.cqual.varValue v))) :=
  match h : fillBkgQual exEnv exCfg exHits (initVars fixedOrder) exCluster exFresh with
  | some r =>
    have hs : r.cqual.status = MVAStatus.calculated := by
      have e : (fillBkgQual exEnv exCfg exHits (initVars fixedOrder) exCluster exFresh).map
          (fun r => r.cqual.status) = some MVAStatus.calculated := by decide
      rw [h] at e
      simpa using e
    ⟨r, rfl, hs,
      C20_classifier_inputs exEnv exCfg exHits (initVars fixedOrder) exCluster exFresh r h hs⟩
  | none => absurd h (by decide)

/-- Claim C20 as stated fails for a list of names in another order: with `nhits` declared
as seventh and `np` as ninth input, the sample cluster ends SCORED with 4 (the value of
`np`) in slot 6 and 15 (the value of `nhits`) in slot 8, while the variables the seventh
and ninth declared inputs name hold 15 and 4. -/
theorem C20_counterexample :
    exNames[6]? = some BkgVar.nhits ∧ exNames[8]? = some BkgVar.np ∧
    (fillBkgQual exEnv exCfg exHits (initVars exNames) exCluster exFresh).map
        (fun r => (r.cqual.status, r.mvavars[6]?, r.cqual.varValue BkgVar.nhits,
          r.mvavars[8]?, r.cqual.varValue BkgVar.np))
      = some (MVAStatus.calculated, some 4, 15, some 15, 4) := by
  decide

/-! ## Claims on countHits and countPlanes -/

theorem countHitsLoop_sums (env : Env) (chcol : List ComboHit) :
    ∀ (l : List BkgClusterHit) (na ns : Nat), (∀ chit ∈ l, chit.index < chcol.length) →
      ∃ ra rs, countHitsLoop env chcol l na ns = some (ra, rs) ∧
        ra % 2 ^ 32 = (na + ((l.filter (fun chit => chit.flag.hasAllProperties env.active)).map
          (multiplicity chcol)).sum) % 2 ^ 32 ∧
        rs % 2 ^ 32 = (ns + ((l.filter (fun chit => chit.flag.hasAllProperties env.active &&
          chit.flag.hasAllProperties env.stereo)).map (multiplicity chcol)).sum) % 2 ^ 32 ∧
        (na < 2 ^ 32 → ra < 2 ^ 32) ∧ (ns < 2 ^ 32 → rs < 2 ^ 32) := by
  intro l
  induction l with
  | nil => intro na ns _; exact ⟨na, ns, rfl, by simp, by simp, id, id⟩
  | cons chit rest ih =>
    intro na ns hv
    have hi : chit.index < chcol.length := hv chit (List.mem_cons_self _ _)
    have hr : ∀ c ∈ rest, c.index < chcol.length := fun c hc => hv c (List.mem_cons_of_mem _ hc)
    have hget : chcol[chit.index]? = some chcol[chit.index] := List.getElem?_eq_getElem hi
    have hmul : multiplicity chcol chit = chcol[chit.index].nStrawHits := by
      simp [multiplicity, hget]
    have hlt : ∀ x : Nat, x % 2 ^ 32 < 2 ^ 32 := fun x => Nat.mod_lt _ (by norm_num)
    by_cases ha : chit.flag.hasAllProperties env.active = true
    · by_cases hs : chit.flag.hasAllProperties env.stereo = true
      · obtain ⟨ra, rs, h1, h2, h3, h4, h5⟩ := ih ((na + chcol[chit.index].nStrawHits) % 2 ^ 32)
          ((ns + chcol[chit.index].nStrawHits) % 2 ^ 32) hr
        refine ⟨ra, rs, ?_, ?_, ?_, fun _ => h4 (hlt _), fun _ => h5 (hlt _)⟩
        · simp only [countHitsLoop, hget, if_pos ha, if_pos hs]; exact h1
        · rw [List.filter_cons_of_pos (by simpa using ha)]
          simp only [List.map_cons, List.sum_cons, hmul]
          omega
        · rw [List.filter_cons_of_pos (by simp [ha, hs])]
          simp only [List.map_cons, List.sum_cons, hmul]
          omega
      · obtain ⟨ra, rs, h1, h2, h3, h4, h5⟩ := ih ((na + chcol[chit.index].nStrawHits) % 2 ^ 32)
          ns hr
        refine ⟨ra, rs, ?_, ?_, ?_, fun _ => h4 (hlt _), h5⟩
        · simp only [countHitsLoop, hget, if_pos ha, if_neg hs]; exact h1
        · rw [List.filter_cons_of_pos (by simpa using ha)]
          simp only [List.map_cons, List.sum_cons, hmul]
          omega
        · rw [List.filter_cons_of_neg (by simp [ha, hs])]
          exact h3
    · obtain ⟨ra, rs, h1, h2, h3, h4, h5⟩ := ih na ns hr
      refine ⟨ra, rs, ?_, ?_, ?_, h4, h5⟩
      · simp only [countHitsLoop, hget, if_neg ha]; exact h1
      · rw [List.filter_cons_of_neg (by simpa using ha)]
        exact h2
      · rw [List.filter_cons_of_neg (by simp [ha])]
        exact h3

theorem stereoSum_le_activeSum (env : Env) (chcol : List ComboHit) (cluster : BkgCluster) :
    stereoSum env chcol cluster ≤ activeSum env chcol cluster := by
  unfold stereoSum activeSum
  induction cluster.hits with
  | nil => simp
  | cons chit rest ih =>
    by_cases ha : chit.flag.hasAllProperties env.active = true
    · by_cases hs : chit.flag.hasAllProperties env.stereo = true
      · rw [List.filter_cons_of_pos (by simp [ha, hs]),
          List.filter_cons_of_pos (by simpa using ha)]
        simp only [List.map_cons, List.sum_cons]
        omega
      · rw [List.filter_cons_of_neg (by simp [ha, hs]),
          List.filter_cons_of_pos (by simpa using ha)]
        simp only [List.map_cons, List.sum_cons]
        omega
    · rw [List.filter_cons_of_neg (by simp [ha]),
        List.filter_cons_of_neg (by simpa using ha)]
      exact ih

/-- Claim C17.  For a cluster with valid member indices `countHits` returns; `nactive`
is the sum of the multiplicities of the referenced hits over exactly the members whose
snapshot flag has the active bit and `nstereo` the same sum over exactly the members whose
snapshot flag has both the active and the stereo bit, each held in an `unsigned` (so
reduced modulo `2 ^ 32`, and equal to the sum whenever the active sum is below
`2 ^ 32`). -/
theorem C17_countHits_sums (env : Env) (chcol : List ComboHit) (cluster : BkgCluster)
    (hv : IndicesValid chcol cluster) :
    ∃ na ns, countHits env chcol cluster = some (na, ns) ∧
      na = activeSum env chcol cluster % 2 ^ 32 ∧
      ns = stereoSum env chcol cluster % 2 ^ 32 ∧
      (activeSum env chcol cluster < 2 ^ 32 →
        na = activeSum env chcol cluster ∧ ns = stereoSum env chcol cluster) := by
  obtain ⟨ra, rs, h1, h2, h3, h4, h5⟩ := countHitsLoop_sums env chcol cluster.hits 0 0 hv
  have ha : ra < 2 ^ 32 := h4 (by norm_num)
  have hs : rs < 2 ^ 32 := h5 (by norm_num)
  rw [Nat.mod_eq_of_lt ha, Nat.zero_add] at h2
  rw [Nat.mod_eq_of_lt hs, Nat.zero_add] at h3
  have hle := stereoSum_le_activeSum env chcol cluster
  refine ⟨ra, rs, h1, h2, h3, ?_⟩
  intro hlt
  have e1 : activeSum env chcol cluster % 2 ^ 32 = activeSum env chcol cluster :=
    Nat.mod_eq_of_lt hlt
  have e2 : stereoSum env chcol cluster % 2 ^ 32 = stereoSum env chcol cluster :=
    Nat.mod_eq_of_lt (by omega)
  exact ⟨by rw [h2]; exact e1, by rw [h3]; exact e2⟩

/-- Claim C17 on the sample cluster: 15 active and 10 stereo straw hits. -/
theorem C17_countHits_sums_witness :
    IndicesValid exHits exCluster ∧
    activeSum exEnv exHits exCluster = 15 ∧ stereoSum exEnv exHits exCluster = 10 ∧
    ∃ na ns, countHits exEnv exHits exCluster = some (na, ns) ∧
      na = activeSum exEnv exHits exCluster % 2 ^ 32 ∧
      ns = stereoSum exEnv exHits exCluster % 2 ^ 32 ∧
      (activeSum exEnv exHits exCluster < 2 ^ 32 →
        na = activeSum exEnv exHits exCluster ∧ ns = stereoSum exEnv exHits exCluster) :=
  ⟨by decide, by decide, by decide, C17_countHits_sums exEnv exHits exCluster (by decide)⟩

theorem activeHits_eq_activeSum (env : Env) (chcol : List ComboHit) (cluster : BkgCluster) :
    activeHits env chcol cluster = activeSum env chcol cluster := by
  unfold activeHits activeSum
  induction cluster.hits with
  | nil => simp
  | cons chit rest ih =>
    by_cases ha : chit.flag.hasAllProperties env.active = true
    · rw [List.filter_cons_of_pos (by simpa using ha)]
      simp only [List.map_cons, List.sum_cons, ih]
      simp only [activeMult, multiplicity, if_pos ha]
    · rw [List.filter_cons_of_neg (by simpa using ha)]
      simp only [List.map_cons, List.sum_cons, ih]
      simp only [activeMult, if_neg ha, Nat.zero_add]

theorem sum_range_ite (a m : Nat) :
    ∀ n : Nat, ((List.range n).map (fun p => if a = p then m else 0)).sum
      = if a < n then m else 0 := by
  intro n
  induction n with
  | zero => simp
  | succ n ih =>
    rw [List.range_succ, List.map_append, List.sum_append, ih]
    simp only [List.map_cons, List.map_nil, List.sum_cons, List.sum_nil, Nat.add_zero]
    by_cases h1 : a < n
    · have h2 : ¬ a = n := by omega
      have h3 : a < n + 1 := by omega
      simp [h1, h2, h3]
    · by_cases h2 : a = n
      · have h3 : a < n + 1 := by omega
        simp [h1, h2]
      · have h3 : ¬ a < n + 1 := by omega
        simp [h1, h2, h3]

theorem sum_planeMult (env : Env) (chcol : List ComboHit)
    (hpv : ∀ ch ∈ chcol, ch.plane < env.nplanes) (chit : BkgClusterHit) :
    ((List.range env.nplanes).map (fun p => planeMult env chcol p chit)).sum
      = activeMult env chcol chit := by
  unfold planeMult activeMult
  by_cases ha : chit.flag.hasAllProperties env.active = true
  · cases hg : chcol[chit.index]? with
    | none => simp [ha]
    | some ch =>
      simp only [if_pos ha]
      rw [sum_range_ite ch.plane ch.nStrawHits env.nplanes]
      simp [hpv ch (List.getElem?_mem hg)]
  · simp [ha]

theorem sum_planeHits_list (env : Env) (chcol : List ComboHit)
    (hpv : ∀ ch ∈ chcol, ch.plane < env.nplanes) :
    ∀ l : List BkgClusterHit,
      ((List.range env.nplanes).map (fun p => (l.map (planeMult env chcol p)).sum)).sum
        = (l.map (activeMult env chcol)).sum := by
  intro l
  induction l with
  | nil => simp
  | cons chit rest ih =>
    simp only [List.map_cons, List.sum_cons]
    rw [List.sum_map_add, ih, sum_planeMult env chcol hpv chit]

/-- The plane counters add up to the number of active straw hits. -/
theorem sum_planeHits (env : Env) (chcol : List ComboHit) (cluster : BkgCluster)
    (hp : PlanesValid env chcol) :
    ((List.range env.nplanes).map (planeHits env chcol cluster)).sum
      = activeHits env chcol cluster :=
  sum_planeHits_list env chcol hp.2 cluster.hits

theorem sum_range_split (f : Nat → Nat) (n ipmin ipmax : Nat)
    (h1 : ipmin ≤ ipmax) (h2 : ipmax < n)
    (hlo : ∀ j, j < ipmin → f j = 0) (hhi : ∀ j, ipmax < j → j < n → f j = 0) :
    ((List.range' ipmin (ipmax + 1 - ipmin)).map f).sum = ((List.range n).map f).sum := by
  have e1 : List.range n
      = List.range' 0 ipmin ++ (List.range' ipmin (ipmax + 1 - ipmin)
          ++ List.range' (ipmax + 1) (n - (ipmax + 1))) := by
    rw [List.range_eq_range']
    have a1 : List.range' ipmin (ipmax + 1 - ipmin) ++ List.range' (ipmax + 1) (n - (ipmax + 1))
        = List.range' ipmin (n - ipmin) := by
      have := List.range'_append_1 ipmin (ipmax + 1 - ipmin) (n - (ipmax + 1))
      rw [show ipmin + (ipmax + 1 - ipmin) = ipmax + 1 by omega,
        show n - (ipmax + 1) + (ipmax + 1 - ipmin) = n - ipmin by omega] at this
      exact this
    rw [a1]
    have := List.range'_append_1 0 ipmin (n - ipmin)
    rw [show 0 + ipmin = ipmin by omega, show n - ipmin + ipmin = n by omega] at this
    exact this.symm
  have z : ∀ l : List Nat, (∀ a ∈ l, f a = 0) → (l.map f).sum = 0 := by
    intro l
    induction l with
    | nil => intro _; rfl
    | cons a t ih =>
      intro hz
      simp only [List.map_cons, List.sum_cons]
      rw [hz a (List.mem_cons_self _ _), ih (fun b hb => hz b (List.mem_cons_of_mem _ hb))]
  have z1 : ((List.range' 0 ipmin).map f).sum = 0 :=
    z _ (fun a ha => hlo a (by rw [List.mem_range'_1] at ha; omega))
  have z2 : ((List.range' (ipmax + 1) (n - (ipmax + 1))).map f).sum = 0 :=
    z _ (fun a ha => by
      rw [List.mem_range'_1] at ha
      exact hhi a (by omega) (by omega))
  rw [e1, List.map_append, List.map_append, List.sum_append, List.sum_append, z1, z2]
  omega

/-- Claim C18.  For a valid cluster with at least one active member of positive
multiplicity `countPlanes` returns, with `ipmin` the lowest and `ipmax` the highest plane
on which the multiplicities of the active hits sum to more than zero; it sets `npexp` to
`ipmax - ipmin + 1`, `np` to the number of such planes, `npfrac` to `np / npexp` and
`nphits` to the number of active straw hits (held in an `unsigned`) divided by `np`; no
other field is written. -/
theorem C18_countPlanes_fields (env : Env) (chcol : List ComboHit) (cluster : BkgCluster)
    (cqual : BkgQual) (hv : IndicesValid chcol cluster) (hp : PlanesValid env chcol)
    (hpos : ∃ chit ∈ cluster.hits, chit.flag.hasAllProperties env.active = true ∧
      0 < multiplicity chcol chit) :
    ∃ ipmin ipmax q c, countPlanes env chcol cluster cqual = some q ∧
      q = cqual.withPlanes c ∧
      ipmin ≤ ipmax ∧ ipmax < env.nplanes ∧
      0 < planeHits env chcol cluster ipmin ∧ 0 < planeHits env chcol cluster ipmax ∧
      (∀ j, j < ipmin → planeHits env chcol cluster j = 0) ∧
      (∀ j, ipmax < j → j < env.nplanes → planeHits env chcol cluster j = 0) ∧
      q.npexp = ((ipmax - ipmin + 1 : ℕ) : ℚ) ∧
      q.np = (occupiedPlanes env chcol cluster : ℚ) ∧
      q.npfrac = (occupiedPlanes env chcol cluster : ℚ) / ((ipmax - ipmin + 1 : ℕ) : ℚ) ∧
      q.nphits = ((activeSum env chcol cluster % 2 ^ 32 : ℕ) : ℚ)
        / (occupiedPlanes env chcol cluster : ℚ) ∧
      (activeSum env chcol cluster < 2 ^ 32 →
        q.nphits = (activeSum env chcol cluster : ℚ) / (occupiedPlanes env chcol cluster : ℚ)) := by
  have hsum : 0 < activeHits env chcol cluster := by
    rw [activeHits_eq_activeSum]
    obtain ⟨chit, hmem, ha, hm⟩ := hpos
    unfold activeSum
    have hin : chit ∈ cluster.hits.filter (fun chit => chit.flag.hasAllProperties env.active) :=
      List.mem_filter.mpr ⟨hmem, by simpa using ha⟩
    have hle := List.single_le_sum (fun x _ => Nat.zero_le x) _
      (List.mem_map_of_mem (multiplicity chcol) hin)
    omega
  have ha : HasActiveHit env chcol cluster :=
    exists_plane_of_activeMult env chcol hp.2 cluster.hits hsum
  obtain ⟨ipmin, ipmax, c, hcore, h1, h2, h3, h4, h5, h6, h7, h8, h9⟩ :=
    countPlanesCore_spec env chcol cluster hv hp ha
  have hnph : c.nphits = activeSum env chcol cluster % 2 ^ 32 := by
    rw [h9, sum_range_split (planeHits env chcol cluster) env.nplanes ipmin ipmax h1 h2 h5 h6,
      sum_planeHits env chcol cluster hp, activeHits_eq_activeSum]
  have hnpexp : c.npexp = ipmax - ipmin + 1 := by omega
  have hq : countPlanes env chcol cluster cqual = some (cqual.withPlanes c) := by
    simp only [countPlanes, hcore]
  have hnphits : (cqual.withPlanes c).nphits = ((activeSum env chcol cluster % 2 ^ 32 : ℕ) : ℚ)
      / (occupiedPlanes env chcol cluster : ℚ) := by
    simp only [BkgQual.withPlanes, hnph, h8]
  refine ⟨ipmin, ipmax, cqual.withPlanes c, c, hq, rfl, h1, h2, h3, h4, h5, h6, ?_, ?_, ?_,
    hnphits, ?_⟩
  · simp only [BkgQual.withPlanes, hnpexp]
  · simp only [BkgQual.withPlanes, h8]
  · simp only [BkgQual.withPlanes, h8, hnpexp]
  · intro hlt
    rw [hnphits, Nat.mod_eq_of_lt hlt]

/-- Claim C18 on the sample cluster: planes 0 to 3, all four occupied. -/
theorem C18_countPlanes_fields_witness :
    IndicesValid exHits exCluster ∧ PlanesValid exEnv exHits ∧
    (∃ chit ∈ exCluster.hits, chit.flag.hasAllProperties exEnv.active = true ∧
      0 < multiplicity exHits chit) ∧
    ∃ ipmin ipmax q c, countPlanes exEnv exHits exCluster exFresh = some q ∧
      q = exFresh.withPlanes c ∧
      ipmin ≤ ipmax ∧ ipmax < exEnv.nplanes ∧
      0 < planeHits exEnv exHits exCluster ipmin ∧ 0 < planeHits exEnv exHits exCluster ipmax ∧
      (∀ j, j < ipmin → planeHits exEnv exHits exCluster j = 0) ∧
      (∀ j, ipmax < j → j < exEnv.nplanes → planeHits exEnv exHits exCluster j = 0) ∧
      q.npexp = ((ipmax - ipmin + 1 : ℕ) : ℚ) ∧
      q.np = (occupiedPlanes exEnv exHits exCluster : ℚ) ∧
      q.npfrac = (occupiedPlanes exEnv exHits exCluster : ℚ) / ((ipmax - ipmin + 1 : ℕ) : ℚ) ∧
      q.nphits = ((activeSum exEnv exHits exCluster % 2 ^ 32 : ℕ) : ℚ)
        / (occupiedPlanes exEnv exHits exCluster : ℚ) ∧
      (activeSum exEnv exHits exCluster < 2 ^ 32 →
        q.nphits = (activeSum exEnv exHits exCluster : ℚ)
          / (occupiedPlanes exEnv exHits exCluster : ℚ)) :=
  ⟨by decide, by decide, by decide,
    C18_countPlanes_fields exEnv exHits exCluster exFresh (by decide) (by decide) (by decide)⟩

/-! ## Claim on the z extent -/

theorem foldr_max_spec :
    ∀ g : List ℚ, 0 ≤ g.foldr max 0 ∧ (∀ d ∈ g, d ≤ g.foldr max 0) ∧
      (g.foldr max 0 = 0 ∨ g.foldr max 0 ∈ g) := by
  intro g
  induction g with
  | nil => simp
  | cons a t ih =>
    obtain ⟨h0, h1, h2⟩ := ih
    simp only [List.foldr_cons]
    refine ⟨le_trans h0 (le_max_right _ _), ?_, ?_⟩
    · intro d hd
      rcases List.mem_cons.mp hd with rfl | hd
      · exact le_max_left _ _
      · exact le_trans (h1 d hd) (le_max_right _ _)
    · rcases le_total a (t.foldr max 0) with hle | hle
      · rw [max_eq_right hle]
        rcases h2 with h2 | h2
        · exact Or.inl h2
        · exact Or.inr (List.mem_cons_of_mem _ h2)
      · rw [max_eq_left hle]
        exact Or.inr (List.mem_cons_self _ _)

theorem zgapLoop_eq_maxGap :
    ∀ (l : List ℚ) (z : ℚ), 0 ≤ z → zgapLoop l z = max z (maxGap l) := by
  intro l
  induction l with
  | nil =>
    intro z hz
    simp [zgapLoop, maxGap, consecutiveGaps, hz]
  | cons a t ih =>
    intro z hz
    cases t with
    | nil => simp [zgapLoop, maxGap, consecutiveGaps, hz]
    | cons b rest =>
      have hstep : (if b - a > z then b - a else z) = max z (b - a) := by
        by_cases hgt : b - a > z
        · rw [if_pos hgt, max_eq_right (le_of_lt hgt)]
        · rw [if_neg hgt, max_eq_left (not_lt.mp hgt)]
      simp only [zgapLoop]
      rw [hstep, ih (max z (b - a)) (le_trans hz (le_max_left _ _))]
      simp only [maxGap, consecutiveGaps, List.foldr_cons]
      rw [max_assoc]

theorem consecutiveGaps_const (a : ℚ) :
    ∀ l : List ℚ, (∀ z ∈ l, z = a) → ∀ d ∈ consecutiveGaps l, d = 0 := by
  intro l
  induction l with
  | nil => intro _ d hd; simp [consecutiveGaps] at hd
  | cons x t ih =>
    intro hall d hd
    cases t with
    | nil => simp [consecutiveGaps] at hd
    | cons y rest =>
      simp only [consecutiveGaps, List.mem_cons] at hd
      rcases hd with rfl | hd
      · rw [hall x (List.mem_cons_self _ _),
          hall y (List.mem_cons_of_mem _ (List.mem_cons_self _ _))]
        simp
      · exact ih (fun z hz => hall z (List.mem_cons_of_mem _ hz)) d hd

/-- The ends of the sorted list are the least and the greatest element of the list. -/
theorem sorted_ends (zs : List ℚ) (front back : ℚ)
    (hf : (zs.insertionSort (fun a b => a ≤ b)).head? = some front)
    (hb : (zs.insertionSort (fun a b => a ≤ b)).getLast? = some back) :
    front ∈ zs ∧ (∀ z ∈ zs, front ≤ z) ∧ back ∈ zs ∧ (∀ z ∈ zs, z ≤ back) := by
  have hperm := List.perm_insertionSort (fun a b : ℚ => a ≤ b) zs
  have hsorted : List.Sorted (fun a b : ℚ => a ≤ b) (zs.insertionSort (fun a b => a ≤ b)) :=
    List.sorted_insertionSort (fun a b : ℚ => a ≤ b) zs
  obtain ⟨ys, hys⟩ := List.head?_eq_some_iff.mp hf
  obtain ⟨ws, hws⟩ := List.getLast?_eq_some_iff.mp hb
  refine ⟨?_, ?_, ?_, ?_⟩
  · rw [← hperm.mem_iff, hys]
    exact List.mem_cons_self _ _
  · intro z hz
    rw [← hperm.mem_iff, hys] at hz
    rw [hys] at hsorted
    rcases List.mem_cons.mp hz with rfl | hz
    · exact le_refl _
    · exact (List.sorted_cons.mp hsorted).1 z hz
  · rw [← hperm.mem_iff, hws]
    simp
  · intro z hz
    rw [← hperm.mem_iff, hws] at hz
    rw [hws] at hsorted
    rcases List.mem_append.mp hz with hz | hz
    · exact (List.pairwise_append.mp hsorted).2.2 z hz back (by simp)
    · simp only [List.mem_singleton] at hz
      rw [hz]

/-- Claim C19.  For a cluster whose descriptor ends `fillBkgQual` with status FILLED or
SCORED, `zmin` and `zmax` are the least and the greatest of the z coordinates of the
active members, and `zgap` is the largest difference between consecutive elements of the
list of those coordinates sorted in ascending order: no such difference exceeds it, it is
one of them or 0, and it is 0 when there is a single active member or all the coordinates
are equal. -/
theorem C19_z_extent (env : Env) (cfg : Config) (chcol : List ComboHit)
    (mvavars : List ℚ) (cluster : BkgCluster) (cqual : BkgQual) (r : FillResult)
    (h : fillBkgQual env cfg chcol mvavars cluster cqual = some r)
    (hs : r.cqual.status ≠ MVAStatus.unset) :
    r.cqual.zmin ∈ activeZ env chcol cluster.hits ∧
    (∀ z ∈ activeZ env chcol cluster.hits, r.cqual.zmin ≤ z) ∧
    r.cqual.zmax ∈ activeZ env chcol cluster.hits ∧
    (∀ z ∈ activeZ env chcol cluster.hits, z ≤ r.cqual.zmax) ∧
    r.cqual.zgap
      = maxGap ((activeZ env chcol cluster.hits).insertionSort (fun a b => a ≤ b)) ∧
    (∀ d ∈ consecutiveGaps
        ((activeZ env chcol cluster.hits).insertionSort (fun a b => a ≤ b)),
      d ≤ r.cqual.zgap) ∧
    (r.cqual.zgap = 0 ∨ r.cqual.zgap ∈ consecutiveGaps
      ((activeZ env chcol cluster.hits).insertionSort (fun a b => a ≤ b))) ∧
    ((∀ z ∈ activeZ env chcol cluster.hits, z = r.cqual.zmin) → r.cqual.zgap = 0) ∧
    ((activeZ env chcol cluster.hits).length = 1 → r.cqual.zgap = 0) := by
  obtain ⟨na, ns, _, hcases⟩ := fillBkgQual_inv env cfg chcol mvavars cluster cqual r h
  have hsp : ∃ q, fillSpread env cfg chcol mvavars cluster na q = some r := by
    rcases hcases with ⟨_, rfl⟩ | ⟨_, _, c, _, hrest⟩
    · exact absurd rfl hs
    · rcases hrest with ⟨_, rfl⟩ | ⟨_, hsp⟩
      · exact absurd rfl hs
      · exact ⟨_, hsp⟩
  obtain ⟨q, hsp⟩ := hsp
  obtain ⟨acc, front, back, hloop, hf, hb, hfull⟩ :=
    fillSpread_full env cfg chcol mvavars cluster na q r hsp
  have hhz : acc.hz = activeZ env chcol cluster.hits := by
    have := spreadLoop_hz env cfg chcol cluster na cluster.hits _ acc hloop
    simpa using this
  rw [hhz] at hf hb
  have hz3 : r.cqual.zmin = front ∧ r.cqual.zmax = back ∧ r.cqual.zgap
      = zgapLoop ((activeZ env chcol cluster.hits).insertionSort (fun a b => a ≤ b)) 0 := by
    rcases hfull with ⟨_, _, hq⟩ | ⟨_, hq, _⟩
    · rw [hq]; simp [spreadDescriptor, hhz]
    · rw [hq]; simp [spreadDescriptor, hhz]
  obtain ⟨e1, e2, e3⟩ := hz3
  obtain ⟨s1, s2, s3, s4⟩ := sorted_ends _ front back hf hb
  have hgap : r.cqual.zgap
      = maxGap ((activeZ env chcol cluster.hits).insertionSort (fun a b => a ≤ b)) := by
    rw [e3, zgapLoop_eq_maxGap _ 0 (le_refl _)]
    exact max_eq_right (foldr_max_spec _).1
  obtain ⟨g0, g1, g2⟩ := foldr_max_spec (consecutiveGaps
    ((activeZ env chcol cluster.hits).insertionSort (fun a b => a ≤ b)))
  have hconst : (∀ z ∈ activeZ env chcol cluster.hits, z = r.cqual.zmin) →
      r.cqual.zgap = 0 := by
    intro hall
    have hall2 : ∀ z ∈ (activeZ env chcol cluster.hits).insertionSort (fun a b => a ≤ b),
        z = r.cqual.zmin := fun z hz =>
      hall z ((List.perm_insertionSort (fun a b : ℚ => a ≤ b) _).mem_iff.mp hz)
    rcases g2 with g2 | g2
    · rw [hgap]; exact g2
    · rw [hgap]
      exact consecutiveGaps_const _ _ hall2 _ g2
  refine ⟨by rw [e1]; exact s1, by rw [e1]; exact s2, by rw [e2]; exact s3,
    by rw [e2]; exact s4, hgap, ?_, ?_, hconst, ?_⟩
  · rw [hgap]; exact g1
  · rw [hgap]; exact g2
  · intro hlen
    apply hconst
    obtain ⟨a, ha⟩ := List.length_eq_one.mp hlen
    intro z hz
    have hm : r.cqual.zmin ∈ activeZ env chcol cluster.hits := by rw [e1]; exact s1
    rw [ha] at hz hm
    simp only [List.mem_singleton] at hz hm
    rw [hz, hm]

/-- Claim C19 on the sample cluster, whose active members lie at z = 10, 20, 35, 40:
`zmin` is 10, `zmax` is 40 and the largest gap is 15. -/
theorem C19_z_extent_witness :
    activeZ exEnv exHits exCluster.hits = [10, 20, 35, 40] ∧
    maxGap (([10, 20, 35, 40] : List ℚ).insertionSort (fun a b => a ≤ b)) = 15 ∧
    ∃ r, fillBkgQual exEnv exCfg exHits exVars exCluster exFresh = some r ∧
      r.cqual.status ≠ MVAStatus.unset ∧
      r.cqual.zmin ∈ activeZ exEnv exHits exCluster.hits ∧
      (∀ z ∈ activeZ exEnv exHits exCluster.hits, r.cqual.zmin ≤ z) ∧
      r.cqual.zmax ∈ activeZ exEnv exHits exCluster.hits ∧
      (∀ z ∈ activeZ exEnv exHits exCluster.hits, z ≤ r.cqual.zmax) ∧
      r.cqual.zgap
        = maxGap ((activeZ exEnv exHits exCluster.hits).insertionSort (fun a b => a ≤ b)) ∧
      (∀ d ∈ consecutiveGaps
          ((activeZ exEnv exHits exCluster.hits).insertionSort (fun a b => a ≤ b)),
        d ≤ r.cqual.zgap) ∧
      (r.cqual.zgap = 0 ∨ r.cqual.zgap ∈ consecutiveGaps
        ((activeZ exEnv exHits exCluster.hits).insertionSort (fun a b => a ≤ b))) ∧
      ((∀ z ∈ activeZ exEnv exHits exCluster.hits, z = r.cqual.zmin) → r.cqual.zgap = 0) ∧
      ((activeZ exEnv exHits exCluster.hits).length = 1 → r.cqual.zgap = 0) :=
  ⟨by decide,
    by
      have e : ([10, 20, 35, 40] : List ℚ).insertionSort (fun a b => a ≤ b)
          = [10, 20, 35, 40] := by decide
      rw [e]
      norm_num [maxGap, consecutiveGaps],
    match h : fillBkgQual exEnv exCfg exHits exVars exCluster exFresh with
    | some r =>
      have hs : r.cqual.status ≠ MVAStatus.unset := by
        have e : (fillBkgQual exEnv exCfg exHits exVars exCluster exFresh).map
            (fun r => r.cqual.status) = some MVAStatus.calculated := by decide
        rw [h] at e
        simp only [Option.map_some', Option.some.injEq] at e
        rw [e]
        decide
      ⟨r, rfl, hs, C19_z_extent exEnv exCfg exHits exVars exCluster exFresh r h hs⟩
    | none => absurd h (by decide)⟩

/-! ## Claims on TimeClusterFilter -/

theorem filterLoop_spec (cfg : TimeClusterFilter.Config) :
    ∀ (l : List TimeCluster) (index : Nat) (v : TimeClusterFilter.LoopVars),
      ((TimeClusterFilter.filterLoop cfg l index v).retval = true ↔
        v.retval = true ∨ ∃ tc ∈ l, TimeClusterFilter.selected cfg tc = true) ∧
      (TimeClusterFilter.filterLoop cfg l index v).hitClusters
        = v.hitClusters ++ ((List.range l.length).filter
            (fun i => (l[i]?.map (TimeClusterFilter.selected cfg)) == some true)).map
              (fun i => index + i) ∧
      (TimeClusterFilter.filterLoop cfg l index v).npass % 2 ^ 32
        = (v.npass + l.countP (TimeClusterFilter.selected cfg)) % 2 ^ 32 := by
  intro l
  induction l with
  | nil => intro index v; simp [TimeClusterFilter.filterLoop]
  | cons tc rest ih =>
    intro index v
    have hshift : ∀ p : Nat → Bool, (List.range (rest.length + 1)).filter p
        = (if p 0 then [0] else []) ++ ((List.range rest.length).filter
            (fun i => p (i + 1))).map (fun i => i + 1) := by
      intro p
      rw [List.range_succ_eq_map, List.filter_cons]
      by_cases h0 : p 0 = true
      · simp [h0, List.filter_map, Function.comp_def]
      · simp [h0, List.filter_map, Function.comp_def]
    by_cases hs : TimeClusterFilter.selected cfg tc = true
    · simp only [TimeClusterFilter.filterLoop, if_pos hs]
      obtain ⟨e1, e2, e3⟩ := ih (index + 1)
        ⟨true, (v.npass + 1) % 2 ^ 32, v.hitClusters ++ [index]⟩
      refine ⟨?_, ?_, ?_⟩
      · rw [e1]
        simp only [true_or, true_iff]
        exact Or.inr ⟨tc, List.mem_cons_self _ _, hs⟩
      · rw [e2, List.length_cons, hshift]
        simp [hs, List.map_map, Function.comp_def, Nat.add_assoc, Nat.add_comm 1]
      · rw [e3, List.countP_cons]
        simp only [hs, if_true]
        omega
    · simp only [TimeClusterFilter.filterLoop, if_neg hs]
      obtain ⟨e1, e2, e3⟩ := ih (index + 1) v
      have hs2 : TimeClusterFilter.selected cfg tc = false := by simpa using hs
      refine ⟨?_, ?_, ?_⟩
      · rw [e1]
        simp only [List.mem_cons, exists_eq_or_imp, hs2, Bool.false_eq_true, false_or]
      · rw [e2, List.length_cons, hshift]
        simp [hs2, List.map_map, Function.comp_def, Nat.add_assoc, Nat.add_comm 1]
      · rw [e3, List.countP_cons]
        simp only [hs2, Bool.false_eq_true, if_false, Nat.add_zero]

/-- Claim C24.  `filter` returns true if and only if some time cluster of the collection
satisfies the selection (a calorimeter cluster when one is required, at least `minNHits`
hits, `minTime < t0 < maxTime`), and the `TriggerInfo` it writes lists exactly the indices
of the clusters that satisfy the selection, in collection order. -/
theorem C24_filter_selection (cfg : TimeClusterFilter.Config) (c : TimeClusterFilter.Counters)
    (tccol : List TimeCluster) :
    ((TimeClusterFilter.filter cfg c tccol).retval = true ↔
      ∃ tc ∈ tccol, (!cfg.hascc || tc.hasCaloCluster) = true ∧ tc.nhits ≥ cfg.minnhits ∧
        tc.t0 > cfg.mintime ∧ tc.t0 < cfg.maxtime) ∧
    (TimeClusterFilter.filter cfg c tccol).hitClusters
      = (List.range tccol.length).filter
          (fun i => (tccol[i]?.map (TimeClusterFilter.selected cfg)) == some true) := by
  obtain ⟨e1, e2, _⟩ := filterLoop_spec cfg tccol 0 ⟨false, c.npass, []⟩
  refine ⟨?_, ?_⟩
  · simp only [TimeClusterFilter.filter]
    rw [e1]
    simp [TimeClusterFilter.selected, and_assoc]
  · simp only [TimeClusterFilter.filter]
    rw [e2]
    simp

/-- Claim C25 fails on the code: `_npass` is incremented inside the loop over the time
clusters, once per selected cluster, so a call of `filter` adds to `_npass` the number of
selected clusters of the event (modulo `2 ^ 32`) and one to `_nevt`.  On a run of one event
with two selected clusters `filter` returns true once, and the counters end at `_nevt = 1`,
`_npass = 2`. -/
theorem C25_npass_counts_clusters :
    (∀ (cfg : TimeClusterFilter.Config) (c : TimeClusterFilter.Counters)
        (tccol : List TimeCluster),
      (TimeClusterFilter.filter cfg c tccol).counters.nevt = (c.nevt + 1) % 2 ^ 32 ∧
      (TimeClusterFilter.filter cfg c tccol).counters.npass % 2 ^ 32
        = (c.npass + tccol.countP (TimeClusterFilter.selected cfg)) % 2 ^ 32) ∧
    TimeClusterFilter.run exTcfCfg [exTimeClusters] ⟨0, 0⟩ = (⟨1, 2⟩, [true]) ∧
    (exTimeClusters.filter (TimeClusterFilter.selected exTcfCfg)).length = 2 := by
  refine ⟨?_, by decide, by decide⟩
  intro cfg c tccol
  obtain ⟨_, _, e3⟩ := filterLoop_spec cfg tccol 0 ⟨false, c.npass, []⟩
  exact ⟨rfl, e3⟩

/-! ## Claim on DPIndex -/

/-- Claim C26.  When the `<` of `ProductID` is a strict total order and its `==` decides
equality, `operator<` of `DPIndex` is the lexicographic order on (id, index): it is
irreflexive and transitive, for every pair exactly one of `a < b`, `a == b`, `b < a`
holds, and `operator!=` is the negation of `operator==`. -/
theorem C26_dpindex_order {PID : Type} (ops : ProductIDOps PID) (hops : ops.StrictTotal) :
    (∀ a b : DPIndex PID, DPIndex.opLt ops a b = true ↔
      (ops.lt a.id b.id = true ∨ (a.id = b.id ∧ a.index < b.index))) ∧
    (∀ a b : DPIndex PID, DPIndex.opEq ops a b = true ↔ (a.id = b.id ∧ a.index = b.index)) ∧
    (∀ a : DPIndex PID, DPIndex.opLt ops a a = false) ∧
    (∀ a b c : DPIndex PID, DPIndex.opLt ops a b = true → DPIndex.opLt ops b c = true →
      DPIndex.opLt ops a c = true) ∧
    (∀ a b : DPIndex PID,
      (DPIndex.opLt ops a b = true ∧ DPIndex.opEq ops a b = false ∧
        DPIndex.opLt ops b a = false) ∨
      (DPIndex.opLt ops a b = false ∧ DPIndex.opEq ops a b = true ∧
        DPIndex.opLt ops b a = false) ∨
      (DPIndex.opLt ops a b = false ∧ DPIndex.opEq ops a b = false ∧
        DPIndex.opLt ops b a = true)) ∧
    (∀ a b : DPIndex PID, DPIndex.opNe ops a b = !(DPIndex.opEq ops a b)) := by
  obtain ⟨heq, hirr, htrans, htot⟩ := hops
  have hasym : ∀ x y : PID, ops.lt x y = true → ops.lt y x = false := by
    intro x y hxy
    by_contra hyx
    have hyx2 : ops.lt y x = true := by simpa using hyx
    have := htrans x y x hxy hyx2
    rw [hirr x] at this
    cases this
  have hne : ∀ x y : PID, ops.lt x y = true → x ≠ y := by
    intro x y hxy he
    rw [he, hirr y] at hxy
    cases hxy
  have hlt : ∀ a b : DPIndex PID, DPIndex.opLt ops a b = true ↔
      (ops.lt a.id b.id = true ∨ (a.id = b.id ∧ a.index < b.index)) := by
    intro a b
    simp [DPIndex.opLt, heq]
  have heq2 : ∀ a b : DPIndex PID, DPIndex.opEq ops a b = true ↔
      (a.id = b.id ∧ a.index = b.index) := by
    intro a b
    simp [DPIndex.opEq, heq]
  have hirr2 : ∀ a : DPIndex PID, DPIndex.opLt ops a a = false := by
    intro a
    rw [Bool.eq_false_iff]
    intro h
    rw [hlt] at h
    rcases h with h | ⟨_, h⟩
    · rw [hirr] at h; cases h
    · omega
  have hasym2 : ∀ a b : DPIndex PID, DPIndex.opLt ops a b = true →
      DPIndex.opLt ops b a = false ∧ DPIndex.opEq ops a b = false := by
    intro a b hab
    rw [hlt] at hab
    refine ⟨?_, ?_⟩
    · rw [Bool.eq_false_iff]
      intro hba
      rw [hlt] at hba
      rcases hab with h1 | ⟨h1, h2⟩
      · rcases hba with h3 | ⟨h3, _⟩
        · rw [hasym _ _ h1] at h3; cases h3
        · exact hne _ _ h1 h3.symm
      · rcases hba with h3 | ⟨_, h4⟩
        · exact hne _ _ h3 h1.symm
        · omega
    · rw [Bool.eq_false_iff]
      intro he
      rw [heq2] at he
      rcases hab with h1 | ⟨_, h2⟩
      · exact hne _ _ h1 he.1
      · omega
  refine ⟨hlt, heq2, hirr2, ?_, ?_, ?_⟩
  · intro a b c hab hbc
    rw [hlt] at hab hbc ⊢
    rcases hab with h1 | ⟨h1, h2⟩
    · rcases hbc with h3 | ⟨h3, _⟩
      · exact Or.inl (htrans _ _ _ h1 h3)
      · rw [← h3]; exact Or.inl h1
    · rcases hbc with h3 | ⟨h3, h4⟩
      · rw [h1]; exact Or.inl h3
      · exact Or.inr ⟨h1.trans h3, by omega⟩
  · intro a b
    by_cases hid : a.id = b.id
    · rcases Nat.lt_trichotomy a.index b.index with h | h | h
      · have hab : DPIndex.opLt ops a b = true := (hlt a b).mpr (Or.inr ⟨hid, h⟩)
        obtain ⟨h1, h2⟩ := hasym2 a b hab
        exact Or.inl ⟨hab, h2, h1⟩
      · have he : DPIndex.opEq ops a b = true := (heq2 a b).mpr ⟨hid, h⟩
        have n1 : DPIndex.opLt ops a b = false := by
          rw [Bool.eq_false_iff]
          intro hab
          rw [(hasym2 a b hab).2] at he
          cases he
        have n2 : DPIndex.opLt ops b a = false := by
          rw [Bool.eq_false_iff]
          intro hba
          have := (hasym2 b a hba).2
          rw [Bool.eq_false_iff] at this
          exact this ((heq2 b a).mpr ⟨hid.symm, h.symm⟩)
        exact Or.inr (Or.inl ⟨n1, he, n2⟩)
      · have hba : DPIndex.opLt ops b a = true := (hlt b a).mpr (Or.inr ⟨hid.symm, h⟩)
        obtain ⟨h1, h2⟩ := hasym2 b a hba
        have h3 : DPIndex.opEq ops a b = false := by
          rw [Bool.eq_false_iff]
          intro he
          rw [heq2] at he
          omega
        exact Or.inr (Or.inr ⟨h1, h3, hba⟩)
    · rcases htot a.id b.id hid with h | h
      · have hab : DPIndex.opLt ops a b = true := (hlt a b).mpr (Or.inl h)
        obtain ⟨h1, h2⟩ := hasym2 a b hab
        exact Or.inl ⟨hab, h2, h1⟩
      · have hba : DPIndex.opLt ops b a = true := (hlt b a).mpr (Or.inl h)
        obtain ⟨h1, h2⟩ := hasym2 b a hba
        have h3 : DPIndex.opEq ops a b = false := by
          rw [Bool.eq_false_iff]
          intro he
          rw [heq2] at he
          exact hid he.1
        exact Or.inr (Or.inr ⟨h1, h3, hba⟩)
  · intro a b
    rfl

theorem natOps_strictTotal : natOps.StrictTotal := by
  refine ⟨?_, ?_, ?_, ?_⟩
  · intro a b; simp [natOps]
  · intro a; simp [natOps]
  · intro a b c h1 h2
    simp only [natOps, decide_eq_true_eq] at *
    omega
  · intro a b h
    simp only [natOps, decide_eq_true_eq]
    omega

/-- Claim C26 for product ids that are natural numbers. -/
theorem C26_dpindex_order_witness :
    natOps.StrictTotal ∧
    ((∀ a b : DPIndex Nat, DPIndex.opLt natOps a b = true ↔
      (natOps.lt a.id b.id = true ∨ (a.id = b.id ∧ a.index < b.index))) ∧
    (∀ a b : DPIndex Nat, DPIndex.opEq natOps a b = true ↔
      (a.id = b.id ∧ a.index = b.index)) ∧
    (∀ a : DPIndex Nat, DPIndex.opLt natOps a a = false) ∧
    (∀ a b c : DPIndex Nat, DPIndex.opLt natOps a b = true → DPIndex.opLt natOps b c = true →
      DPIndex.opLt natOps a c = true) ∧
    (∀ a b : DPIndex Nat,
      (DPIndex.opLt natOps a b = true ∧ DPIndex.opEq natOps a b = false ∧
        DPIndex.opLt natOps b a = false) ∨
      (DPIndex.opLt natOps a b = false ∧ DPIndex.opEq natOps a b = true ∧
        DPIndex.opLt natOps b a = false) ∨
      (DPIndex.opLt natOps a b = false ∧ DPIndex.opEq natOps a b = false ∧
        DPIndex.opLt natOps b a = true)) ∧
    (∀ a b : DPIndex Nat, DPIndex.opNe natOps a b = !(DPIndex.opEq natOps a b))) :=
  ⟨natOps_strictTotal, C26_dpindex_order natOps natOps_strictTotal⟩

/-! ## Claims on the cluster flags and on unreferenced hits -/

/-- Claim C23, amended.  When SaveBkgClusters is set (and the enumerators background,
isolated and bkgclust are distinct), the cluster's own flag carries the background bit
whenever the flag computed for its member hits has the background bit, and the isolated
bit whenever that flag has the isolated bit; without SaveBkgClusters the cluster's own
flag is left as the clusterer made it. -/
theorem C23_cluster_flag (env : Env) (cfg : Config) (cluster : BkgCluster) (cqual : BkgQual)
    (hb1 : env.sh.bkg ≠ env.sh.bkgclust) (hb2 : env.sh.bkg ≠ env.sh.isolated)
    (hb3 : env.sh.isolated ≠ env.sh.bkgclust) :
    (cfg.savebkg = true →
      ((classify env cfg cluster cqual).1.hasAllProperties (StrawHitFlag.bit env.sh.bkg) = true →
        (classify env cfg cluster cqual).2.flag.testBit env.bc.bkg = true) ∧
      ((classify env cfg cluster cqual).1.hasAllProperties
          (StrawHitFlag.bit env.sh.isolated) = true →
        (classify env cfg cluster cqual).2.flag.testBit env.bc.iso = true)) ∧
    (cfg.savebkg = false → (classify env cfg cluster cqual).2 = cluster) := by
  refine ⟨?_, ?_⟩
  · intro hsave
    refine ⟨?_, ?_⟩
    · intro hbkg
      rw [classify_bkg env cfg cluster cqual hb1 hb2] at hbkg
      unfold classify
      simp only [hsave, and_true, if_pos hbkg]
      simp [Nat.testBit_or, Nat.testBit_two_pow]
    · intro hiso
      have hsz : cluster.hits.length ≤ cfg.maxisolated := by
        by_contra hn
        rw [hasAllProperties_bit] at hiso
        unfold classify at hiso
        simp only [if_neg hn] at hiso
        have e1 : ¬ env.sh.bkgclust = env.sh.isolated := fun e => hb3 e.symm
        by_cases hc : cqual.mvaout > cfg.bkgMVAcut
        · simp [if_pos hc, merge_testBit, bit_testBit, e1, hb2] at hiso
        · simp [if_neg hc, bit_testBit, e1] at hiso
      unfold classify
      simp only [hsave, and_true, if_pos hsz]
      by_cases hc : cqual.mvaout > cfg.bkgMVAcut
      · simp [if_pos hc, Nat.testBit_or, Nat.testBit_two_pow]
      · simp [if_neg hc, Nat.testBit_or, Nat.testBit_two_pow]
  · intro hsave
    unfold classify
    simp [hsave]

/-- Claim C23, amended, on the sample environment. -/
theorem C23_cluster_flag_witness :
    exEnv.sh.bkg ≠ exEnv.sh.bkgclust ∧ exEnv.sh.bkg ≠ exEnv.sh.isolated ∧
    exEnv.sh.isolated ≠ exEnv.sh.bkgclust ∧
    ((exCfg.savebkg = true →
      ((classify exEnv exCfg exLone exFresh).1.hasAllProperties
          (StrawHitFlag.bit exEnv.sh.bkg) = true →
        (classify exEnv exCfg exLone exFresh).2.flag.testBit exEnv.bc.bkg = true) ∧
      ((classify exEnv exCfg exLone exFresh).1.hasAllProperties
          (StrawHitFlag.bit exEnv.sh.isolated) = true →
        (classify exEnv exCfg exLone exFresh).2.flag.testBit exEnv.bc.iso = true)) ∧
    (exCfg.savebkg = false → (classify exEnv exCfg exLone exFresh).2 = exLone)) :=
  ⟨by decide, by decide, by decide,
    C23_cluster_flag exEnv exCfg exLone exFresh (by decide) (by decide) (by decide)⟩

/-- Claim C23 as stated fails without SaveBkgClusters: the sample cluster of one hit is
flagged isolated (`MaxIsolated = 1`), its member hit gets the isolated bit, and the
cluster's own flag stays 0. -/
theorem C23_counterexample :
    (classify exEnv { exCfg with savebkg := false } exLone exFresh).1.hasAllProperties
      (StrawHitFlag.bit exEnv.sh.isolated) = true ∧
    (classify exEnv { exCfg with savebkg := false } exLone exFresh).2.flag = 0 ∧
    (0 : Nat).testBit exEnv.bc.iso = false := by
  decide

theorem clusterLoop_referenced (env : Env) (cfg : Config) (chcol : List ComboHit) (i : Nat) :
    ∀ (l : List BkgCluster) (st st2 : LoopState), clusterLoop env cfg chcol l st = some st2 →
      (∃ c ∈ l, ∃ chit ∈ c.hits, chit.index = i) →
      ∃ f, st2.chfcol[i]? = some f ∧
        f.hasAllProperties (StrawHitFlag.bit env.sh.bkgclust) = true := by
  intro l
  induction l with
  | nil => intro st st2 _ hex; simp at hex
  | cons c rest ih =>
    intro st st2 h hex
    cases hs : clusterStep env cfg chcol st c with
    | none => simp [clusterLoop, hs] at h
    | some st1 =>
      simp only [clusterLoop, hs] at h
      by_cases hrest : ∃ c2 ∈ rest, ∃ chit ∈ c2.hits, chit.index = i
      · exact ih st1 st2 h hrest
      · have hno : ∀ c2 ∈ rest, ∀ chit ∈ c2.hits, chit.index ≠ i :=
          fun c2 hc2 chit hchit he => hrest ⟨c2, hc2, chit, hchit, he⟩
        have hin : ∃ chit ∈ c.hits, chit.index = i := by
          obtain ⟨c2, hc2, chit, hchit, he⟩ := hex
          rcases List.mem_cons.mp hc2 with rfl | hc2
          · exact ⟨chit, hchit, he⟩
          · exact absurd he (hno c2 hc2 chit hchit)
        obtain ⟨chit, hchit, he⟩ := hin
        obtain ⟨r, _, _, e2, _⟩ := clusterStep_spec env cfg chcol st st1 c hs
        obtain ⟨_, f2⟩ := clusterLoop_untouched env cfg chcol rest st1 st2 h
        refine ⟨_, ?_, classify_bkgclust env cfg c r.cqual⟩
        rw [f2 i hno, ← he, e2 chit hchit]

theorem keptHits_mem_of_empty (bkgmsk : StrawHitFlag) :
    ∀ (hits : List ComboHit) (flags : List StrawHitFlag) (i : Nat) (ch : ComboHit),
      hits[i]? = some ch → flags[i]? = some StrawHitFlag.empty →
      ch ∈ keptHits bkgmsk hits flags := by
  intro hits flags i ch hh hf
  unfold keptHits
  rw [List.mem_map]
  refine ⟨(ch, StrawHitFlag.empty), ?_, ?_⟩
  · rw [List.mem_filter]
    refine ⟨?_, ?_⟩
    · rw [List.mem_iff_getElem?]
      exact ⟨i, by rw [List.getElem?_zip_eq_some]; exact ⟨hh, hf⟩⟩
    · simp [StrawHitFlag.hasAnyProperty, StrawHitFlag.empty]
  · simp [StrawHitFlag.merge, StrawHitFlag.empty]

/-- Claim C27.  In the ComboHits flag output of `produce`, every hit some cluster refers
to has the bkgclust bit; every hit no cluster refers to has exactly the flag it came in
with, and is in the filtered collection, unchanged, whenever that collection is
written. -/
theorem C27_referenced_and_unreferenced (env : Env) (cfg : Config)
    (chcol : ComboHitCollection) (shcolSize : Nat) (shchcol : List ComboHit)
    (mvavars : List ℚ) (r : ProduceResult)
    (h : produce env cfg chcol shcolSize shchcol mvavars = some r) :
    (∀ f, r.products.chfcol = some f → ∀ (i : Nat),
      (∃ c ∈ env.findClusters chcol, ∃ chit ∈ c.hits, chit.index = i) →
      ∃ g, f[i]? = some g ∧
        g.hasAllProperties (StrawHitFlag.bit env.sh.bkgclust) = true) ∧
    (∀ f, r.products.chfcol = some f → ∀ (i : Nat) (ch : ComboHit),
      chcol.hits[i]? = some ch →
      (∀ c ∈ env.findClusters chcol, ∀ chit ∈ c.hits, chit.index ≠ i) →
      f[i]? = some ch.flag) ∧
    (∀ out, r.products.chcol = some out → ∀ (i : Nat) (ch : ComboHit),
      chcol.hits[i]? = some ch →
      (∀ c ∈ env.findClusters chcol, ∀ chit ∈ c.hits, chit.index ≠ i) →
      ch ∈ out.hits) := by
  obtain ⟨st, hloop, _, hfilt, hrest⟩ := produce_inv env cfg chcol shcolSize shchcol mvavars r h
  obtain ⟨hlen0, hun⟩ := clusterLoop_untouched env cfg chcol.hits _ _ _ hloop
  have hlen : st.chfcol.length = chcol.hits.length := by simpa using hlen0
  obtain ⟨e1, e2⟩ := mergeOriginal_spec st.chfcol chcol.hits hlen
  have hfe : ∀ f, r.products.chfcol = some f → f = mergeOriginal st.chfcol chcol.hits := by
    intro f hf
    rcases hrest with ⟨_, _, _, _, hn, _⟩ | ⟨_, _, _, _, hn, _⟩ | ⟨_, _, hc, _⟩
    · rw [hn] at hf; cases hf
    · rw [hn] at hf; cases hf
    · rw [hc] at hf
      by_cases hfc : cfg.flagch = true
      · rw [if_pos hfc] at hf; cases hf; rfl
      · rw [if_neg hfc] at hf; cases hf
  have hempty : ∀ (i : Nat) (ch : ComboHit), chcol.hits[i]? = some ch →
      (∀ c ∈ env.findClusters chcol, ∀ chit ∈ c.hits, chit.index ≠ i) →
      st.chfcol[i]? = some StrawHitFlag.empty := by
    intro i ch hi hno
    rw [hun i hno]
    have : i < chcol.hits.length := (List.getElem?_eq_some_iff.mp hi).1
    simp [this]
  refine ⟨?_, ?_, ?_⟩
  · intro f hf i hex
    rw [hfe f hf]
    obtain ⟨g, hg, hgb⟩ := clusterLoop_referenced env cfg chcol.hits i _ _ st hloop hex
    have hi : i < chcol.hits.length := by
      rw [← hlen]; exact (List.getElem?_eq_some_iff.mp hg).1
    obtain ⟨fl, hfl, hm⟩ := e2 i _ (List.getElem?_eq_getElem hi)
    rw [hg] at hfl
    cases hfl
    exact ⟨_, hm, hasAllProperties_trans _ _ _ (merge_hasAll_left _ _) hgb⟩
  · intro f hf i ch hi hno
    rw [hfe f hf]
    obtain ⟨fl, hfl, hm⟩ := e2 i ch hi
    rw [hempty i ch hi hno] at hfl
    cases hfl
    rw [hm]
    simp [StrawHitFlag.merge, StrawHitFlag.empty]
  · intro out hout i ch hi hno
    rw [hfilt] at hout
    by_cases hfil : cfg.filter = true
    · rw [if_pos hfil] at hout
      cases hout
      show ch ∈ filterHits cfg.bkgmsk chcol.hits st.chfcol
      rw [filterHits_eq_keptHits]
      exact keptHits_mem_of_empty cfg.bkgmsk chcol.hits st.chfcol i ch hi (hempty i ch hi hno)
    · rw [if_neg hfil] at hout; cases hout

/-- Claim C27 on the sample event with the clusterer that returns the lone-hit cluster
only: four hits belong to no cluster. -/
theorem C27_referenced_and_unreferenced_witness :
    ∃ r, produce { exEnv with findClusters := fun _ => [exLone] } exCfg ⟨exHits, 7⟩ 5 exHits
        exVars = some r ∧
      (∀ f, r.products.chfcol = some f → ∀ (i : Nat),
        (∃ c ∈ [exLone], ∃ chit ∈ c.hits, chit.index = i) →
        ∃ g, f[i]? = some g ∧
          g.hasAllProperties (StrawHitFlag.bit exEnv.sh.bkgclust) = true) ∧
      (∀ f, r.products.chfcol = some f → ∀ (i : Nat) (ch : ComboHit),
        exHits[i]? = some ch →
        (∀ c ∈ [exLone], ∀ chit ∈ c.hits, chit.index ≠ i) →
        f[i]? = some ch.flag) ∧
      (∀ out, r.products.chcol = some out → ∀ (i : Nat) (ch : ComboHit),
        exHits[i]? = some ch →
        (∀ c ∈ [exLone], ∀ chit ∈ c.hits, chit.index ≠ i) →
        ch ∈ out.hits) :=
  match h : produce { exEnv with findClusters := fun _ => [exLone] } exCfg ⟨exHits, 7⟩ 5
      exHits exVars with
  | some r =>
    ⟨r, rfl, C27_referenced_and_unreferenced { exEnv with findClusters := fun _ => [exLone] }
      exCfg ⟨exHits, 7⟩ 5 exHits exVars r h⟩
  | none => absurd h (by decide)

/-! ## Claim on the straw-hit flags -/

theorem mergeAt_bits (flag : StrawHitFlag) :
    ∀ (l : List Nat) (s s2 : List StrawHitFlag), mergeAt flag l s = Except.ok s2 →
      s2.length = s.length ∧ (∀ shid ∈ l, shid < s.length) ∧
      ∀ (j : Nat) (f : StrawHitFlag), s[j]? = some f →
        ∃ g, s2[j]? = some g ∧ ∀ b, g.mask.testBit b
          = (f.mask.testBit b || (decide (j ∈ l) && flag.mask.testBit b)) := by
  intro l
  induction l with
  | nil =>
    intro s s2 h
    simp only [mergeAt, Except.ok.injEq] at h
    subst h
    exact ⟨rfl, by simp, fun j f hj => ⟨f, hj, by simp⟩⟩
  | cons shid rest ih =>
    intro s s2 h
    cases hg : s[shid]? with
    | none => simp [mergeAt, hg] at h
    | some f0 =>
      simp only [mergeAt, hg] at h
      obtain ⟨e1, e2, e3⟩ := ih _ _ h
      rw [List.length_set] at e1 e2
      have hlt : shid < s.length := (List.getElem?_eq_some_iff.mp hg).1
      refine ⟨e1, ?_, ?_⟩
      · intro x hx
        rcases List.mem_cons.mp hx with rfl | hx
        · exact hlt
        · exact e2 x hx
      · intro j f hj
        by_cases hjs : shid = j
        · subst hjs
          rw [hg] at hj
          cases hj
          obtain ⟨g, hg1, hg2⟩ := e3 shid (f0.merge flag)
            (by rw [List.getElem?_set]; simp [hlt])
          refine ⟨g, hg1, ?_⟩
          intro b
          rw [hg2 b, merge_testBit]
          cases f0.mask.testBit b <;> cases flag.mask.testBit b <;> simp
        · obtain ⟨g, hg1, hg2⟩ := e3 j f (by rw [List.getElem?_set]; simp [hjs, hj])
          refine ⟨g, hg1, ?_⟩
          intro b
          rw [hg2 b]
          have hne : ¬ j = shid := fun e => hjs e.symm
          simp [hne]

theorem mergeAt_error (flag : StrawHitFlag) :
    ∀ (l : List Nat) (s : List StrawHitFlag) (e : Exception),
      mergeAt flag l s = Except.error e →
      e = Exception.outOfRange ∧ ∃ shid ∈ l, s.length ≤ shid := by
  intro l
  induction l with
  | nil => intro s e h; simp [mergeAt] at h
  | cons shid rest ih =>
    intro s e h
    cases hg : s[shid]? with
    | none =>
      simp only [mergeAt, hg, Except.error.injEq] at h
      refine ⟨h.symm, shid, List.mem_cons_self _ _, ?_⟩
      exact List.getElem?_eq_none_iff.mp hg
    | some f0 =>
      simp only [mergeAt, hg] at h
      obtain ⟨e1, x, hx, hxl⟩ := ih _ _ h
      rw [List.length_set] at hxl
      exact ⟨e1, x, List.mem_cons_of_mem _ hx, hxl⟩

theorem strawLoop_bits (env : Env) :
    ∀ (flags : List StrawHitFlag) (ich : Nat) (s s2 : List StrawHitFlag),
      strawLoop env flags ich s = Except.ok s2 →
      s2.length = s.length ∧
      (∀ (k : Nat) (fl : StrawHitFlag), flags[k]? = some fl →
        ∀ shid ∈ env.fillStrawHitIndices (ich + k), shid < s.length) ∧
      ∀ (j : Nat) (f : StrawHitFlag), s[j]? = some f →
        ∃ g, s2[j]? = some g ∧ ∀ b, g.mask.testBit b = true ↔
          (f.mask.testBit b = true ∨ ∃ (k : Nat) (fl : StrawHitFlag), flags[k]? = some fl ∧
            j ∈ env.fillStrawHitIndices (ich + k) ∧ fl.mask.testBit b = true) := by
  intro flags
  induction flags with
  | nil =>
    intro ich s s2 h
    simp only [strawLoop, Except.ok.injEq] at h
    subst h
    exact ⟨rfl, by simp, fun j f hj => ⟨f, hj, by simp⟩⟩
  | cons flag rest ih =>
    intro ich s s2 h
    cases hm : mergeAt flag (env.fillStrawHitIndices ich) s with
    | error e => simp [strawLoop, hm] at h
    | ok s1 =>
      simp only [strawLoop, hm] at h
      obtain ⟨a1, a2, a3⟩ := mergeAt_bits flag _ _ _ hm
      obtain ⟨b1, b2, b3⟩ := ih _ _ _ h
      refine ⟨by omega, ?_, ?_⟩
      · intro k fl hk shid hshid
        cases k with
        | zero => exact a2 shid (by simpa using hshid)
        | succ k =>
          simp only [List.getElem?_cons_succ] at hk
          have := b2 k fl hk shid (by rw [show ich + 1 + k = ich + (k + 1) by omega]; exact hshid)
          omega
      · intro j f hj
        obtain ⟨g1, hg1, hg1b⟩ := a3 j f hj
        obtain ⟨g2, hg2, hg2b⟩ := b3 j g1 hg1
        refine ⟨g2, hg2, ?_⟩
        intro b
        rw [hg2b b, hg1b b]
        constructor
        · intro hcase
          rcases hcase with h1 | ⟨k, fl, hk, hjk, hb⟩
          · simp only [Bool.or_eq_true, Bool.and_eq_true, decide_eq_true_eq] at h1
            rcases h1 with h1 | ⟨h1, h2⟩
            · exact Or.inl h1
            · exact Or.inr ⟨0, flag, by simp, by simpa using h1, h2⟩
          · exact Or.inr ⟨k + 1, fl, by simpa using hk,
              by rw [show ich + (k + 1) = ich + 1 + k by omega]; exact hjk, hb⟩
        · intro hcase
          rcases hcase with h1 | ⟨k, fl, hk, hjk, hb⟩
          · exact Or.inl (by simp [h1])
          · cases k with
            | zero =>
              simp only [List.getElem?_cons_zero, Option.some.injEq] at hk
              subst hk
              exact Or.inl (by
                simp only [Bool.or_eq_true, Bool.and_eq_true, decide_eq_true_eq]
                exact Or.inr ⟨by simpa using hjk, hb⟩)
            | succ k =>
              simp only [List.getElem?_cons_succ] at hk
              exact Or.inr ⟨k, fl, hk,
                by rw [show ich + 1 + k = ich + (k + 1) by omega]; exact hjk, hb⟩

theorem strawLoop_error (env : Env) :
    ∀ (flags : List StrawHitFlag) (ich : Nat) (s : List StrawHitFlag) (e : Exception),
      strawLoop env flags ich s = Except.error e →
      e = Exception.outOfRange ∧ ∃ (k : Nat) (fl : StrawHitFlag), flags[k]? = some fl ∧
        ∃ shid ∈ env.fillStrawHitIndices (ich + k), s.length ≤ shid := by
  intro flags
  induction flags with
  | nil => intro ich s e h; simp [strawLoop] at h
  | cons flag rest ih =>
    intro ich s e h
    cases hm : mergeAt flag (env.fillStrawHitIndices ich) s with
    | error e2 =>
      simp only [strawLoop, hm, Except.error.injEq] at h
      subst h
      obtain ⟨e1, shid, hshid, hl⟩ := mergeAt_error flag _ _ _ hm
      exact ⟨e1, 0, flag, by simp, shid, by simpa using hshid, hl⟩
    | ok s1 =>
      simp only [strawLoop, hm] at h
      obtain ⟨a1, _, _⟩ := mergeAt_bits flag _ _ _ hm
      obtain ⟨e1, k, fl, hk, shid, hshid, hl⟩ := ih _ _ _ h
      exact ⟨e1, k + 1, fl, by simpa using hk, shid,
        by rw [show ich + (k + 1) = ich + 1 + k by omega]; exact hshid, by omega⟩

/-- Claim C22.  With FlagStrawHits requested and matching collection sizes: when every
straw-hit index of every combo hit lies inside the straw-hit collection, `produce` raises
no exception and the StrawHits flag collection has one entry per straw hit, entry `j`
holding exactly the bits of the flag of straw-level hit `j` and the bits of the flags the
cluster loop left for the combo hits whose index list contains `j` (so the flag of
straw-level hit `j` itself when no combo hit refers to `j`); when some index lies outside,
`produce` raises the range exception and no StrawHits flag collection is written. -/
theorem C22_straw_flags (env : Env) (cfg : Config) (chcol : ComboHitCollection)
    (shcolSize : Nat) (shchcol : List ComboHit) (mvavars : List ℚ) (r : ProduceResult)
    (h : produce env cfg chcol shcolSize shchcol mvavars = some r)
    (hsh : cfg.flagsh = true) (heq : shcolSize = shchcol.length) :
    ∃ st, clusterLoop env cfg chcol.hits (env.findClusters chcol)
        ⟨List.replicate chcol.hits.length StrawHitFlag.empty, [], [], mvavars⟩ = some st ∧
      ((∀ ich, ich < chcol.hits.length → ∀ shid ∈ env.fillStrawHitIndices ich,
          shid < shchcol.length) →
        r.thrown = none ∧ ∃ f, r.products.shfcol = some f ∧ f.length = shcolSize ∧
          ∀ (j : Nat) (ch : ComboHit), shchcol[j]? = some ch →
            ∃ g, f[j]? = some g ∧
              (∀ b, g.mask.testBit b = true ↔
                (ch.flag.mask.testBit b = true ∨ ∃ (ich : Nat) (fl : StrawHitFlag),
                  st.chfcol[ich]? = some fl ∧ j ∈ env.fillStrawHitIndices ich ∧
                  fl.mask.testBit b = true)) ∧
              ((∀ ich, ich < chcol.hits.length → j ∉ env.fillStrawHitIndices ich) →
                g = ch.flag)) ∧
      ((∃ ich, ich < chcol.hits.length ∧ ∃ shid ∈ env.fillStrawHitIndices ich,
          shchcol.length ≤ shid) →
        r.thrown = some Exception.outOfRange ∧ r.products.shfcol = none) := by
  obtain ⟨st, hloop, _, _, hrest⟩ := produce_inv env cfg chcol shcolSize shchcol mvavars r h
  have hlen : st.chfcol.length = chcol.hits.length := by
    have := (clusterLoop_untouched env cfg chcol.hits _ _ _ hloop).1
    simpa using this
  refine ⟨st, hloop, ?_, ?_⟩
  · intro hin
    rcases hrest with ⟨_, hne, _⟩ | ⟨_, _, ⟨e, he, _⟩, _⟩ | ⟨hth, hs, _⟩
    · exact absurd heq hne
    · obtain ⟨_, k, fl, hk, shid, hshid, hl⟩ := strawLoop_error env _ _ _ _ he
      have hk2 : k < chcol.hits.length := by
        rw [← hlen]; exact (List.getElem?_eq_some_iff.mp hk).1
      have := hin k hk2 shid (by simpa using hshid)
      simp only [List.length_map] at hl
      omega
    · rcases hs with ⟨hf, _⟩ | ⟨_, _, s, hok, hsf⟩
      · rw [hsh] at hf; cases hf
      · obtain ⟨b1, _, b3⟩ := strawLoop_bits env _ _ _ _ hok
        refine ⟨hth, s, hsf, by simpa [heq] using b1, ?_⟩
        intro j ch hj
        obtain ⟨g, hg, hgb⟩ := b3 j ch.flag (by simp [hj])
        have hbits : ∀ b, g.mask.testBit b = true ↔
            (ch.flag.mask.testBit b = true ∨ ∃ (ich : Nat) (fl : StrawHitFlag),
              st.chfcol[ich]? = some fl ∧ j ∈ env.fillStrawHitIndices ich ∧
              fl.mask.testBit b = true) := by
          intro b
          rw [hgb b]
          simp only [Nat.zero_add]
        refine ⟨g, hg, hbits, ?_⟩
        intro hnone
        have hm : g.mask = ch.flag.mask := by
          apply Nat.eq_of_testBit_eq
          intro b
          have hb := hbits b
          cases hgt : g.mask.testBit b with
          | true =>
            rcases hb.mp hgt with h1 | ⟨ich, fl, hk, hjk, _⟩
            · exact h1.symm
            · have hk2 : ich < chcol.hits.length := by
                rw [← hlen]; exact (List.getElem?_eq_some_iff.mp hk).1
              exact absurd hjk (hnone ich hk2)
          | false =>
            cases hct : ch.flag.mask.testBit b with
            | true =>
              have := hb.mpr (Or.inl hct)
              rw [hgt] at this
              cases this
            | false => rfl
        cases g
        cases hc : ch.flag
        rw [hc] at hm
        simp only at hm
        rw [hm]
  · intro hout
    obtain ⟨ich, hich, shid, hshid, hl⟩ := hout
    rcases hrest with ⟨_, hne, _⟩ | ⟨_, _, ⟨e, he, hth⟩, hsf, _⟩ | ⟨_, hs, _⟩
    · exact absurd heq hne
    · obtain ⟨e1, _⟩ := strawLoop_error env _ _ _ _ he
      rw [e1] at hth
      exact ⟨hth, hsf⟩
    · rcases hs with ⟨hf, _⟩ | ⟨_, _, s, hok, _⟩
      · rw [hsh] at hf; cases hf
      · obtain ⟨_, b2, _⟩ := strawLoop_bits env _ _ _ _ hok
        have hk : st.chfcol[ich]? = some st.chfcol[ich] :=
          List.getElem?_eq_getElem (by rw [hlen]; exact hich)
        have := b2 ich _ hk shid (by simpa using hshid)
        simp only [List.length_map] at this
        omega

/-- Claim C22 on the sample event: five straw hits, combo hit `ich` made of straw hit
`ich`. -/
theorem C22_straw_flags_witness :
    exCfg.flagsh = true ∧ 5 = exHits.length ∧
    ∃ r, produce exEnv exCfg ⟨exHits, 7⟩ 5 exHits exVars = some r ∧
    ∃ st, clusterLoop exEnv exCfg exHits (exEnv.findClusters ⟨exHits, 7⟩)
        ⟨List.replicate exHits.length StrawHitFlag.empty, [], [], exVars⟩ = some st ∧
      ((∀ ich, ich < exHits.length → ∀ shid ∈ exEnv.fillStrawHitIndices ich,
          shid < exHits.length) →
        r.thrown = none ∧ ∃ f, r.products.shfcol = some f ∧ f.length = 5 ∧
          ∀ (j : Nat) (ch : ComboHit), exHits[j]? = some ch →
            ∃ g, f[j]? = some g ∧
              (∀ b, g.mask.testBit b = true ↔
                (ch.flag.mask.testBit b = true ∨ ∃ (ich : Nat) (fl : StrawHitFlag),
                  st.chfcol[ich]? = some fl ∧ j ∈ exEnv.fillStrawHitIndices ich ∧
                  fl.mask.testBit b = true)) ∧
              ((∀ ich, ich < exHits.length → j ∉ exEnv.fillStrawHitIndices ich) →
                g = ch.flag)) ∧
      ((∃ ich, ich < exHits.length ∧ ∃ shid ∈ exEnv.fillStrawHitIndices ich,
          exHits.length ≤ shid) →
        r.thrown = some Exception.outOfRange ∧ r.products.shfcol = none) :=
  ⟨rfl, rfl,
    match h : produce exEnv exCfg ⟨exHits, 7⟩ 5 exHits exVars with
    | some r => ⟨r, rfl, C22_straw_flags exEnv exCfg ⟨exHits, 7⟩ 5 exHits exVars r h rfl rfl⟩
    | none => absurd h (by decide)⟩

/-! ## Claims on the plane range -/

theorem hasActiveHit_of_member (env : Env) (chcol : List ComboHit) (cluster : BkgCluster)
    (hp : PlanesValid env chcol)
    (hpos : ∃ chit ∈ cluster.hits, chit.flag.hasAllProperties env.active = true ∧
      0 < multiplicity chcol chit) :
    HasActiveHit env chcol cluster := by
  have hsum : 0 < activeHits env chcol cluster := by
    rw [activeHits_eq_activeSum]
    obtain ⟨chit, hmem, ha, hm⟩ := hpos
    unfold activeSum
    have hin : chit ∈ cluster.hits.filter (fun chit => chit.flag.hasAllProperties env.active) :=
      List.mem_filter.mpr ⟨hmem, by simpa using ha⟩
    have hle := List.single_le_sum (fun x _ => Nat.zero_le x) _
      (List.mem_map_of_mem (multiplicity chcol) hin)
    omega
  exact exists_plane_of_activeMult env chcol hp.2 cluster.hits hsum

theorem member_of_hasActiveHit (env : Env) (chcol : List ComboHit) (cluster : BkgCluster)
    (ha : HasActiveHit env chcol cluster) :
    ∃ chit ∈ cluster.hits, chit.flag.hasAllProperties env.active = true ∧
      0 < multiplicity chcol chit := by
  obtain ⟨p, _, hpl⟩ := ha
  unfold planeHits at hpl
  obtain ⟨x, hx, hxpos⟩ := List.exists_mem_ne_zero_of_sum_ne_zero (Nat.pos_iff_ne_zero.mp hpl)
  obtain ⟨chit, hmem, rfl⟩ := List.mem_map.mp hx
  refine ⟨chit, hmem, ?_⟩
  unfold planeMult at hxpos
  by_cases hact : chit.flag.hasAllProperties env.active = true
  · refine ⟨hact, ?_⟩
    rw [if_pos hact] at hxpos
    unfold multiplicity
    cases hc : chcol[chit.index]? with
    | none => rw [hc] at hxpos; exact absurd rfl hxpos
    | some ch =>
      rw [hc] at hxpos
      simp only at hxpos ⊢
      by_cases hpl2 : ch.plane = p
      · rw [if_pos hpl2] at hxpos; omega
      · rw [if_neg hpl2] at hxpos; exact absurd rfl hxpos
  · rw [if_neg hact] at hxpos; exact absurd rfl hxpos

/-- Claim C28.  For a cluster with an active member of positive multiplicity (indices and
planes valid), `countPlanes` returns with `1 <= np <= npexp <= nplanes`, where
`npexp = ipmax + 1 - ipmin` for a range whose lowest plane `ipmin` and highest plane
`ipmax` both hold active straw hits; hence `0 < npfrac <= 1`, and `npfrac = 1` exactly when
every plane from `ipmin` to `ipmax` holds an active straw hit. -/
theorem C28_plane_counts (env : Env) (chcol : List ComboHit) (cluster : BkgCluster)
    (cqual : BkgQual) (hv : IndicesValid chcol cluster) (hp : PlanesValid env chcol)
    (hpos : ∃ chit ∈ cluster.hits, chit.flag.hasAllProperties env.active = true ∧
      0 < multiplicity chcol chit) :
    ∃ ipmin ipmax c q, countPlanesCore env chcol cluster = some c ∧
      countPlanes env chcol cluster cqual = some q ∧
      q.np = (c.np : ℚ) ∧ q.npexp = (c.npexp : ℚ) ∧ q.npfrac = (c.np : ℚ) / (c.npexp : ℚ) ∧
      1 ≤ c.np ∧ c.np ≤ c.npexp ∧ c.npexp ≤ env.nplanes ∧
      ipmin ≤ ipmax ∧ ipmax < env.nplanes ∧ c.npexp = ipmax + 1 - ipmin ∧
      0 < planeHits env chcol cluster ipmin ∧ 0 < planeHits env chcol cluster ipmax ∧
      0 < q.npfrac ∧ q.npfrac ≤ 1 ∧
      (q.npfrac = 1 ↔ ∀ p, ipmin ≤ p → p ≤ ipmax → 0 < planeHits env chcol cluster p) := by
  have ha : HasActiveHit env chcol cluster := hasActiveHit_of_member env chcol cluster hp hpos
  obtain ⟨ipmin, ipmax, c, hcore, h1, h2, h3, h4, h5, h6, h7, h8, _⟩ :=
    countPlanesCore_spec env chcol cluster hv hp ha
  have hcnt : c.np = (List.range' ipmin (ipmax + 1 - ipmin)).countP
      (fun ip => decide (0 < planeHits env chcol cluster ip)) := by
    rw [h8, countP_range_split (planeHits env chcol cluster) env.nplanes ipmin ipmax h1 h2 h5 h6]
    rfl
  have hle : c.np ≤ c.npexp := by
    rw [hcnt, h7]
    have := List.countP_le_length (fun ip => decide (0 < planeHits env chcol cluster ip))
      (l := List.range' ipmin (ipmax + 1 - ipmin))
    simpa using this
  have hge : 1 ≤ c.np := by
    rw [hcnt]
    apply List.countP_pos_iff.mpr
    refine ⟨ipmin, ?_, by simpa using h3⟩
    rw [List.mem_range']
    exact ⟨0, by omega, by omega⟩
  have hfull : c.np = c.npexp ↔
      ∀ p, ipmin ≤ p → p ≤ ipmax → 0 < planeHits env chcol cluster p := by
    have hlen : c.npexp = (List.range' ipmin (ipmax + 1 - ipmin)).length := by
      rw [h7]; simp
    rw [hcnt, hlen, List.countP_eq_length]
    constructor
    · intro hall p hp1 hp2
      have := hall p (by rw [List.mem_range']; exact ⟨p - ipmin, by omega, by omega⟩)
      simpa using this
    · intro hall p hmem
      rw [List.mem_range'] at hmem
      obtain ⟨i, hi, rfl⟩ := hmem
      have := hall (ipmin + 1 * i) (by omega) (by omega)
      simpa using this
  have hq : countPlanes env chcol cluster cqual = some (cqual.withPlanes c) := by
    simp only [countPlanes, hcore]
  have hnpq : (0 : ℚ) < (c.np : ℚ) := by exact_mod_cast hge
  have hnpexpq : (0 : ℚ) < (c.npexp : ℚ) := by
    have : 0 < c.npexp := by omega
    exact_mod_cast this
  have hfrac : (cqual.withPlanes c).npfrac = (c.np : ℚ) / (c.npexp : ℚ) := rfl
  refine ⟨ipmin, ipmax, c, cqual.withPlanes c, hcore, hq, rfl, rfl, hfrac, hge, hle, by omega,
    h1, h2, h7, h3, h4, ?_, ?_, ?_⟩
  · rw [hfrac]; exact div_pos hnpq hnpexpq
  · rw [hfrac, div_le_one hnpexpq]; exact_mod_cast hle
  · rw [hfrac, div_eq_one_iff_eq (ne_of_gt hnpexpq), ← hfull]
    exact_mod_cast Iff.rfl

/-- Claim C28 on the sample cluster: planes 0 to 3, all occupied. -/
theorem C28_plane_counts_witness :
    IndicesValid exHits exCluster ∧ PlanesValid exEnv exHits ∧
    (∃ chit ∈ exCluster.hits, chit.flag.hasAllProperties exEnv.active = true ∧
      0 < multiplicity exHits chit) ∧
    ∃ ipmin ipmax c q, countPlanesCore exEnv exHits exCluster = some c ∧
      countPlanes exEnv exHits exCluster exFresh = some q ∧
      q.np = (c.np : ℚ) ∧ q.npexp = (c.npexp : ℚ) ∧ q.npfrac = (c.np : ℚ) / (c.npexp : ℚ) ∧
      1 ≤ c.np ∧ c.np ≤ c.npexp ∧ c.npexp ≤ exEnv.nplanes ∧
      ipmin ≤ ipmax ∧ ipmax < exEnv.nplanes ∧ c.npexp = ipmax + 1 - ipmin ∧
      0 < planeHits exEnv exHits exCluster ipmin ∧ 0 < planeHits exEnv exHits exCluster ipmax ∧
      0 < q.npfrac ∧ q.npfrac ≤ 1 ∧
      (q.npfrac = 1 ↔ ∀ p, ipmin ≤ p → p ≤ ipmax → 0 < planeHits exEnv exHits exCluster p) :=
  ⟨by decide, by decide, by decide,
    C28_plane_counts exEnv exHits exCluster exFresh (by decide) (by decide) (by decide)⟩

/-- Claim C29.  On the plane counters `hitplanes` the first loop of `countPlanes` fills
(indices and planes valid), the two range scans stop inside the array, at
`0 <= ipmin <= ipmax <= nplanes - 1`, exactly when some plane has a non-zero counter, which
is exactly when the cluster has an active member of positive multiplicity; with every
counter zero the first scan runs off the array.  A call of `fillBkgQual` with
`MinActiveHits >= 1` reaches `countPlanes` only after the hit-count checks, and a cluster
that passes them has such a member. -/
theorem C29_range_scan (env : Env) (cfg : Config) (chcol : List ComboHit)
    (cluster : BkgCluster) (hv : IndicesValid chcol cluster) (hp : PlanesValid env chcol) :
    ∃ hitplanes, fillHitPlanes env chcol cluster.hits (fun _ => 0) = some hitplanes ∧
      ((∃ ipmin ipmax, scanUp hitplanes env.nplanes 0 = some ipmin ∧
          scanDown hitplanes env.nplanes = some ipmax ∧
          ipmin ≤ ipmax ∧ ipmax ≤ env.nplanes - 1 ∧ ipmax < env.nplanes) ↔
        ∃ p, p < env.nplanes ∧ hitplanes p ≠ 0) ∧
      ((∃ p, p < env.nplanes ∧ hitplanes p ≠ 0) ↔
        ∃ chit ∈ cluster.hits, chit.flag.hasAllProperties env.active = true ∧
          0 < multiplicity chcol chit) ∧
      ((¬ ∃ p, p < env.nplanes ∧ hitplanes p ≠ 0) →
        scanUp hitplanes env.nplanes 0 = none ∧ countPlanesCore env chcol cluster = none) ∧
      ∃ na ns, countHits env chcol cluster = some (na, ns) ∧
        (1 ≤ cfg.minnhits → cfg.minnhits ≤ na → cfg.minnstereo ≤ ns →
          ∃ chit ∈ cluster.hits, chit.flag.hasAllProperties env.active = true ∧
            0 < multiplicity chcol chit) := by
  have hfill := fillHitPlanes_cluster env chcol cluster hv hp
  refine ⟨planeHits env chcol cluster, hfill, ?_, ?_, ?_, ?_⟩
  · constructor
    · rintro ⟨ipmin, ipmax, hup, _, _, _, _⟩
      obtain ⟨_, hlt, hne, _⟩ := scanUp_some _ _ _ _ hup
      exact ⟨ipmin, by omega, hne⟩
    · rintro ⟨p, hplt, hpne⟩
      cases hup : scanUp (planeHits env chcol cluster) env.nplanes 0 with
      | none =>
        have := (scanUp_none _ _ _).mp hup p (Nat.zero_le p) (by omega)
        exact absurd this hpne
      | some ipmin =>
        cases hdn : scanDown (planeHits env chcol cluster) env.nplanes with
        | none =>
          have := (scanDown_none _ _).mp hdn p hplt
          exact absurd this hpne
        | some ipmax =>
          obtain ⟨_, hlt, hne, _⟩ := scanUp_some _ _ _ _ hup
          obtain ⟨hlt2, _, hz⟩ := scanDown_some _ _ _ hdn
          refine ⟨ipmin, ipmax, rfl, rfl, ?_, by omega, hlt2⟩
          by_contra hcon
          exact hne (hz ipmin (by omega) (by omega))
  · constructor
    · rintro ⟨p, hplt, hpne⟩
      exact member_of_hasActiveHit env chcol cluster ⟨p, hplt, Nat.pos_of_ne_zero hpne⟩
    · intro hpos
      obtain ⟨p, hplt, hpp⟩ := hasActiveHit_of_member env chcol cluster hp hpos
      exact ⟨p, hplt, Nat.pos_iff_ne_zero.mp hpp⟩
  · intro hnone
    have hna : ¬ HasActiveHit env chcol cluster := by
      rintro ⟨p, hplt, hpp⟩
      exact hnone ⟨p, hplt, Nat.pos_iff_ne_zero.mp hpp⟩
    refine ⟨?_, countPlanesCore_none env chcol cluster hv hp hna⟩
    rw [scanUp_none]
    intro j _ hj
    by_contra hcon
    exact hnone ⟨j, by omega, hcon⟩
  · obtain ⟨na, ns, hc, _⟩ := countHits_spec env chcol cluster hv
    refine ⟨na, ns, hc, ?_⟩
    intro h1 h2 _
    exact member_of_hasActiveHit env chcol cluster
      (hasActiveHit_of_nactive env chcol cluster hv hp na ns hc (by omega))

/-- Claim C29 on the sample cluster: the scans stop at planes 0 and 3. -/
theorem C29_range_scan_witness :
    IndicesValid exHits exCluster ∧ PlanesValid exEnv exHits ∧
    ∃ hitplanes, fillHitPlanes exEnv exHits exCluster.hits (fun _ => 0) = some hitplanes ∧
      ((∃ ipmin ipmax, scanUp hitplanes exEnv.nplanes 0 = some ipmin ∧
          scanDown hitplanes exEnv.nplanes = some ipmax ∧
          ipmin ≤ ipmax ∧ ipmax ≤ exEnv.nplanes - 1 ∧ ipmax < exEnv.nplanes) ↔
        ∃ p, p < exEnv.nplanes ∧ hitplanes p ≠ 0) ∧
      ((∃ p, p < exEnv.nplanes ∧ hitplanes p ≠ 0) ↔
        ∃ chit ∈ exCluster.hits, chit.flag.hasAllProperties exEnv.active = true ∧
          0 < multiplicity exHits chit) ∧
      ((¬ ∃ p, p < exEnv.nplanes ∧ hitplanes p ≠ 0) →
        scanUp hitplanes exEnv.nplanes 0 = none ∧
          countPlanesCore exEnv exHits exCluster = none) ∧
      ∃ na ns, countHits exEnv exHits exCluster = some (na, ns) ∧
        (1 ≤ exCfg.minnhits → exCfg.minnhits ≤ na → exCfg.minnstereo ≤ ns →
          ∃ chit ∈ exCluster.hits, chit.flag.hasAllProperties exEnv.active = true ∧
            0 < multiplicity exHits chit) :=
  ⟨by decide, by decide, C29_range_scan exEnv exCfg exHits exCluster (by decide) (by decide)⟩

/-! ## Claim on the agreement of the two counts -/

theorem countHits_sums (env : Env) (chcol : List ComboHit) (cluster : BkgCluster)
    (hv : IndicesValid chcol cluster) :
    ∃ na ns, countHits env chcol cluster = some (na, ns) ∧
      na = activeSum env chcol cluster % 2 ^ 32 ∧
      ns = stereoSum env chcol cluster % 2 ^ 32 ∧
      (activeSum env chcol cluster < 2 ^ 32 →
        na = activeSum env chcol cluster ∧ ns = stereoSum env chcol cluster) := by
  obtain ⟨ra, rs, h1, h2, h3, h4, h5⟩ := countHitsLoop_sums env chcol cluster.hits 0 0 hv
  have ha : ra < 2 ^ 32 := h4 (by norm_num)
  have hs : rs < 2 ^ 32 := h5 (by norm_num)
  rw [Nat.mod_eq_of_lt ha, Nat.zero_add] at h2
  rw [Nat.mod_eq_of_lt hs, Nat.zero_add] at h3
  have hle := stereoSum_le_activeSum env chcol cluster
  refine ⟨ra, rs, h1, h2, h3, ?_⟩
  intro hlt
  have e1 : activeSum env chcol cluster % 2 ^ 32 = activeSum env chcol cluster :=
    Nat.mod_eq_of_lt hlt
  have e2 : stereoSum env chcol cluster % 2 ^ 32 = stereoSum env chcol cluster :=
    Nat.mod_eq_of_lt (by omega)
  exact ⟨by rw [h2]; exact e1, by rw [h3]; exact e2⟩

theorem ilog2Aux_le (fuel : Nat) : ∀ n : Nat, 1 ≤ n → 2 ^ ilog2Aux fuel n ≤ n := by
  induction fuel with
  | zero => intro n hn; simpa [ilog2Aux] using hn
  | succ f ih =>
    intro n hn
    unfold ilog2Aux
    by_cases h2 : n < 2
    · rw [if_pos h2]; simpa using hn
    · rw [if_neg h2]
      have hh : 1 ≤ n / 2 := by omega
      have := ih (n / 2) hh
      rw [Nat.pow_succ]
      omega

/-- The single-precision quotient is exact when the divisor divides the dividend. -/
theorem floatDiv_exact (k b : Nat) (hb : 0 < b) (hk : k * b < 2 ^ 24) :
    (floatDiv (k * b) b).1 * 2 ^ (floatDiv (k * b) b).2 = k * 2 ^ 23 := by
  have hq : k * b / b = k := Nat.mul_div_cancel k hb
  have hklt : k < 2 ^ 24 := lt_of_le_of_lt (Nat.le_mul_of_pos_right k hb) hk
  have he : ilog2 k ≤ 23 := by
    by_cases hk0 : k = 0
    · subst hk0; simp [ilog2, ilog2Aux]
    · have h1 : 2 ^ ilog2 k ≤ k := ilog2Aux_le k k (Nat.pos_of_ne_zero hk0)
      have h2 : 2 ^ ilog2 k < 2 ^ 24 := lt_of_le_of_lt h1 hklt
      have := (Nat.pow_lt_pow_iff_right (by norm_num : 1 < 2)).mp h2
      omega
  have hnum : k * b * 2 ^ (23 - ilog2 k) = (k * 2 ^ (23 - ilog2 k)) * b := by ring
  have hrem : k * b * 2 ^ (23 - ilog2 k) % b = 0 := by
    rw [hnum]; exact Nat.mul_mod_left _ _
  have hn : k * b * 2 ^ (23 - ilog2 k) / b = k * 2 ^ (23 - ilog2 k) := by
    rw [hnum]; exact Nat.mul_div_cancel _ hb
  unfold floatDiv
  simp only [hq, hrem, hn, Nat.mul_zero, hb, if_true]
  rw [Nat.mul_assoc, ← Nat.pow_add]
  congr 2
  omega

/-- Claim C30, amended.  For a cluster with an active member of positive multiplicity
(indices and planes valid) on which `countHits` returns `(nactive, nstereo)`: `countPlanes`
returns, and the total `nphits` it adds up over the range of occupied planes equals
`nactive`, with `np >= 1`; when the hit-count checks pass, `fillBkgQual` returns a
descriptor whose `nhits` is `nactive`, whose `np` is the plane count, whose `nphits` is the
quotient of `nactive` by `np` and whose `sfrac` is the quotient of `nstereo` by `nactive`;
the single-precision quotient stored in `nphits` is exact, so that `nphits * np = nhits`,
when `np` divides `nactive < 2 ^ 24`; and as long as the active straw hits number fewer
than `2 ^ 32` (no wrap of the unsigned counters), `1 <= nactive`, `nstereo <= nactive` and
`0 <= sfrac <= 1`. -/
theorem C30_counts_agree (env : Env) (cfg : Config) (chcol : List ComboHit)
    (mvavars : List ℚ) (cluster : BkgCluster) (cqual : BkgQual) (na ns : Nat)
    (hv : IndicesValid chcol cluster) (hp : PlanesValid env chcol)
    (hpos : ∃ chit ∈ cluster.hits, chit.flag.hasAllProperties env.active = true ∧
      0 < multiplicity chcol chit)
    (hm : cfg.useMVA = true → 9 ≤ mvavars.length)
    (hc : countHits env chcol cluster = some (na, ns)) :
    ∃ c, countPlanesCore env chcol cluster = some c ∧ c.nphits = na ∧ 1 ≤ c.np ∧
      (activeSum env chcol cluster < 2 ^ 32 → 1 ≤ na ∧ ns ≤ na) ∧
      (c.np ∣ na → na < 2 ^ 24 →
        (floatDiv c.nphits c.np).1 * 2 ^ (floatDiv c.nphits c.np).2 * c.np = na * 2 ^ 23) ∧
      (cfg.minnhits ≤ na → cfg.minnstereo ≤ ns →
        ∃ r, fillBkgQual env cfg chcol mvavars cluster cqual = some r ∧
          r.cqual.nhits = (na : ℚ) ∧ r.cqual.np = (c.np : ℚ) ∧
          r.cqual.nphits = (na : ℚ) / (c.np : ℚ) ∧
          r.cqual.sfrac = (ns : ℚ) / (na : ℚ) ∧
          (activeSum env chcol cluster < 2 ^ 32 → 0 ≤ r.cqual.sfrac ∧ r.cqual.sfrac ≤ 1)) := by
  have ha : HasActiveHit env chcol cluster := hasActiveHit_of_member env chcol cluster hp hpos
  obtain ⟨ipmin, ipmax, c, hcore, h1, h2, h3, h4, h5, h6, h7, h8, h9⟩ :=
    countPlanesCore_spec env chcol cluster hv hp ha
  obtain ⟨na2, ns2, hc2, hna, hns, hsmall⟩ := countHits_sums env chcol cluster hv
  rw [hc] at hc2
  cases hc2
  have hnph : c.nphits = na := by
    rw [h9, sum_range_split (planeHits env chcol cluster) env.nplanes ipmin ipmax h1 h2 h5 h6,
      sum_planeHits env chcol cluster hp, activeHits_eq_activeSum, hna]
  have hnp : 1 ≤ c.np := by
    rw [h8]
    unfold occupiedPlanes
    apply List.length_pos_of_mem (a := ipmin)
    rw [List.mem_filter]
    exact ⟨List.mem_range.mpr (by omega), by simpa using h3⟩
  have hsumpos : 0 < activeSum env chcol cluster := by
    obtain ⟨chit, hmem, hact, hmul⟩ := hpos
    unfold activeSum
    have hin : chit ∈ cluster.hits.filter (fun chit => chit.flag.hasAllProperties env.active) :=
      List.mem_filter.mpr ⟨hmem, by simpa using hact⟩
    have hle := List.single_le_sum (fun x _ => Nat.zero_le x) _
      (List.mem_map_of_mem (multiplicity chcol) hin)
    omega
  have hord : activeSum env chcol cluster < 2 ^ 32 → 1 ≤ na ∧ ns ≤ na := by
    intro hlt
    obtain ⟨e1, e2⟩ := hsmall hlt
    have := stereoSum_le_activeSum env chcol cluster
    omega
  have hexact : c.np ∣ na → na < 2 ^ 24 →
      (floatDiv c.nphits c.np).1 * 2 ^ (floatDiv c.nphits c.np).2 * c.np = na * 2 ^ 23 := by
    intro hdvd hlt
    obtain ⟨k, hk⟩ := hdvd
    have hkb : na = k * c.np := by rw [hk, Nat.mul_comm]
    rw [hnph, hkb, floatDiv_exact k c.np hnp (by rw [← hkb]; exact hlt)]
    ring
  refine ⟨c, hcore, hnph, hnp, hord, hexact, ?_⟩
  intro hc1 hc2
  obtain ⟨r, hr⟩ := fillBkgQual_some env cfg chcol mvavars cluster cqual hv hp (Or.inr ha) hm
  obtain ⟨na3, ns3, hc3, hcase⟩ := fillBkgQual_inv env cfg chcol mvavars cluster cqual r hr
  rw [hc] at hc3
  cases hc3
  have hfields : r.cqual.nhits = (na : ℚ) ∧ r.cqual.np = (c.np : ℚ) ∧
      r.cqual.nphits = (c.nphits : ℚ) / (c.np : ℚ) ∧ r.cqual.sfrac = (ns : ℚ) / (na : ℚ) := by
    rcases hcase with ⟨hnot, _⟩ | ⟨_, _, c2, hcore2, hbr⟩
    · exact absurd ⟨hc1, hc2⟩ hnot
    · rw [hcore] at hcore2
      cases hcore2
      rcases hbr with ⟨_, hreq⟩ | ⟨_, hsp⟩
      · rw [hreq]
        exact ⟨rfl, rfl, rfl, rfl⟩
      · obtain ⟨⟨e1, e2, _, e4, _, _, e7⟩, _⟩ :=
          fillSpread_inv env cfg chcol mvavars cluster na _ r hsp
        rw [e1, e2, e4, e7]
        exact ⟨rfl, rfl, rfl, rfl⟩
  obtain ⟨f1, f2, f3, f4⟩ := hfields
  refine ⟨r, hr, f1, f2, ?_, f4, ?_⟩
  · rw [f3, hnph]
  · intro hlt
    obtain ⟨o1, o2⟩ := hord hlt
    have hnaq : (0 : ℚ) < (na : ℚ) := by exact_mod_cast o1
    rw [f4]
    refine ⟨div_nonneg (by exact_mod_cast Nat.zero_le ns) (le_of_lt hnaq), ?_⟩
    rw [div_le_one hnaq]
    exact_mod_cast o2

/-- Claim C30 on the sample cluster: 15 active and 10 stereo straw hits on 4 planes. -/
theorem C30_counts_agree_witness :
    IndicesValid exHits exCluster ∧ PlanesValid exEnv exHits ∧
    (∃ chit ∈ exCluster.hits, chit.flag.hasAllProperties exEnv.active = true ∧
      0 < multiplicity exHits chit) ∧
    (exCfg.useMVA = true → 9 ≤ exVars.length) ∧
    countHits exEnv exHits exCluster = some (15, 10) ∧
    ∃ c, countPlanesCore exEnv exHits exCluster = some c ∧ c.nphits = 15 ∧ 1 ≤ c.np ∧
      (activeSum exEnv exHits exCluster < 2 ^ 32 → 1 ≤ 15 ∧ 10 ≤ 15) ∧
      (c.np ∣ 15 → 15 < 2 ^ 24 →
        (floatDiv c.nphits c.np).1 * 2 ^ (floatDiv c.nphits c.np).2 * c.np = 15 * 2 ^ 23) ∧
      (exCfg.minnhits ≤ 15 → exCfg.minnstereo ≤ 10 →
        ∃ r, fillBkgQual exEnv exCfg exHits exVars exCluster exFresh = some r ∧
          r.cqual.nhits = ((15 : ℕ) : ℚ) ∧ r.cqual.np = (c.np : ℚ) ∧
          r.cqual.nphits = ((15 : ℕ) : ℚ) / (c.np : ℚ) ∧
          r.cqual.sfrac = ((10 : ℕ) : ℚ) / ((15 : ℕ) : ℚ) ∧
          (activeSum exEnv exHits exCluster < 2 ^ 32 →
            0 ≤ r.cqual.sfrac ∧ r.cqual.sfrac ≤ 1)) :=
  ⟨by decide, by decide, by decide, by decide, by decide,
    C30_counts_agree exEnv exCfg exHits exVars exCluster exFresh 15 10
      (by decide) (by decide) (by decide) (by decide) (by decide)⟩

/-- Claim C30, counterexamples.  On the sample cluster without an active member
`countHits` returns `nactive = 0` while `countPlanes` finds no occupied plane and runs off
the plane array, so it accumulates no total to compare.  On the sample cluster of 31 straw
hits on 7 planes both counts are 31 and `np = 7`, but the single-precision quotient stored
in `nphits` is `9287387 / 2 ^ 21`, and seven times that is not 31. -/
theorem C30_counterexample :
    (countHits exEnv exHits exIdle = some (0, 0) ∧
      (¬ ∃ chit ∈ exIdle.hits, chit.flag.hasAllProperties exEnv.active = true ∧
        0 < multiplicity exHits chit) ∧
      (∀ p, p < exEnv.nplanes → planeHits exEnv exHits exIdle p = 0) ∧
      countPlanesCore exEnv exHits exIdle = none ∧
      countPlanes exEnv exHits exIdle exFresh = none) ∧
    (IndicesValid exHitsSeven exSeven ∧ PlanesValid exEnv exHitsSeven ∧
      countHits exEnv exHitsSeven exSeven = some (31, 0) ∧
      countPlanesCore exEnv exHitsSeven exSeven = some ⟨7, 7, 31⟩ ∧
      floatDiv 31 7 = (9287387, 2) ∧
      9287387 * 2 ^ 2 * 7 ≠ 31 * 2 ^ 23) := by
  decide

/-! ## Claim on the divisors -/

theorem spreadDivisors_spec (env : Env) (cfg : Config) (chcol : List ComboHit)
    (cluster : BkgCluster) (nactive : Nat) :
    ∀ (l : List BkgClusterHit) (acc acc2 : SpreadAcc),
      spreadLoop env cfg chcol cluster nactive l acc = some acc2 →
      ∃ ds, spreadDivisors env cfg chcol cluster nactive l = some ds ∧
        acc2.racc.map (fun s => s.2) = acc.racc.map (fun s => s.2) ++
          ds.map (fun m => 1 / m.rwt) ∧
        acc2.tacc.length = acc.tacc.length + ds.length ∧
        (∀ m ∈ ds, m.cperr = nactive ∧ m.unit ≠ some 0) ∧
        (0 < nactive → 0 < cfg.cperr2 → (∀ x, 0 < x → 0 < env.sqrtf x) →
          ∀ m ∈ ds, 0 < m.rwt) := by
  intro l
  induction l with
  | nil =>
    intro acc acc2 h
    simp only [spreadLoop, Option.some.injEq] at h
    subst h
    exact ⟨[], rfl, by simp, by simp, by simp, by simp⟩
  | cons chit rest ih =>
    intro acc acc2 h
    by_cases ha : chit.flag.hasAllProperties env.active = true
    · cases hg : chcol[chit.index]? with
      | none => simp [spreadLoop, ha, hg] at h
      | some ch =>
        simp only [spreadLoop, if_pos ha, hg] at h
        obtain ⟨ds, hds, hw, hl, hm, hpos⟩ := ih _ _ h
        have hsd : spreadDivisors env cfg chcol cluster nactive (chit :: rest) = some
            ((⟨nactive,
              if env.sqrtf ((ch.pos.sub cluster.pos).perpZ).mag2 = 0 then none
                else some (env.sqrtf ((ch.pos.sub cluster.pos).perpZ).mag2),
              env.sqrtf
                (ch.wres * (((ch.pos.sub cluster.pos).perpZ).unit env.sqrtf).dot ch.wdir *
                    (ch.wres * (((ch.pos.sub cluster.pos).perpZ).unit env.sqrtf).dot ch.wdir) +
                  ch.tres * (((ch.pos.sub cluster.pos).perpZ).unit env.sqrtf).dot
                      ⟨-ch.wdir.y, ch.wdir.x, 0⟩ *
                    (ch.tres * (((ch.pos.sub cluster.pos).perpZ).unit env.sqrtf).dot
                      ⟨-ch.wdir.y, ch.wdir.x, 0⟩) +
                  cfg.cperr2 / (nactive : ℚ))⟩ : MemberDivisors) :: ds) := by
          simp only [spreadDivisors, if_pos ha, hg, hds, Option.map_some']
        refine ⟨_, hsd, ?_, ?_, ?_, ?_⟩
        · rw [hw]
          simp
        · rw [hl]
          simp only [List.length_append, List.length_cons, List.length_nil]
          omega
        · intro m hmem
          rcases List.mem_cons.mp hmem with h1 | h1
          · subst h1
            refine ⟨rfl, ?_⟩
            by_cases ht : env.sqrtf ((ch.pos.sub cluster.pos).perpZ).mag2 = 0
            · simp [ht]
            · simp only [if_neg ht, ne_eq, Option.some.injEq]
              exact ht
          · exact hm m h1
        · intro hn hc hs m hmem
          rcases List.mem_cons.mp hmem with h1 | h1
          · subst h1
            have hnq : (0 : ℚ) < (nactive : ℚ) := by exact_mod_cast hn
            have hdiv : 0 < cfg.cperr2 / (nactive : ℚ) := div_pos hc hnq
            apply hs
            have e1 := mul_self_nonneg
              (ch.wres * (((ch.pos.sub cluster.pos).perpZ).unit env.sqrtf).dot ch.wdir)
            have e2 := mul_self_nonneg
              (ch.tres * (((ch.pos.sub cluster.pos).perpZ).unit env.sqrtf).dot
                ⟨-ch.wdir.y, ch.wdir.x, 0⟩)
            linarith
          · exact hpos hn hc hs m h1
    · simp only [spreadLoop, if_neg ha] at h
      obtain ⟨ds, hds, hw, hl, hm, hpos⟩ := ih _ _ h
      exact ⟨ds, by simp only [spreadDivisors, if_neg ha, hds], hw, hl, hm, hpos⟩

/-- The divisors recorded by `divisors` are the ones by which `fillBkgQual` divides: the
fields of the descriptor it returns are the quotients by them. -/
theorem divisors_spec (env : Env) (cfg : Config) (chcol : List ComboHit) (mvavars : List ℚ)
    (cluster : BkgCluster) (cqual : BkgQual) (r : FillResult)
    (h : fillBkgQual env cfg chcol mvavars cluster cqual = some r) :
    ∃ na ns d, countHits env chcol cluster = some (na, ns) ∧
      divisors env cfg chcol cluster = some d ∧
      ((¬ (cfg.minnhits ≤ na ∧ cfg.minnstereo ≤ ns) ∧
          d = ⟨none, none, none, [], none, none, none⟩) ∨
       (cfg.minnhits ≤ na ∧ cfg.minnstereo ≤ ns ∧
          d.sfrac = some na ∧ r.cqual.sfrac = (ns : ℚ) / (na : ℚ) ∧
          ∃ c, countPlanesCore env chcol cluster = some c ∧
            d.npfrac = some c.npexp ∧ d.nphits = some c.np ∧
            r.cqual.npfrac = (c.np : ℚ) / (c.npexp : ℚ) ∧
            r.cqual.nphits = (c.nphits : ℚ) / (c.np : ℚ) ∧
            ((c.np < cfg.minnp ∧ d.members = [] ∧ d.weights = none ∧ d.samples = none ∧
                d.hz = none) ∨
             (cfg.minnp ≤ c.np ∧
                ∃ acc, spreadLoop env cfg chcol cluster na cluster.hits ⟨[], [], []⟩ = some acc ∧
                  spreadDivisors env cfg chcol cluster na cluster.hits = some d.members ∧
                  acc.racc.map (fun s => s.2) = d.members.map (fun m => 1 / m.rwt) ∧
                  d.weights = some (acc.racc.map (fun s => s.2)).sum ∧
                  d.samples = some acc.tacc.length ∧
                  d.hz = some (acc.hz.insertionSort (fun a b => a ≤ b)).length ∧
                  r.cqual.hrho = (acc.racc.map (fun s => s.2 * s.1)).sum
                    / (acc.racc.map (fun s => s.2)).sum ∧
                  r.cqual.sdt = env.sqrtf (max (variance acc.tacc) 0) ∧
                  (acc.hz.insertionSort (fun a b => a ≤ b)).head? = some r.cqual.zmin ∧
                  (acc.hz.insertionSort (fun a b => a ≤ b)).getLast? = some r.cqual.zmax)))) := by
  obtain ⟨na, ns, hc, hcase⟩ := fillBkgQual_inv env cfg chcol mvavars cluster cqual r h
  rcases hcase with ⟨hnot, _⟩ | ⟨h1, h2, c, hcore, hbr⟩
  · have hnot2 : ¬ (na ≥ cfg.minnhits ∧ ns ≥ cfg.minnstereo) := hnot
    exact ⟨na, ns, _, hc, by simp only [divisors, hc, if_neg hnot2], Or.inl ⟨hnot, rfl⟩⟩
  · have hchk : na ≥ cfg.minnhits ∧ ns ≥ cfg.minnstereo := ⟨h1, h2⟩
    rcases hbr with ⟨hlt, hreq⟩ | ⟨hge, hsp⟩
    · have hpl : ¬ ((c.np : ℚ) ≥ (cfg.minnp : ℚ)) := by
        rw [ge_iff_le, Nat.cast_le]; omega
      have hd : divisors env cfg chcol cluster
          = some ⟨some na, some c.npexp, some c.np, [], none, none, none⟩ := by
        simp only [divisors, hc, if_pos hchk, hcore, if_neg hpl]
      refine ⟨na, ns, _, hc, hd, Or.inr ⟨h1, h2, rfl, ?_, c, hcore, rfl, rfl, ?_, ?_,
        Or.inl ⟨hlt, rfl, rfl, rfl, rfl⟩⟩⟩
      · rw [hreq]; rfl
      · rw [hreq]; rfl
      · rw [hreq]; rfl
    · have hpl : (c.np : ℚ) ≥ (cfg.minnp : ℚ) := by
        rw [ge_iff_le, Nat.cast_le]; exact hge
      obtain ⟨⟨_, e2, _, _, _, e6, e7⟩, _⟩ :=
        fillSpread_inv env cfg chcol mvavars cluster na _ r hsp
      obtain ⟨acc, front, back, hloop, hfront, hback, hq⟩ :=
        fillSpread_full env cfg chcol mvavars cluster na _ r hsp
      obtain ⟨ds, hds, hw, _, _, _⟩ :=
        spreadDivisors_spec env cfg chcol cluster na cluster.hits ⟨[], [], []⟩ acc hloop
      have hd : divisors env cfg chcol cluster
          = some ⟨some na, some c.npexp, some c.np, ds,
              some (acc.racc.map (fun s => s.2)).sum, some acc.tacc.length,
              some (acc.hz.insertionSort (fun a b => a ≤ b)).length⟩ := by
        simp only [divisors, hc, if_pos hchk, hcore, if_pos hpl, hloop, hds]
      have hfields : r.cqual.hrho = weightedMean acc.racc ∧
          r.cqual.sdt = env.sqrtf (max (variance acc.tacc) 0) ∧
          r.cqual.zmin = front ∧ r.cqual.zmax = back := by
        rcases hq with ⟨_, _, hr⟩ | ⟨_, hr, _⟩
        · rw [hr]; exact ⟨rfl, rfl, rfl, rfl⟩
        · rw [hr]; exact ⟨rfl, rfl, rfl, rfl⟩
      obtain ⟨f1, f2, f3, f4⟩ := hfields
      refine ⟨na, ns, _, hc, hd, Or.inr ⟨h1, h2, rfl, ?_, c, hcore, rfl, rfl, ?_, ?_,
        Or.inr ⟨hge, acc, hloop, hds, ?_, rfl, rfl, rfl, ?_, f2, ?_, ?_⟩⟩⟩
      · rw [e2]; rfl
      · rw [e6]; rfl
      · rw [e7]; rfl
      · simpa using hw
      · rw [f1]; rfl
      · rw [f3]; exact hfront
      · rw [f4]; exact hback

end mu2e
